import Mathlib

/-!
# LIBOR forward-rate Monte Carlo engine (`IR::run_LIBOR_simulations`)

A shallow embedding of `src/libraries/wab_advanced_quant_fi/src/rates.cpp`, of the Gaussian
sampler of `random.cpp`, of the two-asset option of `equity.cpp` and of the finite-difference
solver of `fx.cpp`.

## Modelling conventions

* A C++ `double` is a value of `Dbl F`: either `fin x` with `x` an element of a linear
  ordered field `F`, or `nan`, a value that is not finite.  `nan` is produced by a division
  by zero and by the square root of a negative number, and every operation propagates it, as
  IEEE arithmetic propagates `NaN`; a comparison with `nan` is false.
* The engine is embedded twice.  In the first embedding the arithmetic is exact: no
  rounding, no overflow, no underflow.  What is proved of it is stated so that it holds of
  double arithmetic too, up to rounding against a closed form: signs and comparisons that
  are not strict, and values on runs whose range is bounded far from the overflow and the
  underflow of a double.  In the second embedding, `Fp`, the result of every operation goes
  through a rounding `r`, and what is not finite is `nan`: an overflow and an invalid
  operation are not told apart, and a run all of whose values are finite is the run of the
  program.  `binary64` is the rounding of IEEE 754 doubles, to nearest with ties to even,
  with overflow and gradual underflow.  What is proved of `Fp` holds for every rounding that
  keeps `0`, `1`, the double `0.05` and what is not finite, as `binary64` does; with the
  identity for `r` the second embedding is the first (`rounded_engine_exact`).  Equalities
  between numbers the program computes (a path value that is `0`, two runs that return the
  same number) are stated in the second embedding, and so are the runs that turn on the
  rounding itself: an accumulation that depends on the path count, a sum `1 + alpha * L`
  rounded to `1`, a product or an exponential that underflows to `0`.
* `exp` and `sqrt` of `<cmath>` are the two fields of a `Libm F`, and the logarithm is a
  parameter `lg` of the sampler; what a theorem needs of them (`exp 0 = 1`, `0 <= exp x`,
  `exp (a + b) = exp a * exp b`) is a hypothesis of that theorem.  In `fx.cpp` the argument
  of `exp` is unbounded for ordinary inputs, and `exp` and `pow` are the fields of a
  `Cmath F`, whose values are doubles: not finite where the function overflows.
* `std::vector<double>` and `matrix<double>` are functions from indices to `Dbl F`; they
  start zero-filled, as `resize` leaves them, and their sizes are not modelled.  Where a run
  of `fx.cpp` leaves the bounds of an array (`FX1.out_of_bounds`) it has no result.
* The `int` fields `N` and `M` of an object are natural numbers.  The constructor arguments
  of `IR`, with `N` and `M` of type `int`, are an `IR_args F`: with a negative value the
  constructors of lines 7-16 throw, or line 30 writes past the end of `dW` (`N = -1`), and
  the call has no result; nor has it where `N + 2` leaves the range of `int`.
* A `for (int i = lo; i < hi; i++)` loop is `forLoop lo hi body`.
* In the engine the calls of `SampleBoxMuller::operator()` read an infinite stream
  `normal : Nat → F` of finite draws in order; the state counts the calls made so far.
* In the sampler the calls of `rand()` read an infinite stream `rand : Nat → Nat`, and the
  do-while loop makes at most `fuel` trips.
-/

namespace QuantFi

/-! ## Doubles -/

/-- A double: a finite value of the field `F`, or a value that is not finite. -/
inductive Dbl (F : Type) where
  | fin : F → Dbl F
  | nan : Dbl F
deriving DecidableEq, Repr

/-- The two functions of the C math library the engine calls. -/
structure Libm (F : Type) where
  exp : F → F
  sqrt : F → F

namespace Dbl

variable {F : Type} [LinearOrderedField F]

/-- Addition of doubles. -/
def add : Dbl F → Dbl F → Dbl F
  | fin a, fin b => fin (a + b)
  | _, _ => nan

/-- Multiplication of doubles. -/
def mul : Dbl F → Dbl F → Dbl F
  | fin a, fin b => fin (a * b)
  | _, _ => nan

/-- Subtraction of doubles. -/
def sub : Dbl F → Dbl F → Dbl F
  | fin a, fin b => fin (a - b)
  | _, _ => nan

/-- Unary minus. -/
def neg : Dbl F → Dbl F
  | fin a => fin (-a)
  | nan => nan

/-- Division of doubles: a zero divisor gives a non-finite result. -/
def div : Dbl F → Dbl F → Dbl F
  | fin a, fin b => if b = 0 then nan else fin (a / b)
  | _, _ => nan

/-- The comparison `a < b` of doubles, false as soon as one side is not finite. -/
def lt : Dbl F → Dbl F → Bool
  | fin a, fin b => decide (a < b)
  | _, _ => false

/-- The function `std::max(a, b)`, that is `(a < b) ? b : a`. -/
def stdmax (a b : Dbl F) : Dbl F :=
  if lt a b then b else a

/-- The function `exp` of `<cmath>`. -/
def exp (m : Libm F) : Dbl F → Dbl F
  | fin a => fin (m.exp a)
  | nan => nan

/-- The function `sqrt` of `<cmath>`: not finite on a negative argument. -/
def sqrt (m : Libm F) : Dbl F → Dbl F
  | fin a => if a < 0 then nan else fin (m.sqrt a)
  | nan => nan

/-- The finite value of a double, `0` when there is none. -/
def toF : Dbl F → F
  | fin a => a
  | nan => 0

/-- The comparison `a <= b` of doubles, false as soon as one side is not finite. -/
def le : Dbl F → Dbl F → Bool
  | fin a, fin b => decide (a ≤ b)
  | _, _ => false

/-- The comparison `a >= b` of doubles, false as soon as one side is not finite. -/
def ge : Dbl F → Dbl F → Bool
  | fin a, fin b => decide (b ≤ a)
  | _, _ => false

/-- The function `std::log` of `<cmath>`, given the real logarithm `lg`: not finite at `0`
and on a negative argument. -/
def log (lg : F → F) : Dbl F → Dbl F
  | fin a => if a ≤ 0 then nan else fin (lg a)
  | nan => nan

instance : Zero (Dbl F) := ⟨fin 0⟩

instance : One (Dbl F) := ⟨fin 1⟩

instance : Add (Dbl F) := ⟨add⟩

instance : Mul (Dbl F) := ⟨mul⟩

instance : Sub (Dbl F) := ⟨sub⟩

instance : Neg (Dbl F) := ⟨neg⟩

instance : Div (Dbl F) := ⟨div⟩

instance : NatCast (Dbl F) := ⟨fun n => fin (n : F)⟩

instance : CommMonoid (Dbl F) where
  mul_assoc a b c := by
    cases a <;> cases b <;> cases c <;> first | rfl | exact congrArg fin (mul_assoc _ _ _)
  one_mul a := by
    cases a
    · exact congrArg fin (one_mul _)
    · rfl
  mul_one a := by
    cases a
    · exact congrArg fin (mul_one _)
    · rfl
  mul_comm a b := by
    cases a <;> cases b <;> first | rfl | exact congrArg fin (mul_comm _ _)

instance : AddCommMonoid (Dbl F) where
  add_assoc a b c := by
    cases a <;> cases b <;> cases c <;> first | rfl | exact congrArg fin (add_assoc _ _ _)
  zero_add a := by
    cases a
    · exact congrArg fin (zero_add _)
    · rfl
  add_zero a := by
    cases a
    · exact congrArg fin (add_zero _)
    · rfl
  add_comm a b := by
    cases a <;> cases b <;> first | rfl | exact congrArg fin (add_comm _ _)
  nsmul := nsmulRec

end Dbl

/-! ## Loops, vectors and matrices -/

/-- The iterations `i, i+1, ...` of a loop body, `cnt` of them. -/
def forLoopAux {σ : Type} (body : Nat → σ → σ) : Nat → Nat → σ → σ
  | _, 0, s => s
  | i, cnt + 1, s => forLoopAux body (i + 1) cnt (body i s)

/-- The loop `for (int i = lo; i < hi; i++) body`. -/
def forLoop {σ : Type} (lo hi : Nat) (body : Nat → σ → σ) (s : σ) : σ :=
  forLoopAux body lo (hi - lo) s

/-- A `std::vector<double>`. -/
abbrev Vec (F : Type) := Nat → Dbl F

/-- A `matrix<double>`. -/
abbrev Mat (F : Type) := Nat → Nat → Dbl F

/-- The assignment `v[i] = x`. -/
def Vec.set {F : Type} (v : Vec F) (i : Nat) (x : Dbl F) : Vec F :=
  fun j => if j = i then x else v j

/-- The assignment `u[i][j] = x`. -/
def Mat.set {F : Type} (u : Mat F) (i j : Nat) (x : Dbl F) : Mat F :=
  fun a b => if a = i ∧ b = j then x else u a b

/-! ## The engine (`rates.hpp`, `rates.cpp`) -/

/-- The fields of `class IR`. -/
structure IR (F : Type) where
  notional : F
  K : F
  alpha : F
  sigma : F
  dT : F
  N : Nat
  M : Nat
  cap : Bool

/-- The `struct IR_results`. -/
structure IR_results (F : Type) where
  datapoints : List (Dbl F)
  value : Dbl F

/-- The local arrays of `run_LIBOR_simulations`, and the number of calls of `normal()`
made so far. -/
structure SimState (F : Type) where
  L : Mat F
  D : Mat F
  dW : Vec F
  FV : Vec F
  FVprime : Vec F
  V : Vec F
  calls : Nat

section Engine

variable {F : Type} [LinearOrderedField F]

open Dbl

/-- The constant `spot_init` (line 25). -/
def spot_init : F := 0.05

/-- The innermost loop of lines 41-43: `drift_sum` for tenor `i` at step `n`. -/
def drift_sum (c : IR F) (L : Mat F) (i n : Nat) : Dbl F :=
  forLoop (i + 1) (c.N + 1)
    (fun k acc => acc + (fin c.alpha * fin c.sigma * L k n) / (1 + fin c.alpha * L k n)) 0

/-- The right-hand side of line 45: the value assigned to `L[i][n + 1]`. -/
def next_rate (m : Libm F) (c : IR F) (dW : Vec F) (L : Mat F) (i n : Nat) : Dbl F :=
  L i n * Dbl.exp m ((-(drift_sum c L i n) * fin c.sigma
    - fin 0.5 * fin c.sigma * fin c.sigma) * fin c.dT + fin c.sigma * dW (n + 1))

/-- The body of the loop over the tenors (lines 41-45). -/
def evolve_cell (m : Libm F) (c : IR F) (dW : Vec F) (n i : Nat) (L : Mat F) : Mat F :=
  L.set i (n + 1) (next_rate m c dW L i n)

/-- The loop nest of lines 37-47. -/
def evolve_rates (m : Libm F) (c : IR F) (dW : Vec F) (L : Mat F) : Mat F :=
  forLoop 0 c.N (fun n L1 => forLoop (n + 1) (c.N + 1) (evolve_cell m c dW n) L1) L

/-- The innermost loop of lines 53-57: `df_prod` for maturity `i` at step `n`. -/
def df_prod (c : IR F) (L : Mat F) (n i : Nat) : Dbl F :=
  forLoop n i (fun k acc => acc * (1 / (1 + fin c.alpha * L k n))) 1

/-- The loop nest of lines 49-61. -/
def build_discounts (c : IR F) (L : Mat F) (D : Mat F) : Mat F :=
  forLoop 0 (c.N + 1)
    (fun n D1 => forLoop (n + 1) (c.N + 2) (fun i D2 => D2.set i n (df_prod c L n i)) D1) D

/-- The value stored in `FV[i]` (lines 69-79). -/
def payoff (c : IR F) (L : Mat F) (i : Nat) : Dbl F :=
  if c.cap then stdmax (L (i - 1) (i - 1) - fin c.K) 0
  else fin c.notional * fin c.alpha * (L (i - 1) (i - 1) - fin c.K)

/-- The value stored in `FVprime[i]` (line 81), read off the surfaces. -/
def rolled_payoff (c : IR F) (L D : Mat F) (i : Nat) : Dbl F :=
  payoff c L i * D i (i - 1) / D (c.N + 1) (i - 1)

/-- The amount added to `V[nsim]` for period `i` (lines 83-91). -/
def contribution (c : IR F) (L D : Mat F) (i : Nat) : Dbl F :=
  if c.cap then rolled_payoff c L D i else rolled_payoff c L D i * D i 0

/-- The body of the loop of lines 66-92 for period `i` of path `nsim`. -/
def payoff_step (c : IR F) (nsim i : Nat) (s : SimState F) : SimState F :=
  let FV := s.FV.set i (payoff c s.L i)
  let FVprime := s.FVprime.set i (FV i * s.D i (i - 1) / s.D (c.N + 1) (i - 1))
  let V := s.V.set nsim
    (if c.cap then s.V nsim + FVprime i else s.V nsim + FVprime i * s.D i 0)
  { s with FV := FV, FVprime := FVprime, V := V }

/-- The loop of lines 34-35: `dW[j] = sqrt(dT) * normal()`. -/
def draw_increments (m : Libm F) (c : IR F) (normal : Nat → F) (s : SimState F) :
    SimState F :=
  forLoop 1 (c.N + 1)
    (fun j s1 => { s1 with
      dW := s1.dW.set j (Dbl.sqrt m (fin c.dT) * fin (normal s1.calls))
      calls := s1.calls + 1 }) s

/-- The body of the loop over the paths (lines 33-93). -/
def simulate_path (m : Libm F) (c : IR F) (normal : Nat → F) (nsim : Nat)
    (s : SimState F) : SimState F :=
  let s1 := draw_increments m c normal s
  let s2 := { s1 with L := evolve_rates m c s1.dW s1.L }
  let s3 := { s2 with D := build_discounts c s2.L s2.D }
  let s4 := { s3 with V := s3.V.set nsim 0 }
  forLoop 1 (c.N + 2) (payoff_step c nsim) s4

/-- The state before the first path (lines 7-30). -/
def init_state (c : IR F) : SimState F where
  L := forLoop 0 (c.N + 1) (fun i L => L.set i 0 (fin spot_init)) (fun _ _ => 0)
  D := fun _ _ => 0
  dW := Vec.set (fun _ => 0) 0 0
  FV := fun _ => 0
  FVprime := fun _ => 0
  V := fun _ => 0
  calls := 0

/-- The state after the first `p` iterations of the loop over the paths. -/
def run_paths (m : Libm F) (c : IR F) (normal : Nat → F) (p : Nat) : SimState F :=
  forLoop 0 p (simulate_path m c normal) (init_state c)

/-- The accumulation of lines 95-98. -/
def sumPV (M : Nat) (V : Vec F) : Dbl F :=
  forLoop 0 M (fun nsim acc => acc + V nsim) 0

/-- The function `IR::run_LIBOR_simulations`. -/
def run_LIBOR_simulations (m : Libm F) (c : IR F) (normal : Nat → F) : IR_results F :=
  let s := run_paths m c normal c.M
  let PV := if c.cap then s.D (c.N + 1) 0 * sumPV c.M s.V / fin (c.M : F)
    else sumPV c.M s.V / fin (c.M : F)
  { datapoints := (List.range c.M).map s.V, value := PV }

/-- The function `IR::get_simulation_data`. -/
def get_simulation_data (m : Libm F) (c : IR F) (normal : Nat → F) : IR_results F :=
  run_LIBOR_simulations m c normal

end Engine

/-! ## The flat curve -/

section FlatCurve

variable {F : Type} [LinearOrderedField F]

/-- The one-period discount factor `1 / (1 + alpha * spot_init)` of the flat curve. -/
def flat_df (c : IR F) : F := 1 / (1 + c.alpha * spot_init)

/-- The payoff of one period on the flat curve: lines 69-79 at `L[i-1][i-1] = spot_init`. -/
def flat_payoff (c : IR F) : F :=
  if c.cap then max (spot_init - c.K) 0 else c.notional * c.alpha * (spot_init - c.K)

/-- The amount lines 81-91 add to the path value for period `i` on the flat curve. -/
def flat_contribution (c : IR F) (i : Nat) : F :=
  if c.cap then flat_payoff c * flat_df c ^ (i - (i - 1)) / flat_df c ^ (c.N + 1 - (i - 1))
  else flat_payoff c * flat_df c ^ (i - (i - 1)) / flat_df c ^ (c.N + 1 - (i - 1))
    * flat_df c ^ (i - 0)

end FlatCurve

/-! ## Concrete inputs -/

/-- A rational stand-in for `<cmath>`: `exp` is its second Taylor polynomial, which is
positive and takes the value `1` at `0`; `sqrt` is one Newton step from `1`. -/
def libmQ : Libm ℚ where
  exp := fun x => 1 + x + x ^ 2 / 2
  sqrt := fun x => (1 + x) / 2

/-- The swap of `src/apps/interest_rates.cpp` (lines 7-16). -/
def scenarioA : IR ℚ where
  notional := 1000000
  K := 0.04
  alpha := 0.25
  sigma := 0.15
  dT := 0.25
  N := 3
  M := 1000
  cap := false

/-- The cap of `src/apps/interest_rates.cpp` (line 29); `notional` keeps its default. -/
def scenarioB : IR ℚ where
  notional := 0
  K := 0.05
  alpha := 0.5
  sigma := 0.15
  dT := 0.5
  N := 4
  M := 1000
  cap := true

/-- A vector of increments. -/
def dWsample : Vec ℚ := fun j => Dbl.fin ((j : ℚ) / 10 - 1 / 5)

/-- A stream of draws. -/
def drawsSample : Nat → ℚ := fun k => ((k % 7 : Nat) : ℚ) / 4 - 3 / 4

/-- The swap of the application with zero volatility. -/
def scenarioA0 : IR ℚ := { scenarioA with sigma := 0 }

/-- The cap of the application with zero volatility. -/
def scenarioB0 : IR ℚ := { scenarioB with sigma := 0 }

/-- A configuration with zero volatility and `1 + alpha * spot_init = 0`. -/
def cfgSingularRates : IR ℚ where
  notional := 1000000
  K := 0.04
  alpha := -20
  sigma := 0
  dT := 0.25
  N := 2
  M := 1
  cap := false

/-- A cap with zero volatility and a negative time step. -/
def cfgNegStep : IR ℚ where
  notional := 0
  K := 0.04
  alpha := 0.5
  sigma := 0
  dT := -0.25
  N := 1
  M := 1
  cap := true

/-- A two-period swap with zero volatility. -/
def cfgFlatSwap : IR ℚ where
  notional := 1000000
  K := 0.04
  alpha := 0.25
  sigma := 0
  dT := 0.25
  N := 1
  M := 1
  cap := false

/-- An at-the-money cap with zero volatility and `1 + alpha * spot_init = 0`. -/
def cfgSingularCap : IR ℚ where
  notional := 0
  K := 0.05
  alpha := -20
  sigma := 0
  dT := 0.25
  N := 1
  M := 1
  cap := true

/-- A cap with zero volatility and a zero accrual fraction. -/
def cfgZeroAccrual : IR ℚ where
  notional := 0
  K := 0.05
  alpha := 0
  sigma := 0
  dT := 0.5
  N := 1
  M := 1
  cap := true

/-- A swap with zero volatility and a negative time step. -/
def cfgNegStepSwap : IR ℚ := { cfgFlatSwap with dT := -0.25 }

/-- An at-the-money cap with zero volatility and a negative time step. -/
def cfgNegStepCap : IR ℚ := { cfgNegStep with K := 0.05 }

section PathDiscounted

variable {F : Type} [LinearOrderedField F]

/-- The alternative present value of a cap named in section 9 of the specification,
`PV = mean(V[path] * D_path[N+1][0])`: every path value is multiplied by the terminal
discount factor of its own path before the mean is taken. -/
def value_path_discounted (m : Libm F) (c : IR F) (normal : Nat → F) : Dbl F :=
  ((List.range c.M).map
      (fun p => (run_paths m c normal (p + 1)).V p
        * (run_paths m c normal (p + 1)).D (c.N + 1) 0)).sum
    / Dbl.fin (c.M : F)

end PathDiscounted

/-- A swap without tenors (`N = 0`), with a negative volatility and a negative time step. -/
def cfgInvalid : IR ℚ where
  notional := 1000000
  K := 0.04
  alpha := 0.25
  sigma := -0.15
  dT := -0.25
  N := 0
  M := 1
  cap := false

/-- A two-period swap with zero volatility and `1 + alpha * spot_init = -1`. -/
def cfgNegDenominator : IR ℚ := { cfgFlatSwap with alpha := -40 }

/-! ## The constructor arguments (`rates.hpp`) -/

/-- The arguments of the constructor `IR::IR` (`rates.hpp`, lines 22-25), with the tenor
count `N` and the path count `M` of type `int`, as the source declares them. -/
structure IR_args (F : Type) where
  notional : F
  K : F
  alpha : F
  sigma : F
  dT : F
  N : Int
  M : Int
  cap : Bool

section Call

variable {F : Type} [LinearOrderedField F]

/-- The object the constructor builds from arguments whose counts are not negative. -/
def IR_args.toIR (a : IR_args F) : IR F where
  notional := a.notional
  K := a.K
  alpha := a.alpha
  sigma := a.sigma
  dT := a.dT
  N := a.N.toNat
  M := a.M.toNat
  cap := a.cap

/-- The call `IR(notional, K, alpha, sigma, dT, N, M, cap).get_simulation_data()`.  With
`N < 0` or `M < 0` the call has no result: a negative size converted to `size_t` makes
`matrix_resize` (line 8, `N <= -2`) or the constructor of `V` (line 16, `M < 0`) throw
`std::length_error`, and with `N = -1` line 30 writes `dW[0]` into a vector without
entries, which is undefined behaviour.  Nor has it one where the sum `N + 2` of line 10
leaves the range of `int`. -/
def IR_args.get_simulation_data (m : Libm F) (a : IR_args F) (normal : Nat → F) :
    Option (IR_results F) :=
  if a.N < 0 ∨ a.M < 0 ∨ 2 ^ 31 ≤ a.N + 2 then none
  else some (QuantFi.get_simulation_data m a.toIR normal)

end Call

/-- The arguments of `cfgInvalid`: no tenor, a negative volatility and a negative time
step. -/
def argsInvalid : IR_args ℚ where
  notional := 1000000
  K := 0.04
  alpha := 0.25
  sigma := -0.15
  dT := -0.25
  N := 0
  M := 1
  cap := false

/-- The arguments of the swap of the application with the path count `-3`. -/
def argsNegPaths : IR_args ℚ where
  notional := 1000000
  K := 0.04
  alpha := 0.25
  sigma := 0.15
  dT := 0.25
  N := 3
  M := -3
  cap := false

/-- The arguments of `cfgSingularCap`, an at-the-money cap with `1 + alpha * 0.05 = 0`. -/
def argsSingularCap : IR_args ℚ where
  notional := 0
  K := 0.05
  alpha := -20
  sigma := 0
  dT := 0.25
  N := 1
  M := 1
  cap := true

/-- The cap of the application with zero volatility and the strike `0.04`. -/
def cfgFlatCap : IR ℚ := { scenarioB0 with K := 0.04 }

/-! ## The engine in rounded arithmetic

The same loops, with the result of every arithmetic operation and of every call of `exp` and
`sqrt` passed through a rounding `r`, and the literal `0.05` rounded as the compiler rounds
it; the literals `0`, `0.5` and `1` and the conversion of `M` are exact.  With the identity
for `r` this is the engine above. -/

namespace Fp

section RoundedEngine

variable {F : Type} [LinearOrderedField F]

open Dbl

/-- The innermost loop of lines 41-43: `drift_sum` for tenor `i` at step `n`. -/
def drift_sum (r : Dbl F → Dbl F) (c : IR F) (L : Mat F) (i n : Nat) : Dbl F :=
  forLoop (i + 1) (c.N + 1)
    (fun k acc => r (acc
      + r (r (r (fin c.alpha * fin c.sigma) * L k n) / r (1 + r (fin c.alpha * L k n))))) 0

/-- The right-hand side of line 45: the value assigned to `L[i][n + 1]`. -/
def next_rate (r : Dbl F → Dbl F) (m : Libm F) (c : IR F) (dW : Vec F) (L : Mat F)
    (i n : Nat) : Dbl F :=
  r (L i n * r (Dbl.exp m (r (r (r (r (-(drift_sum r c L i n) * fin c.sigma)
    - r (r (fin 0.5 * fin c.sigma) * fin c.sigma)) * fin c.dT)
    + r (fin c.sigma * dW (n + 1))))))

/-- The body of the loop over the tenors (lines 41-45). -/
def evolve_cell (r : Dbl F → Dbl F) (m : Libm F) (c : IR F) (dW : Vec F) (n i : Nat)
    (L : Mat F) : Mat F :=
  L.set i (n + 1) (next_rate r m c dW L i n)

/-- The loop nest of lines 37-47. -/
def evolve_rates (r : Dbl F → Dbl F) (m : Libm F) (c : IR F) (dW : Vec F) (L : Mat F) :
    Mat F :=
  forLoop 0 c.N (fun n L1 => forLoop (n + 1) (c.N + 1) (evolve_cell r m c dW n) L1) L

/-- The innermost loop of lines 53-57: `df_prod` for maturity `i` at step `n`. -/
def df_prod (r : Dbl F → Dbl F) (c : IR F) (L : Mat F) (n i : Nat) : Dbl F :=
  forLoop n i (fun k acc => r (acc * r (1 / r (1 + r (fin c.alpha * L k n))))) 1

/-- The loop nest of lines 49-61. -/
def build_discounts (r : Dbl F → Dbl F) (c : IR F) (L : Mat F) (D : Mat F) : Mat F :=
  forLoop 0 (c.N + 1)
    (fun n D1 => forLoop (n + 1) (c.N + 2) (fun i D2 => D2.set i n (df_prod r c L n i)) D1) D

/-- The value stored in `FV[i]` (lines 69-79). -/
def payoff (r : Dbl F → Dbl F) (c : IR F) (L : Mat F) (i : Nat) : Dbl F :=
  if c.cap then stdmax (r (L (i - 1) (i - 1) - fin c.K)) 0
  else r (r (fin c.notional * fin c.alpha) * r (L (i - 1) (i - 1) - fin c.K))

/-- The body of the loop of lines 66-92 for period `i` of path `nsim`. -/
def payoff_step (r : Dbl F → Dbl F) (c : IR F) (nsim i : Nat) (s : SimState F) :
    SimState F :=
  let FV := s.FV.set i (payoff r c s.L i)
  let FVprime := s.FVprime.set i (r (r (FV i * s.D i (i - 1)) / s.D (c.N + 1) (i - 1)))
  let V := s.V.set nsim
    (if c.cap then r (s.V nsim + FVprime i) else r (s.V nsim + r (FVprime i * s.D i 0)))
  { s with FV := FV, FVprime := FVprime, V := V }

/-- The loop of lines 34-35: `dW[j] = sqrt(dT) * normal()`. -/
def draw_increments (r : Dbl F → Dbl F) (m : Libm F) (c : IR F) (normal : Nat → F)
    (s : SimState F) : SimState F :=
  forLoop 1 (c.N + 1)
    (fun j s1 => { s1 with
      dW := s1.dW.set j (r (r (Dbl.sqrt m (fin c.dT)) * fin (normal s1.calls)))
      calls := s1.calls + 1 }) s

/-- The body of the loop over the paths (lines 33-93). -/
def simulate_path (r : Dbl F → Dbl F) (m : Libm F) (c : IR F) (normal : Nat → F)
    (nsim : Nat) (s : SimState F) : SimState F :=
  let s1 := draw_increments r m c normal s
  let s2 := { s1 with L := evolve_rates r m c s1.dW s1.L }
  let s3 := { s2 with D := build_discounts r c s2.L s2.D }
  let s4 := { s3 with V := s3.V.set nsim 0 }
  forLoop 1 (c.N + 2) (payoff_step r c nsim) s4

/-- The state before the first path (lines 7-30). -/
def init_state (r : Dbl F → Dbl F) (c : IR F) : SimState F where
  L := forLoop 0 (c.N + 1) (fun i L => L.set i 0 (r (fin spot_init))) (fun _ _ => 0)
  D := fun _ _ => 0
  dW := Vec.set (fun _ => 0) 0 0
  FV := fun _ => 0
  FVprime := fun _ => 0
  V := fun _ => 0
  calls := 0

/-- The state after the first `p` iterations of the loop over the paths. -/
def run_paths (r : Dbl F → Dbl F) (m : Libm F) (c : IR F) (normal : Nat → F) (p : Nat) :
    SimState F :=
  forLoop 0 p (simulate_path r m c normal) (init_state r c)

/-- The accumulation of lines 95-98. -/
def sumPV (r : Dbl F → Dbl F) (M : Nat) (V : Vec F) : Dbl F :=
  forLoop 0 M (fun nsim acc => r (acc + V nsim)) 0

/-- The function `IR::run_LIBOR_simulations`. -/
def run_LIBOR_simulations (r : Dbl F → Dbl F) (m : Libm F) (c : IR F) (normal : Nat → F) :
    IR_results F :=
  let s := run_paths r m c normal c.M
  let PV := if c.cap then r (r (s.D (c.N + 1) 0 * sumPV r c.M s.V) / fin (c.M : F))
    else r (sumPV r c.M s.V / fin (c.M : F))
  { datapoints := (List.range c.M).map s.V, value := PV }

/-- The function `IR::get_simulation_data`. -/
def get_simulation_data (r : Dbl F → Dbl F) (m : Libm F) (c : IR F) (normal : Nat → F) :
    IR_results F :=
  run_LIBOR_simulations r m c normal

/-- The amount lines 81-91 add to `V[nsim]` for period `i`, read off the surfaces. -/
def contribution (r : Dbl F → Dbl F) (c : IR F) (L D : Mat F) (i : Nat) : Dbl F :=
  if c.cap then r (r (payoff r c L i * D i (i - 1)) / D (c.N + 1) (i - 1))
  else r (r (r (payoff r c L i * D i (i - 1)) / D (c.N + 1) (i - 1)) * D i 0)

/-- The surface whose every entry is the double `0.05`. -/
def flat_surface (r : Dbl F → Dbl F) : Mat F :=
  fun _ _ => r (fin spot_init)

/-- The factor of line 56 on the flat surface: `1 / (1 + alpha * 0.05)` as the code computes
it. -/
def flat_factor (r : Dbl F → Dbl F) (c : IR F) : Dbl F :=
  r (1 / r (1 + r (fin c.alpha * r (fin spot_init))))

/-- The product of `j` factors of the flat surface, accumulated as lines 53-57 do. -/
def flat_discount (r : Dbl F → Dbl F) (c : IR F) (j : Nat) : Dbl F :=
  forLoop 0 j (fun _ acc => r (acc * flat_factor r c)) 1

/-- The value lines 64-92 compute for a path on the flat surface, where `D[a][b]` is the
product of `a - b` factors. -/
def flat_value (r : Dbl F → Dbl F) (c : IR F) : Dbl F :=
  forLoop 1 (c.N + 2)
    (fun i acc => r (acc
      + contribution r c (flat_surface r) (fun a b => flat_discount r c (a - b)) i)) 0

end RoundedEngine

end Fp

/-- The integer nearest to `s`, a tie going to the even one. -/
def round_half_even (s : ℚ) : Int :=
  if s - ⌊s⌋ < 1 / 2 then ⌊s⌋
  else if 1 / 2 < s - ⌊s⌋ then ⌊s⌋ + 1
  else if ⌊s⌋ % 2 = 0 then ⌊s⌋ else ⌊s⌋ + 1

/-- The exponent of the unit in the last place of the binary64 numbers next to `x`: `52`
below the binary exponent of `x`, and `-1074` for the subnormal numbers. -/
def ulp_exponent (x : ℚ) : Int :=
  max (Int.log 2 |x|) (-1022) - 52

/-- The rounding of binary64 arithmetic, to nearest with ties to even: the exact result `x`
of an operation becomes the nearest multiple of its unit in the last place, a result that
rounds to `2^1024` or beyond becomes infinite (not finite), and what is not finite stays
so. -/
def binary64 : Dbl ℚ → Dbl ℚ
  | Dbl.fin x =>
    if |(round_half_even (x / 2 ^ ulp_exponent x) : ℚ) * 2 ^ ulp_exponent x| < 2 ^ (1024 : ℤ)
    then Dbl.fin (round_half_even (x / 2 ^ ulp_exponent x) * 2 ^ ulp_exponent x)
    else Dbl.nan
  | Dbl.nan => Dbl.nan

/-- An at-the-money cap with zero volatility all of whose inputs are binary64 numbers: the
strike is the double `0.05`. -/
def cfgAtTheMoney : IR ℚ where
  notional := 0
  K := 3602879701896397 / 2 ^ 56
  alpha := 0.5
  sigma := 0
  dT := 0.5
  N := 1
  M := 2
  cap := true

/-- A cap with zero volatility and the accrual fraction `alpha = 2^-60`. -/
def cfgTinyAccrual : IR ℚ where
  notional := 0
  K := 0
  alpha := 1 / 2 ^ 60
  sigma := 0
  dT := 0.5
  N := 1
  M := 1
  cap := true

/-- An at-the-money cap with zero volatility and the accrual fraction `alpha = 2^600`. -/
def cfgHugeAccrual : IR ℚ where
  notional := 1
  K := 3602879701896397 / 2 ^ 56
  alpha := 2 ^ 600
  sigma := 0
  dT := 0.5
  N := 1
  M := 1
  cap := true

/-- The cap of `cfgHugeAccrual` with the strike `0`. -/
def cfgHugeCap : IR ℚ := { cfgHugeAccrual with K := 0 }

/-- The swap on the notional `1` with the inputs of `cfgHugeCap`. -/
def cfgHugeSwap : IR ℚ := { cfgHugeAccrual with K := 0, cap := false }

/-! ## The Gaussian sampler (`random.cpp`) -/

section Sampler

variable {F : Type} [LinearOrderedField F]

open Dbl

/-- The expression `2. * rand() / RAND_MAX - 1` of lines 8 and 9, for the value `r` that
`rand()` returns; the constant `RAND_MAX` of `<cstdlib>` is a parameter. -/
def SampleBoxMuller.uniform (RAND_MAX r : Nat) : Dbl F :=
  fin 2 * fin (r : F) / fin (RAND_MAX : F) - 1

/-- The expression `x * std::sqrt(-2 * std::log(norm2_sq) / norm2_sq)` of line 14. -/
def SampleBoxMuller.transform (m : Libm F) (lg : F → F) (x norm2_sq : Dbl F) : Dbl F :=
  x * Dbl.sqrt m (fin (-2) * Dbl.log lg norm2_sq / norm2_sq)

/-- The do-while loop of lines 6-12 followed by lines 14-15, on a stream `u` of uniform
variates read from position `pos`, with at most `fuel` trips through the loop: the result
and the position after the call, or `none` when every trip of the `fuel` rejected its
pair. -/
def SampleBoxMuller.loop (m : Libm F) (lg : F → F) (u : Nat → Dbl F) :
    Nat → Nat → Option (Dbl F × Nat)
  | 0, _ => none
  | fuel + 1, pos =>
    let x := u pos
    let y := u (pos + 1)
    let norm2_sq := x * x + y * y
    if Dbl.ge norm2_sq 1 then SampleBoxMuller.loop m lg u fuel (pos + 2)
    else some (SampleBoxMuller.transform m lg x norm2_sq, pos + 2)

/-- The function `SampleBoxMuller::operator()`, on the stream `rand` of the values returned
by `rand()`. -/
def SampleBoxMuller.call (m : Libm F) (lg : F → F) (RAND_MAX : Nat) (rand : Nat → Nat)
    (fuel pos : Nat) : Option (Dbl F × Nat) :=
  SampleBoxMuller.loop m lg (fun k => SampleBoxMuller.uniform RAND_MAX (rand k)) fuel pos

/-- The stream of uniform variates in which the pair number `j` is `(xs j, ys j)`. -/
def pair_stream (xs ys : Nat → F) : Nat → Dbl F :=
  fun k => if k % 2 = 0 then fin (xs (k / 2)) else fin (ys (k / 2))

end Sampler

/-- A rational stand-in for the logarithm: its first Taylor polynomial at `1`. -/
def logQ : ℚ → ℚ := fun x => x - 1

/-- Pairs of uniform variates: two rejected pairs, then an accepted one. -/
def xsSample : Nat → ℚ := fun j => if j = 2 then 1 / 2 else 1

/-- The second variates of the pairs of `xsSample`. -/
def ysSample : Nat → ℚ := fun j => if j = 2 then -1 / 4 else 3 / 4

/-! ## The two-asset option (`equity.hpp`, `equity.cpp`) -/

/-- The fields of `class EQ2`. -/
structure EQ2 (F : Type) where
  T : F
  r : F
  S10 : F
  S20 : F
  sigma1 : F
  sigma2 : F
  rho : F
  N : Nat
  M : Nat

/-- The local variables of `EQ2::find_premium` that live across the loops, and the number of
calls of `normal()` made so far. -/
structure EQ2State (F : Type) where
  S1 : Vec F
  S2 : Vec F
  sum_payoff : Dbl F
  calls : Nat

section Equity

variable {F : Type} [LinearOrderedField F]

open Dbl

/-- The body of the loop over the time steps (lines 48-50): two draws, then the two
assignments. -/
def EQ2.step (m : Libm F) (c : EQ2 F) (normal : Nat → F) (dt : Dbl F) (i : Nat)
    (s : EQ2State F) : EQ2State F :=
  let epsilon1 : Dbl F := fin (normal s.calls)
  let epsilon2 : Dbl F := fin (normal (s.calls + 1))
  { s with
    S1 := s.S1.set (i + 1)
      (s.S1 i * (1 + fin c.r * dt + fin c.sigma1 * Dbl.sqrt m dt * epsilon1))
    S2 := s.S2.set (i + 1)
      (s.S2 i * (1 + fin c.r * dt + fin c.sigma1 * Dbl.sqrt m dt
        * (epsilon1 * fin c.rho + Dbl.sqrt m (1 - fin c.rho * fin c.rho) * epsilon2)))
    calls := s.calls + 2 }

/-- The body of the loop over the paths (lines 44-53). -/
def EQ2.path (m : Libm F) (c : EQ2 F) (normal : Nat → F) (dt : Dbl F) (_j : Nat)
    (s : EQ2State F) : EQ2State F :=
  let s1 := { s with S1 := s.S1.set 0 (fin c.S10), S2 := s.S2.set 0 (fin c.S20) }
  let s2 := forLoop 0 c.N (EQ2.step m c normal dt) s1
  { s2 with sum_payoff := s2.sum_payoff + stdmax (s2.S1 c.N) (s2.S2 c.N) }

/-- The function `EQ2::find_premium`. -/
def EQ2.find_premium (m : Libm F) (c : EQ2 F) (normal : Nat → F) : Dbl F :=
  let dt : Dbl F := fin c.T / fin (c.N : F)
  let s := forLoop 0 c.M (EQ2.path m c normal dt)
    { S1 := fun _ => 0, S2 := fun _ => 0, sum_payoff := 0, calls := 0 }
  Dbl.exp m (-(fin c.r) * fin c.T) * s.sum_payoff / fin (c.M : F)

/-- The function `EQ2::get_premium`. -/
def EQ2.get_premium (m : Libm F) (c : EQ2 F) (normal : Nat → F) : Dbl F :=
  EQ2.find_premium m c normal

end Equity

/-- The object `EQ2()` with the default member initialisers of `equity.hpp`. -/
def eq2Default : EQ2 ℚ where
  T := 1
  r := 0.05
  S10 := 120
  S20 := 100
  sigma1 := 0.1
  sigma2 := 0.15
  rho := 0.5
  N := 300
  M := 1000

/-! ## The finite-difference solver (`fx.hpp`, `fx.cpp`) -/

/-- The fields of `class FX1`. -/
structure FX1 (F : Type) where
  T : F
  K : F
  S0 : F
  sigma : F
  r : F
  dt : F
  dx : F
  N : Nat
  M : Nat
  barrier : Bool

/-- The `struct result_data`. -/
structure result_data (F : Type) where
  alpha : Dbl F
  dtau : Dbl F
  k : Dbl F
  x : Vec F
  S : Vec F
  t : Vec F
  tau : Vec F
  u : Mat F
  v : Mat F

/-- The two functions of `<cmath>` that `fx.cpp` calls, with their range: the value is not
finite where the function overflows or is not defined.  In `fx.cpp` the argument
`0.5 * (k + 1) * x[i]` of `exp` grows like `1 / sigma^2`, so the overflow of `exp` is within
reach of ordinary inputs. -/
structure Cmath (F : Type) where
  exp : F → Dbl F
  pow : F → F → Dbl F

section Forex

variable {F : Type} [LinearOrderedField F]

open Dbl

/-- The function `std::exp` as `fx.cpp` calls it. -/
def Dbl.cexp (cm : Cmath F) : Dbl F → Dbl F
  | fin a => cm.exp a
  | nan => nan

/-- The function `std::pow` as `fx.cpp` calls it; with an argument that is not finite the
result is left unknown (not finite). -/
def Dbl.pow (cm : Cmath F) : Dbl F → Dbl F → Dbl F
  | fin a, fin b => cm.pow a b
  | _, _ => nan

/-- The scalar `dtau` of lines 16-19. -/
def FX1.dtau (c : FX1 F) : Dbl F :=
  fin c.dt * fin 0.5 * (fin c.sigma * fin c.sigma)

/-- The scalar `alpha` of line 20. -/
def FX1.alpha (c : FX1 F) : Dbl F :=
  FX1.dtau c / (fin c.dx * fin c.dx)

/-- The scalar `k` of line 21. -/
def FX1.k (c : FX1 F) : Dbl F :=
  fin c.r / (fin 0.5 * (fin c.sigma * fin c.sigma))

/-- The entry `x[i]` of the mesh (line 28), with `xmin = -1`. -/
def FX1.x (c : FX1 F) (i : Nat) : Dbl F :=
  fin (-1) + fin (i : F) * fin c.dx

/-- The entry `S[i]` of the mesh (line 29). -/
def FX1.S (cm : Cmath F) (c : FX1 F) (i : Nat) : Dbl F :=
  fin c.K * Dbl.cexp cm (FX1.x c i)

/-- The entry `t[j]` of the mesh (line 34). -/
def FX1.t (c : FX1 F) (j : Nat) : Dbl F :=
  fin (j : F) * fin c.dt

/-- The value line 41 stores in `u[i][0]`. -/
def FX1.initial_value (cm : Cmath F) (c : FX1 F) (i : Nat) : Dbl F :=
  stdmax (Dbl.cexp cm (fin 0.5 * (FX1.k c + 1) * FX1.x c i)
    - Dbl.cexp cm (fin 0.5 * (FX1.k c - 1) * FX1.x c i)) 0

/-- The initial condition (lines 39-42). -/
def FX1.initial_condition (cm : Cmath F) (c : FX1 F) (u : Mat F) : Mat F :=
  forLoop 0 c.N (fun i u1 => u1.set i 0 (FX1.initial_value cm c i)) u

/-- The boundary condition (lines 46-54). -/
def FX1.boundary_condition (c : FX1 F) (u : Mat F) : Mat F :=
  forLoop 1 c.M (fun j u1 =>
    let u2 := u1.set 0 j 0
    if c.barrier then u2.set (c.N - 1) j 0 else u2.set (c.N - 1) j (u2 (c.N - 1) 0)) u

/-- The assignment of line 62. -/
def FX1.difference_cell (c : FX1 F) (j i : Nat) (u : Mat F) : Mat F :=
  u.set i (j + 1)
    (FX1.alpha c * u (i + 1) j + (1 - fin 2 * FX1.alpha c) * u i j + FX1.alpha c * u (i - 1) j)

/-- The forward difference (lines 58-64). -/
def FX1.forward_difference (c : FX1 F) (u : Mat F) : Mat F :=
  forLoop 0 (c.M - 1) (fun j u1 => forLoop 1 (c.N - 1) (FX1.difference_cell c j) u1) u

/-- The assignment of line 72, which reads `t[i]` with the row index `i`. -/
def FX1.transform_cell (cm : Cmath F) (c : FX1 F) (u : Mat F) (j i : Nat) (v : Mat F) :
    Mat F :=
  v.set i j
    (Dbl.pow cm (fin c.K) (fin 0.5 * (1 + FX1.k c))
      * Dbl.pow cm (FX1.S cm c i) (fin 0.5 * (1 - FX1.k c))
      * Dbl.cexp cm ((FX1.k c + 1) * (FX1.k c + 1) * (fin c.sigma * fin c.sigma)
          * (fin c.T - FX1.t c i) / fin 8)
      * u i j)

/-- The transformation from `x` to `S` coordinates (lines 68-74). -/
def FX1.transform (cm : Cmath F) (c : FX1 F) (u : Mat F) (v : Mat F) : Mat F :=
  forLoop 0 c.M (fun j v1 => forLoop 1 c.N (FX1.transform_cell cm c u j) v1) v

/-- The run leaves the bounds of an array: with `N = 0` and `M >= 2` line 48 writes `u[0][j]`
into a grid without rows; with `M = 0 < N` line 41 writes `u[i][0]` into rows without
entries; with `1 <= M < N` line 72 reads `t[i]` for `M <= i < N`, past the end of `t`, which
has `M` entries. -/
def FX1.out_of_bounds (c : FX1 F) : Bool :=
  (c.N = 0 && decide (2 ≤ c.M)) || decide (c.M < c.N)

/-- The function `FX1::evaluate_data_and_premium`.  Where the run leaves the bounds of an
array its behaviour is undefined, and there is no result. -/
def FX1.evaluate_data_and_premium (cm : Cmath F) (c : FX1 F) : Option (result_data F) :=
  if FX1.out_of_bounds c then none
  else
    let u := FX1.forward_difference c
      (FX1.boundary_condition c (FX1.initial_condition cm c (fun _ _ => 0)))
    some
      { alpha := FX1.alpha c
        dtau := FX1.dtau c
        k := FX1.k c
        x := fun i => if i < c.N then FX1.x c i else 0
        S := fun i => if i < c.N then FX1.S cm c i else 0
        t := fun j => if j < c.M then FX1.t c j else 0
        tau := fun j => if j < c.M
          then (fin c.T - FX1.t c j) / (fin 0.5 * (fin c.sigma * fin c.sigma)) else 0
        u := u
        v := FX1.transform cm c u (fun _ _ => 0) }

/-- Every entry of a grid is a number that is not negative. -/
def grid_nonneg (u : Mat F) : Prop :=
  ∀ a b, ∃ v, u a b = fin v ∧ 0 ≤ v

/-- The function `FX1::get_data_and_premium`. -/
def FX1.get_data_and_premium (cm : Cmath F) (c : FX1 F) : Option (result_data F) :=
  FX1.evaluate_data_and_premium cm c

end Forex

/-- The object `FX1()` with the default member initialisers of `fx.hpp`. -/
def fx1Default : FX1 ℚ where
  T := 0.5
  K := 75
  S0 := 75
  sigma := 0.3
  r := 0.05
  dt := 0.1
  dx := 0.5
  N := 5
  M := 6
  barrier := false

/-- A rational stand-in for `<cmath>`: `exp` overflows from `710` on, as the `exp` of
binary64 does, underflows to `0` below `-746`, and is its second Taylor polynomial in
between; `pow` is its first-order expansion at base `1`. -/
def cmathQ : Cmath ℚ where
  exp := fun x =>
    if 710 ≤ x then Dbl.nan else if x < -746 then Dbl.fin 0 else Dbl.fin (1 + x + x ^ 2 / 2)
  pow := fun a b => Dbl.fin (1 + b * (a - 1))

/-- The default object with the volatility `sigma = 0.005`. -/
def fx1LowVol : FX1 ℚ := { fx1Default with sigma := 0.005 }

/-- The default object with seven rows, one more than it has columns. -/
def fx1Tall : FX1 ℚ := { fx1Default with N := 7 }

/-! ## Arithmetic of doubles -/

namespace Dbl

variable {F : Type} [LinearOrderedField F]

theorem zero_def : (0 : Dbl F) = fin 0 := rfl

theorem one_def : (1 : Dbl F) = fin 1 := rfl

@[simp]
theorem fin_add_fin (a b : F) : fin a + fin b = fin (a + b) := rfl

@[simp]
theorem fin_mul_fin (a b : F) : fin a * fin b = fin (a * b) := rfl

@[simp]
theorem fin_sub_fin (a b : F) : fin a - fin b = fin (a - b) := rfl

@[simp]
theorem neg_fin (a : F) : -(fin a) = fin (-a) := rfl

@[simp]
theorem nan_add (x : Dbl F) : nan + x = nan := by cases x <;> rfl

@[simp]
theorem add_nan (x : Dbl F) : x + nan = nan := by cases x <;> rfl

@[simp]
theorem nan_mul (x : Dbl F) : nan * x = nan := by cases x <;> rfl

@[simp]
theorem mul_nan (x : Dbl F) : x * nan = nan := by cases x <;> rfl

@[simp]
theorem nan_sub (x : Dbl F) : nan - x = nan := by cases x <;> rfl

@[simp]
theorem sub_nan (x : Dbl F) : x - nan = nan := by cases x <;> rfl

@[simp]
theorem neg_nan : -(nan : Dbl F) = nan := rfl

@[simp]
theorem nan_div (x : Dbl F) : nan / x = nan := by cases x <;> rfl

@[simp]
theorem div_nan (x : Dbl F) : x / nan = nan := by cases x <;> rfl

theorem fin_div_fin (a b : F) : fin a / fin b = if b = 0 then nan else fin (a / b) := rfl

@[simp]
theorem fin_div_fin_of_ne (a : F) {b : F} (hb : b ≠ 0) : fin a / fin b = fin (a / b) := by
  rw [fin_div_fin, if_neg hb]

@[simp]
theorem fin_div_zero (a : F) : fin a / fin (0 : F) = nan := by
  rw [fin_div_fin, if_pos rfl]

omit [LinearOrderedField F] in
@[simp]
theorem exp_fin (m : Libm F) (a : F) : exp m (fin a) = fin (m.exp a) := rfl

omit [LinearOrderedField F] in
@[simp]
theorem exp_nan (m : Libm F) : exp m (nan : Dbl F) = nan := rfl

@[simp]
theorem natCast_def (n : Nat) : ((n : Nat) : Dbl F) = fin (n : F) := rfl

theorem stdmax_fin_zero (x : F) : stdmax (fin x) (0 : Dbl F) = fin (max x 0) := by
  unfold stdmax
  show (if Dbl.lt (fin x) (fin 0) = true then (fin 0 : Dbl F) else fin x) = _
  show (if decide (x < 0) = true then (fin 0 : Dbl F) else fin x) = _
  by_cases hx : x < 0
  · rw [if_pos (decide_eq_true hx), max_eq_right (le_of_lt hx)]
  · rw [if_neg (by simpa using hx), max_eq_left (not_lt.mp hx)]

end Dbl

/-! ## Loops -/

section Loops

variable {σ : Type}

theorem forLoopAux_succ_top (body : Nat → σ → σ) (cnt : Nat) :
    ∀ (i : Nat) (s : σ),
      forLoopAux body i (cnt + 1) s = body (i + cnt) (forLoopAux body i cnt s) := by
  induction cnt with
  | zero => intro i s; rfl
  | succ k ih =>
    intro i s
    have h := ih (i + 1) (body i s)
    have e : i + 1 + k = i + (k + 1) := by omega
    rw [e] at h
    exact h

theorem forLoop_of_le {lo hi : Nat} (h : hi ≤ lo) (body : Nat → σ → σ) (s : σ) :
    forLoop lo hi body s = s := by
  unfold forLoop
  rw [Nat.sub_eq_zero_of_le h]
  rfl

theorem forLoop_succ_top {lo hi : Nat} (h : lo ≤ hi) (body : Nat → σ → σ) (s : σ) :
    forLoop lo (hi + 1) body s = body hi (forLoop lo hi body s) := by
  unfold forLoop
  have e : hi + 1 - lo = (hi - lo) + 1 := by omega
  rw [e, forLoopAux_succ_top]
  have e2 : lo + (hi - lo) = hi := by omega
  rw [e2]

/-- The invariant rule of a loop. -/
theorem forLoop_induction {lo hi : Nat} (body : Nat → σ → σ) (s : σ) (P : Nat → σ → Prop)
    (hle : lo ≤ hi) (h0 : P lo s)
    (hstep : ∀ i t, lo ≤ i → i < hi → P i t → P (i + 1) (body i t)) :
    P hi (forLoop lo hi body s) := by
  induction hi with
  | zero =>
    have : lo = 0 := by omega
    subst this
    rw [forLoop_of_le (le_refl 0)]
    exact h0
  | succ k ih =>
    rcases Nat.eq_or_lt_of_le hle with h | h
    · subst h
      rw [forLoop_of_le (le_refl _)]
      exact h0
    · have hk : lo ≤ k := by omega
      rw [forLoop_succ_top hk]
      exact hstep k _ hk (by omega)
        (ih hk (fun i t h1 h2 hp => hstep i t h1 (by omega) hp))

/-- Two loops whose bodies agree on the range have the same result. -/
theorem forLoop_congr {lo hi : Nat} (f g : Nat → σ → σ) (s : σ)
    (h : ∀ i t, lo ≤ i → i < hi → f i t = g i t) :
    forLoop lo hi f s = forLoop lo hi g s := by
  rcases Nat.lt_or_ge hi lo with hlt | hle
  · rw [forLoop_of_le (by omega), forLoop_of_le (by omega)]
  · refine forLoop_induction f s (fun i t => t = forLoop lo i g s) hle ?_ ?_
    · show s = forLoop lo lo g s
      rw [forLoop_of_le (le_refl _)]
    · intro i t h1 h2 hp
      show f i t = forLoop lo (i + 1) g s
      rw [forLoop_succ_top h1, ← hp]
      exact h i t h1 h2

end Loops

/-! ## Sums and products computed by loops -/

section SumsProducts

variable {F : Type} [LinearOrderedField F]

open Dbl

theorem forLoop_add_eq_sum (f : Nat → Dbl F) (lo hi : Nat) (z : Dbl F) :
    forLoop lo hi (fun k acc => acc + f k) z = z + ∑ k in Finset.Ico lo hi, f k := by
  rcases Nat.lt_or_ge hi lo with hlt | hle
  · rw [forLoop_of_le (by omega), Finset.Ico_eq_empty (by omega), Finset.sum_empty, add_zero]
  · refine forLoop_induction (fun k acc => acc + f k) z
      (fun i t => t = z + ∑ k in Finset.Ico lo i, f k) hle ?_ ?_
    · show z = z + ∑ k in Finset.Ico lo lo, f k
      rw [Finset.Ico_self, Finset.sum_empty, add_zero]
    · intro i t h1 _ hp
      show t + f i = z + ∑ k in Finset.Ico lo (i + 1), f k
      rw [hp, Finset.sum_Ico_succ_top h1, add_assoc]

theorem forLoop_mul_eq_prod (f : Nat → Dbl F) (lo hi : Nat) (z : Dbl F) :
    forLoop lo hi (fun k acc => acc * f k) z = z * ∏ k in Finset.Ico lo hi, f k := by
  rcases Nat.lt_or_ge hi lo with hlt | hle
  · rw [forLoop_of_le (by omega), Finset.Ico_eq_empty (by omega), Finset.prod_empty, mul_one]
  · refine forLoop_induction (fun k acc => acc * f k) z
      (fun i t => t = z * ∏ k in Finset.Ico lo i, f k) hle ?_ ?_
    · show z = z * ∏ k in Finset.Ico lo lo, f k
      rw [Finset.Ico_self, Finset.prod_empty, mul_one]
    · intro i t h1 _ hp
      show t * f i = z * ∏ k in Finset.Ico lo (i + 1), f k
      rw [hp, Finset.prod_Ico_succ_top h1, mul_assoc]

theorem drift_sum_eq_sum (c : IR F) (L : Mat F) (i n : Nat) :
    drift_sum c L i n
      = ∑ k in Finset.Icc (i + 1) c.N,
          (fin c.alpha * fin c.sigma * L k n) / (1 + fin c.alpha * L k n) := by
  unfold drift_sum
  rw [forLoop_add_eq_sum, zero_add]
  rfl

theorem df_prod_eq_prod (c : IR F) (L : Mat F) (n i : Nat) :
    df_prod c L n i = ∏ k in Finset.Ico n i, 1 / (1 + fin c.alpha * L k n) := by
  unfold df_prod
  rw [forLoop_mul_eq_prod, one_mul]

end SumsProducts

/-! ## The forward-rate surface -/

section Rates

variable {F : Type} [LinearOrderedField F]

open Dbl

theorem fin_pow (a : F) (n : Nat) : (fin a : Dbl F) ^ n = fin (a ^ n) := by
  induction n with
  | zero => rw [pow_zero, pow_zero]; rfl
  | succ k ih => rw [pow_succ, pow_succ, ih, fin_mul_fin]

theorem drift_sum_congr (c : IR F) {X L : Mat F} (n : Nat) (h : ∀ k, X k n = L k n)
    (i : Nat) : drift_sum c X i n = drift_sum c L i n := by
  unfold drift_sum
  simp only [h]

theorem next_rate_congr (m : Libm F) (c : IR F) (dW : Vec F) {X L : Mat F} (n : Nat)
    (h : ∀ k, X k n = L k n) (i : Nat) :
    next_rate m c dW X i n = next_rate m c dW L i n := by
  unfold next_rate
  rw [drift_sum_congr c n h, h]

/-- The exponent of line 45 in the form of the drift-corrected log-Euler step. -/
theorem next_rate_eq (m : Libm F) (c : IR F) (dW : Vec F) (L : Mat F) (i n : Nat) :
    next_rate m c dW L i n
      = L i n * Dbl.exp m
          ((-(fin c.sigma * ∑ k in Finset.Icc (i + 1) c.N,
                (fin c.alpha * fin c.sigma * L k n) / (1 + fin c.alpha * L k n))
            - fin 0.5 * fin c.sigma ^ 2) * fin c.dT + fin c.sigma * dW (n + 1)) := by
  unfold next_rate
  rw [drift_sum_eq_sum]
  generalize (∑ k in Finset.Icc (i + 1) c.N,
    (fin c.alpha * fin c.sigma * L k n) / (1 + fin c.alpha * L k n)) = x
  have e : -x * fin c.sigma - fin 0.5 * fin c.sigma * fin c.sigma
      = -(fin c.sigma * x) - fin 0.5 * fin c.sigma ^ 2 := by
    cases x with
    | nan => simp
    | fin y =>
      simp only [fin_pow, neg_fin, fin_mul_fin, fin_sub_fin]
      congr 1
      ring
  rw [e]

omit [LinearOrderedField F] in
theorem mat_set_apply (u : Mat F) (i j : Nat) (x : Dbl F) (a b : Nat) :
    u.set i j x a b = if a = i ∧ b = j then x else u a b := rfl

omit [LinearOrderedField F] in
theorem vec_set_apply (v : Vec F) (i : Nat) (x : Dbl F) (j : Nat) :
    v.set i x j = if j = i then x else v j := rfl

/-- One step of the evolution: the loop over the tenors rewrites column `n + 1` in the rows
`n + 1 .. hi - 1` from column `n`, and nothing else. -/
theorem evolve_column_apply (m : Libm F) (c : IR F) (dW : Vec F) (n : Nat) (L : Mat F)
    (hi : Nat) (hle : n + 1 ≤ hi) (a b : Nat) :
    forLoop (n + 1) hi (evolve_cell m c dW n) L a b
      = if b = n + 1 ∧ n + 1 ≤ a ∧ a < hi then next_rate m c dW L a n else L a b := by
  revert a b
  refine forLoop_induction (evolve_cell m c dW n) L
    (fun i t => ∀ a b, t a b
      = if b = n + 1 ∧ n + 1 ≤ a ∧ a < i then next_rate m c dW L a n else L a b) hle ?_ ?_
  · intro a b
    have : ¬ (b = n + 1 ∧ n + 1 ≤ a ∧ a < n + 1) := by omega
    rw [if_neg this]
  · intro i t h1 _ hp a b
    have hcol : ∀ k, t k n = L k n := by
      intro k
      rw [hp k n, if_neg (by omega)]
    show (evolve_cell m c dW n i t) a b = _
    unfold evolve_cell
    rw [mat_set_apply, next_rate_congr m c dW n hcol, hp a b]
    by_cases hab : a = i ∧ b = n + 1
    · obtain ⟨ha, hb⟩ := hab
      subst ha hb
      rw [if_pos ⟨rfl, rfl⟩, if_pos ⟨rfl, h1, Nat.lt_succ_self _⟩]
    · rw [if_neg hab]
      by_cases hc : b = n + 1 ∧ n + 1 ≤ a ∧ a < i
      · rw [if_pos hc, if_pos ⟨hc.1, hc.2.1, by omega⟩]
      · rw [if_neg hc, if_neg (by omega)]

/-- The invariant of the loop over the steps (lines 37-47): after the steps `0 .. n - 1` the
columns `1 .. n` satisfy the recurrence of line 45 and every other entry is untouched. -/
theorem evolve_rates_invariant (m : Libm F) (c : IR F) (dW : Vec F) (L0 : Mat F) (n : Nat)
    (hn : n ≤ c.N) :
    (∀ a b, ¬ (1 ≤ b ∧ b ≤ n ∧ b ≤ a ∧ a ≤ c.N) →
      forLoop 0 n (fun n L1 => forLoop (n + 1) (c.N + 1) (evolve_cell m c dW n) L1) L0 a b
        = L0 a b) ∧
    (∀ k i, k < n → k + 1 ≤ i → i ≤ c.N →
      forLoop 0 n (fun n L1 => forLoop (n + 1) (c.N + 1) (evolve_cell m c dW n) L1) L0
          i (k + 1)
        = next_rate m c dW
          (forLoop 0 n (fun n L1 => forLoop (n + 1) (c.N + 1) (evolve_cell m c dW n) L1) L0)
          i k) := by
  induction n with
  | zero =>
    rw [forLoop_of_le (le_refl 0)]
    exact ⟨fun _ _ _ => rfl, fun k i hk => absurd hk (Nat.not_lt_zero k)⟩
  | succ n ih =>
    obtain ⟨hframe, hrec⟩ := ih (by omega)
    rw [forLoop_succ_top (Nat.zero_le n)]
    generalize forLoop 0 n
      (fun n L1 => forLoop (n + 1) (c.N + 1) (evolve_cell m c dW n) L1) L0 = X at hframe hrec
    show (∀ a b, _ → forLoop (n + 1) (c.N + 1) (evolve_cell m c dW n) X a b = L0 a b) ∧
      (∀ k i, k < n + 1 → k + 1 ≤ i → i ≤ c.N →
        forLoop (n + 1) (c.N + 1) (evolve_cell m c dW n) X i (k + 1)
          = next_rate m c dW (forLoop (n + 1) (c.N + 1) (evolve_cell m c dW n) X) i k)
    have hY := evolve_column_apply m c dW n X (c.N + 1) (by omega)
    constructor
    · intro a b hab
      rw [hY a b, if_neg (by omega)]
      exact hframe a b (by omega)
    · intro k i hk hki hiN
      have hcol : ∀ j, forLoop (n + 1) (c.N + 1) (evolve_cell m c dW n) X j k = X j k := by
        intro j
        rw [hY j k, if_neg (by omega)]
      rw [next_rate_congr m c dW k hcol, hY i (k + 1)]
      by_cases hkn : k = n
      · subst hkn
        rw [if_pos ⟨rfl, hki, by omega⟩]
      · rw [if_neg (by omega)]
        exact hrec k i (by omega) hki hiN

/-- The surface after the evolution: column `0` and the entries above the diagonal are
untouched, the others satisfy the recurrence of line 45. -/
theorem evolve_rates_spec (m : Libm F) (c : IR F) (dW : Vec F) (L0 : Mat F) :
    (∀ a b, ¬ (1 ≤ b ∧ b ≤ a ∧ a ≤ c.N) → evolve_rates m c dW L0 a b = L0 a b) ∧
    (∀ n i, n < c.N → n + 1 ≤ i → i ≤ c.N →
      evolve_rates m c dW L0 i (n + 1) = next_rate m c dW (evolve_rates m c dW L0) i n) := by
  obtain ⟨h1, h2⟩ := evolve_rates_invariant m c dW L0 c.N (le_refl _)
  exact ⟨fun a b hab => h1 a b (by omega), h2⟩

/-- The initial surface (lines 7-8 and 27-28): column `0` is flat, the rest is zero. -/
theorem init_state_L (c : IR F) (a b : Nat) :
    (init_state c).L a b = if b = 0 ∧ a ≤ c.N then fin spot_init else 0 := by
  have h : ∀ a b, forLoop 0 (c.N + 1) (fun i (L : Mat F) => Mat.set L i 0 (fin spot_init))
      (fun _ _ => 0) a b = if b = 0 ∧ a < c.N + 1 then fin spot_init else 0 := by
    refine forLoop_induction (fun i (L : Mat F) => Mat.set L i 0 (fin spot_init))
      (fun _ _ => 0)
      (fun i t => ∀ a b, t a b = if b = 0 ∧ a < i then fin spot_init else 0)
      (Nat.zero_le _) ?_ ?_
    · intro a b
      rw [if_neg (by omega)]
    · intro i t _ _ hp a b
      show Mat.set t i 0 (fin spot_init) a b = _
      rw [mat_set_apply, hp a b]
      by_cases hab : a = i ∧ b = 0
      · rw [if_pos hab, if_pos ⟨hab.2, by omega⟩]
      · rw [if_neg hab]
        by_cases hc : b = 0 ∧ a < i
        · rw [if_pos hc, if_pos ⟨hc.1, by omega⟩]
        · rw [if_neg hc, if_neg (by omega)]
  show forLoop 0 (c.N + 1) (fun i (L : Mat F) => Mat.set L i 0 (fin spot_init))
    (fun _ _ => 0) a b = _
  rw [h a b]
  by_cases hc : b = 0 ∧ a ≤ c.N
  · rw [if_pos hc, if_pos ⟨hc.1, by omega⟩]
  · rw [if_neg hc, if_neg (by omega)]

/-- With zero volatility the surface stays flat, provided no drift term divides by zero
and the increments are finite. -/
theorem evolve_rates_flat (m : Libm F) (c : IR F) (dW : Vec F) (L0 : Mat F)
    (hsigma : c.sigma = 0) (hexp : m.exp 0 = 1)
    (halpha : c.N ≤ 1 ∨ 1 + c.alpha * spot_init ≠ 0)
    (hdW : ∀ j, 1 ≤ j → j ≤ c.N → ∃ w, dW j = fin w)
    (hflat : ∀ i, i ≤ c.N → L0 i 0 = fin spot_init) :
    ∀ n i, n ≤ i → i ≤ c.N → evolve_rates m c dW L0 i n = fin spot_init := by
  obtain ⟨hframe, hrec⟩ := evolve_rates_spec m c dW L0
  intro n
  induction n with
  | zero =>
    intro i _ hi
    rw [hframe i 0 (by omega)]
    exact hflat i hi
  | succ n ih =>
    intro i hni hi
    rw [hrec n i (by omega) hni hi]
    unfold next_rate
    have hsum : drift_sum c (evolve_rates m c dW L0) i n = 0 := by
      rw [drift_sum_eq_sum]
      refine Finset.sum_eq_zero (fun k hk => ?_)
      rw [Finset.mem_Icc] at hk
      rw [ih k (by omega) hk.2, hsigma]
      rcases halpha with hN | hne
      · omega
      · show fin c.alpha * fin 0 * fin spot_init / (fin 1 + fin c.alpha * fin spot_init) = fin 0
        rw [fin_mul_fin, fin_mul_fin, fin_mul_fin, fin_add_fin, fin_div_fin_of_ne _ hne]
        congr 1
        rw [mul_zero, zero_mul, zero_div]
    obtain ⟨w, hw⟩ := hdW (n + 1) (by omega) (by omega)
    rw [hsum, ih i (by omega) hi, hw, hsigma, zero_def]
    simp only [neg_fin, fin_mul_fin, fin_sub_fin, fin_add_fin, exp_fin]
    have e : (-(0 : F) * 0 - 0.5 * 0 * 0) * c.dT + 0 * w = 0 := by ring
    rw [e, hexp, mul_one]

end Rates

/-! ## The discount surface -/

section Discounts

variable {F : Type} [LinearOrderedField F]

open Dbl

/-- The loop over the maturities (lines 51-60) writes column `n` in the rows
`n + 1 .. hi - 1`, and nothing else. -/
theorem discount_column_apply (c : IR F) (L : Mat F) (n : Nat) (D : Mat F)
    (hi : Nat) (hle : n + 1 ≤ hi) (a b : Nat) :
    forLoop (n + 1) hi (fun i (D2 : Mat F) => D2.set i n (df_prod c L n i)) D a b
      = if b = n ∧ n + 1 ≤ a ∧ a < hi then df_prod c L n a else D a b := by
  revert a b
  refine forLoop_induction (fun i (D2 : Mat F) => D2.set i n (df_prod c L n i)) D
    (fun i t => ∀ a b, t a b
      = if b = n ∧ n + 1 ≤ a ∧ a < i then df_prod c L n a else D a b) hle ?_ ?_
  · intro a b
    rw [if_neg (by omega)]
  · intro i t h1 _ hp a b
    show Mat.set t i n (df_prod c L n i) a b = _
    rw [mat_set_apply, hp a b]
    by_cases hab : a = i ∧ b = n
    · obtain ⟨ha, hb⟩ := hab
      subst ha hb
      rw [if_pos ⟨rfl, rfl⟩, if_pos ⟨rfl, h1, Nat.lt_succ_self _⟩]
    · rw [if_neg hab]
      by_cases hc : b = n ∧ n + 1 ≤ a ∧ a < i
      · rw [if_pos hc, if_pos ⟨hc.1, hc.2.1, by omega⟩]
      · rw [if_neg hc, if_neg (by omega)]

/-- The discount surface after the loop nest of lines 49-61: the entries `D[i][n]` with
`n < i <= N + 1` hold `df_prod`, every other entry is untouched. -/
theorem build_discounts_apply (c : IR F) (L : Mat F) (D : Mat F) (a b : Nat) :
    build_discounts c L D a b
      = if b + 1 ≤ a ∧ a ≤ c.N + 1 then df_prod c L b a else D a b := by
  have h : ∀ hn, hn ≤ c.N + 1 → ∀ a b,
      forLoop 0 hn (fun n (D1 : Mat F) =>
        forLoop (n + 1) (c.N + 2) (fun i (D2 : Mat F) => D2.set i n (df_prod c L n i)) D1) D
        a b
      = if b < hn ∧ b + 1 ≤ a ∧ a ≤ c.N + 1 then df_prod c L b a else D a b := by
    intro hn
    induction hn with
    | zero =>
      intro _ a b
      rw [forLoop_of_le (le_refl 0), if_neg (by omega)]
    | succ n ih =>
      intro hle a b
      rw [forLoop_succ_top (Nat.zero_le n)]
      show forLoop (n + 1) (c.N + 2)
        (fun i (D2 : Mat F) => D2.set i n (df_prod c L n i)) _ a b = _
      rw [discount_column_apply c L n _ (c.N + 2) (by omega) a b, ih (by omega) a b]
      by_cases hab : b = n ∧ n + 1 ≤ a ∧ a < c.N + 2
      · obtain ⟨hb, h1, h2⟩ := hab
        subst hb
        rw [if_pos ⟨rfl, h1, h2⟩, if_pos ⟨Nat.lt_succ_self _, h1, by omega⟩]
      · rw [if_neg hab]
        by_cases hc : b < n ∧ b + 1 ≤ a ∧ a ≤ c.N + 1
        · rw [if_pos hc, if_pos ⟨by omega, hc.2.1, hc.2.2⟩]
        · rw [if_neg hc, if_neg (by omega)]
  unfold build_discounts
  rw [h (c.N + 1) (le_refl _) a b]
  by_cases hc : b + 1 ≤ a ∧ a ≤ c.N + 1
  · rw [if_pos hc, if_pos ⟨by omega, hc.1, hc.2⟩]
  · rw [if_neg hc, if_neg (by omega)]

end Discounts

/-! ## The state along a run -/

section Run

variable {F : Type} [LinearOrderedField F]

open Dbl

/-- The payoff loop writes `FV`, `FVprime` and `V` only. -/
theorem payoff_loop_frame (c : IR F) (nsim : Nat) (s : SimState F) (hi : Nat) :
    (forLoop 1 hi (payoff_step c nsim) s).L = s.L ∧
    (forLoop 1 hi (payoff_step c nsim) s).D = s.D ∧
    (forLoop 1 hi (payoff_step c nsim) s).dW = s.dW ∧
    (forLoop 1 hi (payoff_step c nsim) s).calls = s.calls := by
  rcases Nat.lt_or_ge hi 1 with hlt | hle
  · rw [forLoop_of_le (by omega)]
    exact ⟨rfl, rfl, rfl, rfl⟩
  · refine forLoop_induction (payoff_step c nsim) s
      (fun _ t => t.L = s.L ∧ t.D = s.D ∧ t.dW = s.dW ∧ t.calls = s.calls) hle
      ⟨rfl, rfl, rfl, rfl⟩ ?_
    intro i t _ _ hp
    exact hp

/-- The loop of lines 34-35 writes `dW[1 .. N]` from the next `N` draws. -/
theorem draw_increments_spec (m : Libm F) (c : IR F) (normal : Nat → F) (s : SimState F) :
    (draw_increments m c normal s).L = s.L ∧
    (draw_increments m c normal s).D = s.D ∧
    (draw_increments m c normal s).V = s.V ∧
    (draw_increments m c normal s).calls = s.calls + c.N ∧
    ∀ j, (draw_increments m c normal s).dW j
      = if 1 ≤ j ∧ j ≤ c.N then Dbl.sqrt m (fin c.dT) * fin (normal (s.calls + (j - 1)))
        else s.dW j := by
  have h := forLoop_induction
    (fun j (s1 : SimState F) => { s1 with
      dW := s1.dW.set j (Dbl.sqrt m (fin c.dT) * fin (normal s1.calls))
      calls := s1.calls + 1 }) s
    (fun i t => t.L = s.L ∧ t.D = s.D ∧ t.V = s.V ∧ t.calls = s.calls + (i - 1) ∧
      ∀ j, t.dW j
        = if 1 ≤ j ∧ j < i then Dbl.sqrt m (fin c.dT) * fin (normal (s.calls + (j - 1)))
          else s.dW j)
    (show 1 ≤ c.N + 1 by omega)
    ⟨rfl, rfl, rfl, rfl, fun j => by rw [if_neg (by omega)]⟩
    (by
      intro i t h1 _ hp
      obtain ⟨hL, hD, hV, hcalls, hdW⟩ := hp
      refine ⟨hL, hD, hV, ?_, fun j => ?_⟩
      · show t.calls + 1 = s.calls + (i + 1 - 1)
        omega
      · show Vec.set t.dW i (Dbl.sqrt m (fin c.dT) * fin (normal t.calls)) j = _
        rw [vec_set_apply, hdW j, hcalls]
        by_cases hji : j = i
        · subst hji
          rw [if_pos rfl, if_pos ⟨h1, Nat.lt_succ_self _⟩]
        · rw [if_neg hji]
          by_cases hc : 1 ≤ j ∧ j < i
          · rw [if_pos hc, if_pos ⟨hc.1, by omega⟩]
          · rw [if_neg hc, if_neg (by omega)])
  obtain ⟨hL, hD, hV, hcalls, hdW⟩ := h
  refine ⟨hL, hD, hV, hcalls, fun j => ?_⟩
  show (forLoop 1 (c.N + 1) _ s).dW j = _
  rw [hdW j]
  by_cases hc : 1 ≤ j ∧ j ≤ c.N
  · rw [if_pos hc, if_pos ⟨hc.1, by omega⟩]
  · rw [if_neg hc, if_neg (by omega)]

/-- The payoff loop (lines 66-92): what it leaves in `V`, `FV` and `FVprime`. -/
theorem payoff_loop_spec (c : IR F) (nsim : Nat) (s : SimState F) (hi : Nat) (hle : 1 ≤ hi) :
    (forLoop 1 hi (payoff_step c nsim) s).V nsim
      = s.V nsim + ∑ k in Finset.Ico 1 hi, contribution c s.L s.D k ∧
    (∀ j, j ≠ nsim → (forLoop 1 hi (payoff_step c nsim) s).V j = s.V j) ∧
    (∀ k, (forLoop 1 hi (payoff_step c nsim) s).FV k
      = if 1 ≤ k ∧ k < hi then payoff c s.L k else s.FV k) ∧
    (∀ k, (forLoop 1 hi (payoff_step c nsim) s).FVprime k
      = if 1 ≤ k ∧ k < hi then rolled_payoff c s.L s.D k else s.FVprime k) := by
  refine forLoop_induction (payoff_step c nsim) s
    (fun i t => t.L = s.L ∧ t.D = s.D ∧
      t.V nsim = s.V nsim + ∑ k in Finset.Ico 1 i, contribution c s.L s.D k ∧
      (∀ j, j ≠ nsim → t.V j = s.V j) ∧
      (∀ k, t.FV k = if 1 ≤ k ∧ k < i then payoff c s.L k else s.FV k) ∧
      (∀ k, t.FVprime k = if 1 ≤ k ∧ k < i then rolled_payoff c s.L s.D k else s.FVprime k))
    hle ?_ ?_ |>.2.2
  · refine ⟨rfl, rfl, ?_, fun _ _ => rfl, fun k => ?_, fun k => ?_⟩
    · rw [Finset.Ico_self, Finset.sum_empty, add_zero]
    · rw [if_neg (by omega)]
    · rw [if_neg (by omega)]
  · intro i t h1 _ hp
    obtain ⟨hL, hD, hV, hVo, hFV, hFVp⟩ := hp
    have hfv : Vec.set t.FV i (payoff c t.L i) i = payoff c s.L i := by
      rw [vec_set_apply, if_pos rfl, hL]
    have hfvp : Vec.set t.FVprime i
        (Vec.set t.FV i (payoff c t.L i) i * t.D i (i - 1) / t.D (c.N + 1) (i - 1)) i
        = rolled_payoff c s.L s.D i := by
      rw [vec_set_apply, if_pos rfl, hfv, hD]
      rfl
    refine ⟨hL, hD, ?_, fun j hj => ?_, fun k => ?_, fun k => ?_⟩
    · show Vec.set t.V nsim
        (if c.cap = true then t.V nsim + Vec.set t.FVprime i
            (Vec.set t.FV i (payoff c t.L i) i * t.D i (i - 1) / t.D (c.N + 1) (i - 1)) i
          else t.V nsim + Vec.set t.FVprime i
            (Vec.set t.FV i (payoff c t.L i) i * t.D i (i - 1) / t.D (c.N + 1) (i - 1)) i
              * t.D i 0) nsim = _
      rw [vec_set_apply, if_pos rfl, hfvp, hV, Finset.sum_Ico_succ_top h1, hD]
      by_cases hc : c.cap = true
      · rw [if_pos hc, add_assoc]
        congr 2
        unfold contribution
        rw [if_pos hc]
      · rw [if_neg hc, add_assoc]
        congr 2
        unfold contribution
        rw [if_neg hc]
    · show Vec.set t.V nsim _ j = _
      rw [vec_set_apply, if_neg hj]
      exact hVo j hj
    · show Vec.set t.FV i (payoff c t.L i) k = _
      by_cases hki : k = i
      · subst hki
        rw [hfv, if_pos ⟨h1, Nat.lt_succ_self _⟩]
      · rw [vec_set_apply, if_neg hki, hFV k]
        by_cases hc : 1 ≤ k ∧ k < i
        · rw [if_pos hc, if_pos ⟨hc.1, by omega⟩]
        · rw [if_neg hc, if_neg (by omega)]
    · show Vec.set t.FVprime i
        (Vec.set t.FV i (payoff c t.L i) i * t.D i (i - 1) / t.D (c.N + 1) (i - 1)) k = _
      by_cases hki : k = i
      · subst hki
        rw [hfvp, if_pos ⟨h1, Nat.lt_succ_self _⟩]
      · rw [vec_set_apply, if_neg hki, hFVp k]
        by_cases hc : 1 ≤ k ∧ k < i
        · rw [if_pos hc, if_pos ⟨hc.1, by omega⟩]
        · rw [if_neg hc, if_neg (by omega)]

theorem simulate_path_dW (m : Libm F) (c : IR F) (normal : Nat → F) (nsim : Nat)
    (s : SimState F) :
    (simulate_path m c normal nsim s).dW = (draw_increments m c normal s).dW := by
  unfold simulate_path
  exact (payoff_loop_frame c nsim _ _).2.2.1

theorem simulate_path_calls (m : Libm F) (c : IR F) (normal : Nat → F) (nsim : Nat)
    (s : SimState F) :
    (simulate_path m c normal nsim s).calls = s.calls + c.N := by
  unfold simulate_path
  rw [(payoff_loop_frame c nsim _ _).2.2.2]
  exact (draw_increments_spec m c normal s).2.2.2.1

theorem simulate_path_L (m : Libm F) (c : IR F) (normal : Nat → F) (nsim : Nat)
    (s : SimState F) :
    (simulate_path m c normal nsim s).L
      = evolve_rates m c (simulate_path m c normal nsim s).dW s.L := by
  rw [simulate_path_dW]
  unfold simulate_path
  rw [(payoff_loop_frame c nsim _ _).1]
  show evolve_rates m c _ (draw_increments m c normal s).L = _
  rw [(draw_increments_spec m c normal s).1]

theorem simulate_path_D (m : Libm F) (c : IR F) (normal : Nat → F) (nsim : Nat)
    (s : SimState F) :
    (simulate_path m c normal nsim s).D
      = build_discounts c (simulate_path m c normal nsim s).L s.D := by
  rw [simulate_path_L, simulate_path_dW]
  unfold simulate_path
  rw [(payoff_loop_frame c nsim _ _).2.1]
  show build_discounts c (evolve_rates m c _ (draw_increments m c normal s).L)
    (draw_increments m c normal s).D = _
  rw [(draw_increments_spec m c normal s).1, (draw_increments_spec m c normal s).2.1]

/-- The value of path `nsim`, the payoffs and the untouched values after one iteration of
the loop over the paths. -/
theorem simulate_path_V (m : Libm F) (c : IR F) (normal : Nat → F) (nsim : Nat)
    (s : SimState F) :
    (simulate_path m c normal nsim s).V nsim
      = ∑ k in Finset.Icc 1 (c.N + 1),
          contribution c (simulate_path m c normal nsim s).L
            (simulate_path m c normal nsim s).D k ∧
    (∀ j, j ≠ nsim → (simulate_path m c normal nsim s).V j = s.V j) ∧
    (∀ k, 1 ≤ k → k ≤ c.N + 1 →
      (simulate_path m c normal nsim s).FV k
        = payoff c (simulate_path m c normal nsim s).L k) := by
  have hfr := payoff_loop_frame c nsim
    { draw_increments m c normal s with
      L := evolve_rates m c (draw_increments m c normal s).dW (draw_increments m c normal s).L
      D := build_discounts c
        (evolve_rates m c (draw_increments m c normal s).dW (draw_increments m c normal s).L)
        (draw_increments m c normal s).D
      V := Vec.set (draw_increments m c normal s).V nsim 0 } (c.N + 2)
  have hsp := payoff_loop_spec c nsim
    { draw_increments m c normal s with
      L := evolve_rates m c (draw_increments m c normal s).dW (draw_increments m c normal s).L
      D := build_discounts c
        (evolve_rates m c (draw_increments m c normal s).dW (draw_increments m c normal s).L)
        (draw_increments m c normal s).D
      V := Vec.set (draw_increments m c normal s).V nsim 0 } (c.N + 2) (by omega)
  obtain ⟨hL, hD, _, _⟩ := hfr
  obtain ⟨hV, hVo, hFV, _⟩ := hsp
  refine ⟨?_, fun j hj => ?_, fun k hk1 hk2 => ?_⟩
  · show (forLoop 1 (c.N + 2) (payoff_step c nsim) _).V nsim
      = ∑ k in Finset.Icc 1 (c.N + 1),
          contribution c (forLoop 1 (c.N + 2) (payoff_step c nsim) _).L
            (forLoop 1 (c.N + 2) (payoff_step c nsim) _).D k
    rw [hV, hL, hD]
    show Vec.set (draw_increments m c normal s).V nsim 0 nsim + _ = _
    rw [vec_set_apply, if_pos rfl, zero_add]
    rfl
  · show (forLoop 1 (c.N + 2) (payoff_step c nsim) _).V j = _
    rw [hVo j hj]
    show Vec.set (draw_increments m c normal s).V nsim 0 j = _
    rw [vec_set_apply, if_neg hj, (draw_increments_spec m c normal s).2.2.1]
  · show (forLoop 1 (c.N + 2) (payoff_step c nsim) _).FV k
      = payoff c (forLoop 1 (c.N + 2) (payoff_step c nsim) _).L k
    rw [hFV k, if_pos ⟨hk1, by omega⟩, hL]

theorem run_paths_zero (m : Libm F) (c : IR F) (normal : Nat → F) :
    run_paths m c normal 0 = init_state c :=
  forLoop_of_le (le_refl 0) _ _

theorem run_paths_succ (m : Libm F) (c : IR F) (normal : Nat → F) (p : Nat) :
    run_paths m c normal (p + 1) = simulate_path m c normal p (run_paths m c normal p) :=
  forLoop_succ_top (Nat.zero_le p) _ _

/-- Column `0` of the surface is flat before and after every path. -/
theorem run_paths_flat (m : Libm F) (c : IR F) (normal : Nat → F) (p : Nat) :
    ∀ i, i ≤ c.N → (run_paths m c normal p).L i 0 = fin spot_init := by
  induction p with
  | zero =>
    intro i hi
    rw [run_paths_zero, init_state_L, if_pos ⟨rfl, hi⟩]
  | succ p ih =>
    intro i hi
    rw [run_paths_succ, simulate_path_L, (evolve_rates_spec m c _ _).1 i 0 (by omega)]
    exact ih i hi

/-- A path value is not touched by the later paths. -/
theorem run_paths_V_stable (m : Libm F) (c : IR F) (normal : Nat → F) (p d : Nat) :
    (run_paths m c normal (p + 1 + d)).V p = (run_paths m c normal (p + 1)).V p := by
  induction d with
  | zero => rfl
  | succ d ih =>
    have e : p + 1 + (d + 1) = (p + 1 + d) + 1 := by omega
    rw [e, run_paths_succ, (simulate_path_V m c normal _ _).2.1 p (by omega)]
    exact ih

/-- The accumulation of lines 95-98 is the sum of the list of path values. -/
theorem sumPV_eq_sum (M : Nat) (V : Vec F) : sumPV M V = ((List.range M).map V).sum := by
  unfold sumPV
  induction M with
  | zero => rfl
  | succ k ih =>
    rw [forLoop_succ_top (Nat.zero_le k), ih, List.range_succ, List.map_append,
      List.sum_append]
    simp

/-! ## Zero volatility -/

theorem sum_fin (S : Finset Nat) (g : Nat → F) :
    ∑ k in S, (fin (g k) : Dbl F) = fin (∑ k in S, g k) := by
  induction S using Finset.induction_on with
  | empty => rfl
  | insert hk ih => rw [Finset.sum_insert hk, Finset.sum_insert hk, ih, fin_add_fin]

theorem prod_fin (S : Finset Nat) (g : Nat → F) :
    ∏ k in S, (fin (g k) : Dbl F) = fin (∏ k in S, g k) := by
  induction S using Finset.induction_on with
  | empty => rfl
  | insert hk ih => rw [Finset.prod_insert hk, Finset.prod_insert hk, ih, fin_mul_fin]

theorem flat_df_ne_zero (c : IR F) (halpha : 1 + c.alpha * spot_init ≠ 0) :
    flat_df c ≠ 0 := by
  unfold flat_df
  exact one_div_ne_zero halpha

/-- The increments of a path are finite when `dT` is not negative. -/
theorem simulate_path_dW_fin (m : Libm F) (c : IR F) (normal : Nat → F) (nsim : Nat)
    (s : SimState F) (hdT : 0 ≤ c.dT) (j : Nat) (h1 : 1 ≤ j) (h2 : j ≤ c.N) :
    ∃ w, (simulate_path m c normal nsim s).dW j = fin w := by
  rw [simulate_path_dW, (draw_increments_spec m c normal s).2.2.2.2 j, if_pos ⟨h1, h2⟩]
  refine ⟨m.sqrt c.dT * normal (s.calls + (j - 1)), ?_⟩
  show (if c.dT < 0 then nan else fin (m.sqrt c.dT)) * fin _ = _
  rw [if_neg (not_lt.mpr hdT), fin_mul_fin]

/-- Zero volatility: the surface every path leaves is flat. -/
theorem run_paths_flat_L (m : Libm F) (c : IR F) (normal : Nat → F)
    (hsigma : c.sigma = 0) (hexp : m.exp 0 = 1)
    (halpha : c.N ≤ 1 ∨ 1 + c.alpha * spot_init ≠ 0) (hdT : 0 ≤ c.dT)
    (p n i : Nat) (hni : n ≤ i) (hi : i ≤ c.N) :
    (run_paths m c normal (p + 1)).L i n = fin spot_init := by
  rw [run_paths_succ, simulate_path_L]
  exact evolve_rates_flat m c _ _ hsigma hexp halpha
    (simulate_path_dW_fin m c normal p _ hdT) (run_paths_flat m c normal p) n i hni hi

/-- Zero volatility: the discount factors every path leaves are powers of `flat_df`. -/
theorem run_paths_flat_D (m : Libm F) (c : IR F) (normal : Nat → F)
    (hsigma : c.sigma = 0) (hexp : m.exp 0 = 1)
    (halpha : 1 + c.alpha * spot_init ≠ 0) (hdT : 0 ≤ c.dT)
    (p n i : Nat) (hni : n < i) (hi : i ≤ c.N + 1) :
    (run_paths m c normal (p + 1)).D i n = fin (flat_df c ^ (i - n)) := by
  have hL := run_paths_flat_L m c normal hsigma hexp (Or.inr halpha) hdT p
  rw [run_paths_succ, simulate_path_D, build_discounts_apply, if_pos ⟨hni, hi⟩,
    df_prod_eq_prod, ← run_paths_succ]
  have hterm : ∀ k ∈ Finset.Ico n i,
      (1 : Dbl F) / (1 + fin c.alpha * (run_paths m c normal (p + 1)).L k n)
        = fin (flat_df c) := by
    intro k hk
    rw [Finset.mem_Ico] at hk
    rw [hL n k hk.1 (by omega)]
    show fin 1 / (fin 1 + fin c.alpha * fin spot_init) = _
    rw [fin_mul_fin, fin_add_fin, fin_div_fin_of_ne _ halpha]
    rfl
  rw [Finset.prod_congr rfl hterm, Finset.prod_const, Nat.card_Ico, fin_pow]

/-- Zero volatility: the payoff of every period is the payoff on the flat curve. -/
theorem run_paths_flat_payoff (m : Libm F) (c : IR F) (normal : Nat → F)
    (hsigma : c.sigma = 0) (hexp : m.exp 0 = 1)
    (halpha : c.N ≤ 1 ∨ 1 + c.alpha * spot_init ≠ 0) (hdT : 0 ≤ c.dT)
    (p i : Nat) (h1 : 1 ≤ i) (hi : i ≤ c.N + 1) :
    payoff c (run_paths m c normal (p + 1)).L i = fin (flat_payoff c) := by
  unfold payoff flat_payoff
  rw [run_paths_flat_L m c normal hsigma hexp halpha hdT p (i - 1) (i - 1) (le_refl _)
    (by omega)]
  by_cases hc : c.cap = true
  · rw [if_pos hc, if_pos hc, fin_sub_fin, stdmax_fin_zero]
  · rw [if_neg hc, if_neg hc, fin_sub_fin, fin_mul_fin, fin_mul_fin]

/-- Zero volatility: the value of every path. -/
theorem run_paths_flat_V (m : Libm F) (c : IR F) (normal : Nat → F)
    (hsigma : c.sigma = 0) (hexp : m.exp 0 = 1)
    (halpha : 1 + c.alpha * spot_init ≠ 0) (hdT : 0 ≤ c.dT) (p : Nat) :
    (run_paths m c normal (p + 1)).V p
      = fin (∑ i in Finset.Icc 1 (c.N + 1), flat_contribution c i) := by
  have hq := flat_df_ne_zero c halpha
  have hD := run_paths_flat_D m c normal hsigma hexp halpha hdT p
  have hpay := run_paths_flat_payoff m c normal hsigma hexp (Or.inr halpha) hdT p
  rw [run_paths_succ, (simulate_path_V m c normal p _).1, ← run_paths_succ, ← sum_fin]
  refine Finset.sum_congr rfl (fun i hi => ?_)
  rw [Finset.mem_Icc] at hi
  unfold contribution rolled_payoff flat_contribution
  rw [hpay i hi.1 hi.2, hD (i - 1) i (by omega) hi.2,
    hD (i - 1) (c.N + 1) (by omega) (le_refl _), fin_mul_fin,
    fin_div_fin_of_ne _ (pow_ne_zero _ hq)]
  by_cases hc : c.cap = true
  · rw [if_pos hc, if_pos hc]
  · rw [if_neg hc, if_neg hc, hD 0 i (by omega) hi.2, fin_mul_fin]

theorem sumPV_succ (M : Nat) (V : Vec F) : sumPV (M + 1) V = sumPV M V + V M :=
  forLoop_succ_top (Nat.zero_le M) _ _

theorem sumPV_const_fin (M : Nat) (V : Vec F) (x : F) (h : ∀ p, p < M → V p = fin x) :
    sumPV M V = fin ((M : F) * x) := by
  induction M with
  | zero =>
    show (fin 0 : Dbl F) = _
    rw [Nat.cast_zero, zero_mul]
  | succ k ih =>
    rw [sumPV_succ, ih (fun p hp => h p (by omega)), h k (by omega), fin_add_fin]
    congr 1
    push_cast
    ring

theorem sumPV_nan (M : Nat) (V : Vec F) (p : Nat) (hp : p < M) (h : V p = nan) :
    sumPV M V = nan := by
  induction M with
  | zero => omega
  | succ k ih =>
    rw [sumPV_succ]
    rcases Nat.eq_or_lt_of_le (Nat.le_of_lt_succ hp) with he | hlt
    · subst he
      rw [h, add_nan]
    · rw [ih hlt, nan_add]

theorem sum_eq_nan (S : Finset Nat) (g : Nat → Dbl F) (k : Nat) (hk : k ∈ S)
    (h : g k = nan) : ∑ i in S, g i = nan := by
  rw [← Finset.add_sum_erase S g hk, h, nan_add]

/-- The aggregate of lines 95-107 when every path value is the same finite number. -/
theorem value_of_const (m : Libm F) (c : IR F) (normal : Nat → F) (hM : 1 ≤ c.M)
    (x d : F) (hV : ∀ p, p < c.M → (run_paths m c normal (p + 1)).V p = fin x)
    (hD : (run_paths m c normal c.M).D (c.N + 1) 0 = fin d) :
    (get_simulation_data m c normal).value = fin (if c.cap then d * x else x) := by
  have hMne : (c.M : F) ≠ 0 := Nat.cast_ne_zero.mpr (by omega)
  have hsum : sumPV c.M (run_paths m c normal c.M).V = fin ((c.M : F) * x) := by
    refine sumPV_const_fin _ _ x (fun p hp => ?_)
    have e : c.M = p + 1 + (c.M - (p + 1)) := by omega
    rw [e, run_paths_V_stable]
    exact hV p hp
  show (if c.cap = true then
      (run_paths m c normal c.M).D (c.N + 1) 0 * sumPV c.M (run_paths m c normal c.M).V
        / fin (c.M : F)
    else sumPV c.M (run_paths m c normal c.M).V / fin (c.M : F)) = _
  rw [hsum, hD]
  by_cases hc : c.cap = true
  · rw [if_pos hc, if_pos hc, fin_mul_fin, fin_div_fin_of_ne _ hMne]
    congr 1
    field_simp
    ring
  · rw [if_neg hc, if_neg hc, fin_div_fin_of_ne _ hMne]
    congr 1
    field_simp

/-- The aggregate is not finite as soon as one path value is not. -/
theorem value_of_nan (m : Libm F) (c : IR F) (normal : Nat → F) (p : Nat) (hp : p < c.M)
    (hV : (run_paths m c normal (p + 1)).V p = nan) :
    (get_simulation_data m c normal).value = nan := by
  have hsum : sumPV c.M (run_paths m c normal c.M).V = nan := by
    refine sumPV_nan _ _ p hp ?_
    have e : c.M = p + 1 + (c.M - (p + 1)) := by omega
    rw [e, run_paths_V_stable]
    exact hV
  show (if c.cap = true then
      (run_paths m c normal c.M).D (c.N + 1) 0 * sumPV c.M (run_paths m c normal c.M).V
        / fin (c.M : F)
    else sumPV c.M (run_paths m c normal c.M).V / fin (c.M : F)) = _
  rw [hsum]
  by_cases hc : c.cap = true
  · rw [if_pos hc, mul_nan, nan_div]
  · rw [if_neg hc, nan_div]

/-- Zero volatility: the present value in terms of the flat curve. -/
theorem value_flat (m : Libm F) (c : IR F) (normal : Nat → F)
    (hsigma : c.sigma = 0) (hexp : m.exp 0 = 1)
    (halpha : 1 + c.alpha * spot_init ≠ 0) (hdT : 0 ≤ c.dT) (hM : 1 ≤ c.M) :
    (get_simulation_data m c normal).value
      = fin (if c.cap then
          flat_df c ^ (c.N + 1) * ∑ i in Finset.Icc 1 (c.N + 1), flat_contribution c i
        else ∑ i in Finset.Icc 1 (c.N + 1), flat_contribution c i) := by
  refine value_of_const m c normal hM _ _
    (fun p _ => run_paths_flat_V m c normal hsigma hexp halpha hdT p) ?_
  have e : c.M = (c.M - 1) + 1 := by omega
  rw [e, run_paths_flat_D m c normal hsigma hexp halpha hdT (c.M - 1) 0 (c.N + 1)
    (by omega) (le_refl _)]
  rfl

theorem flat_df_pow (c : IR F) (n : Nat) :
    flat_df c ^ n = (1 + c.alpha * spot_init) ^ (-(n : ℤ)) := by
  unfold flat_df
  rw [one_div, inv_pow, zpow_neg, zpow_natCast]

/-- A cap on the flat curve: a rolled payoff times the terminal discount factor is the
payoff discounted from its own payment date. -/
theorem flat_contribution_cap (c : IR F) (halpha : 1 + c.alpha * spot_init ≠ 0)
    (hcap : c.cap = true) (i : Nat) (h1 : 1 ≤ i) (hi : i ≤ c.N + 1) :
    flat_df c ^ (c.N + 1) * flat_contribution c i
      = flat_payoff c * (1 + c.alpha * spot_init) ^ (-(i : ℤ)) := by
  unfold flat_contribution
  rw [if_pos hcap, flat_df_pow, flat_df_pow, flat_df_pow, mul_div_assoc, ← zpow_sub₀ halpha,
    mul_left_comm, ← zpow_add₀ halpha]
  congr 2
  omega

/-- A swap on the flat curve: the payoff rolled to the terminal date and multiplied by the
discount factor of its own payment date. -/
theorem flat_contribution_swap (c : IR F) (halpha : 1 + c.alpha * spot_init ≠ 0)
    (hcap : c.cap = false) (i : Nat) (h1 : 1 ≤ i) (hi : i ≤ c.N + 1) :
    flat_contribution c i
      = flat_payoff c * (1 + c.alpha * spot_init) ^ ((c.N : ℤ) + 1 - 2 * (i : ℤ)) := by
  unfold flat_contribution
  rw [if_neg (by rw [hcap]; exact Bool.false_ne_true), flat_df_pow, flat_df_pow, flat_df_pow,
    mul_div_assoc, ← zpow_sub₀ halpha, mul_assoc, ← zpow_add₀ halpha]
  congr 2
  omega

/-! ## Undefined operations -/

/-- With `1 + alpha * spot_init = 0` and at least two tenors the drift of tenor `1` divides
by zero at step `0`. -/
theorem evolve_rates_singular (m : Libm F) (c : IR F) (dW : Vec F) (L0 : Mat F)
    (halpha : 1 + c.alpha * spot_init = 0) (hN : 2 ≤ c.N)
    (hflat : ∀ i, i ≤ c.N → L0 i 0 = fin spot_init) :
    evolve_rates m c dW L0 1 1 = nan := by
  obtain ⟨hframe, hrec⟩ := evolve_rates_spec m c dW L0
  rw [hrec 0 1 (by omega) (le_refl _) (by omega)]
  unfold next_rate
  have hsum : drift_sum c (evolve_rates m c dW L0) 1 0 = nan := by
    rw [drift_sum_eq_sum]
    refine sum_eq_nan _ _ 2 (Finset.mem_Icc.mpr ⟨le_refl _, hN⟩) ?_
    rw [hframe 2 0 (by omega), hflat 2 hN]
    show fin c.alpha * fin c.sigma * fin spot_init / (fin 1 + fin c.alpha * fin spot_init) = nan
    rw [fin_mul_fin, fin_mul_fin, fin_mul_fin, fin_add_fin, halpha, fin_div_zero]
  rw [hsum, neg_nan, nan_mul, nan_sub, nan_mul, nan_add, exp_nan, mul_nan]

theorem contribution_nan (c : IR F) (L D : Mat F) (i : Nat) (h : D i (i - 1) = nan) :
    contribution c L D i = nan := by
  unfold contribution rolled_payoff
  rw [h, mul_nan, nan_div, nan_mul, ite_self]

/-- With `1 + alpha * spot_init = 0` the first discount factor divides by zero and no path
has a finite value. -/
theorem run_paths_V_singular (m : Libm F) (c : IR F) (normal : Nat → F)
    (halpha : 1 + c.alpha * spot_init = 0) (p : Nat) :
    (run_paths m c normal (p + 1)).V p = nan := by
  have hD : (run_paths m c normal (p + 1)).D 1 (1 - 1) = nan := by
    show (run_paths m c normal (p + 1)).D 1 0 = nan
    rw [run_paths_succ, simulate_path_D, build_discounts_apply, if_pos ⟨le_refl _, by omega⟩,
      df_prod_eq_prod, ← run_paths_succ, Nat.Ico_succ_singleton, Finset.prod_singleton,
      run_paths_flat m c normal (p + 1) 0 (Nat.zero_le _)]
    show fin 1 / (fin 1 + fin c.alpha * fin spot_init) = nan
    rw [fin_mul_fin, fin_add_fin, halpha, fin_div_zero]
  rw [run_paths_succ, (simulate_path_V m c normal p _).1, ← run_paths_succ]
  exact sum_eq_nan _ _ 1 (Finset.mem_Icc.mpr ⟨le_refl _, by omega⟩)
    (contribution_nan c _ _ 1 hD)

/-- With a negative time step the increments are not finite and, with at least one tenor, no
path has a finite value. -/
theorem run_paths_V_neg_step (m : Libm F) (c : IR F) (normal : Nat → F)
    (hdT : c.dT < 0) (hN : 1 ≤ c.N) (p : Nat) :
    (run_paths m c normal (p + 1)).V p = nan := by
  have hdW : (run_paths m c normal (p + 1)).dW (0 + 1) = nan := by
    rw [run_paths_succ, simulate_path_dW, (draw_increments_spec m c normal _).2.2.2.2,
      if_pos ⟨le_refl _, hN⟩]
    show (if c.dT < 0 then nan else fin (m.sqrt c.dT)) * fin _ = nan
    rw [if_pos hdT, nan_mul]
  have hL : (run_paths m c normal (p + 1)).L 1 1 = nan := by
    have h := (evolve_rates_spec m c (run_paths m c normal (p + 1)).dW
      (run_paths m c normal p).L).2 0 1 (by omega) (le_refl _) hN
    rw [run_paths_succ, simulate_path_L, ← run_paths_succ, h]
    unfold next_rate
    rw [hdW, mul_nan, add_nan, exp_nan, mul_nan]
  have hD : (run_paths m c normal (p + 1)).D 2 (2 - 1) = nan := by
    show (run_paths m c normal (p + 1)).D 2 1 = nan
    rw [run_paths_succ, simulate_path_D, build_discounts_apply, if_pos ⟨le_refl _, by omega⟩,
      df_prod_eq_prod, ← run_paths_succ, Nat.Ico_succ_singleton, Finset.prod_singleton, hL,
      mul_nan, add_nan, div_nan]
  rw [run_paths_succ, (simulate_path_V m c normal p _).1, ← run_paths_succ]
  exact sum_eq_nan _ _ 2 (Finset.mem_Icc.mpr ⟨by omega, by omega⟩)
    (contribution_nan c _ _ 2 hD)

/-- The entries of `datapoints` are the values of the paths. -/
theorem mem_datapoints (m : Libm F) (c : IR F) (normal : Nat → F) (x : Dbl F)
    (hx : x ∈ (get_simulation_data m c normal).datapoints) :
    ∃ p, p < c.M ∧ x = (run_paths m c normal (p + 1)).V p := by
  have hx1 : x ∈ (List.range c.M).map (run_paths m c normal c.M).V := hx
  rw [List.mem_map] at hx1
  obtain ⟨p, hp, hpx⟩ := hx1
  rw [List.mem_range] at hp
  refine ⟨p, hp, ?_⟩
  have e : c.M = p + 1 + (c.M - (p + 1)) := by omega
  rw [← hpx, e, run_paths_V_stable]

/-! ## Dependence on the draws -/

/-- The meaningful entries of the evolved surface depend on the increments only through the
products `sigma * dW[j]`, and on the previous content of the array only through column
`0`. -/
theorem evolve_rates_determined (m : Libm F) (c : IR F) (dW1 dW2 : Vec F) (L1 L2 : Mat F)
    (hdW : ∀ j, 1 ≤ j → j ≤ c.N → fin c.sigma * dW1 j = fin c.sigma * dW2 j)
    (hcol : ∀ i, i ≤ c.N → L1 i 0 = L2 i 0) :
    ∀ n i, n ≤ i → i ≤ c.N → evolve_rates m c dW1 L1 i n = evolve_rates m c dW2 L2 i n := by
  obtain ⟨hframe1, hrec1⟩ := evolve_rates_spec m c dW1 L1
  obtain ⟨hframe2, hrec2⟩ := evolve_rates_spec m c dW2 L2
  intro n
  induction n with
  | zero =>
    intro i _ hi
    rw [hframe1 i 0 (by omega), hframe2 i 0 (by omega)]
    exact hcol i hi
  | succ n ih =>
    intro i hni hi
    rw [hrec1 n i (by omega) hni hi, hrec2 n i (by omega) hni hi]
    unfold next_rate
    rw [drift_sum_eq_sum, drift_sum_eq_sum, ih i (by omega) hi,
      hdW (n + 1) (by omega) (by omega)]
    have hsum : ∑ k in Finset.Icc (i + 1) c.N,
          (fin c.alpha * fin c.sigma * evolve_rates m c dW1 L1 k n)
            / (1 + fin c.alpha * evolve_rates m c dW1 L1 k n)
        = ∑ k in Finset.Icc (i + 1) c.N,
          (fin c.alpha * fin c.sigma * evolve_rates m c dW2 L2 k n)
            / (1 + fin c.alpha * evolve_rates m c dW2 L2 k n) := by
      refine Finset.sum_congr rfl (fun k hk => ?_)
      rw [Finset.mem_Icc] at hk
      rw [ih k (by omega) hk.2]
    rw [hsum]

/-- The value of a path is a function of the meaningful entries of the two surfaces. -/
theorem path_value_determined (c : IR F) (L1 L2 D1 D2 : Mat F)
    (hL : ∀ n i, n ≤ i → i ≤ c.N → L1 i n = L2 i n)
    (hD : ∀ n i, n < i → i ≤ c.N + 1 → D1 i n = D2 i n) :
    ∑ k in Finset.Icc 1 (c.N + 1), contribution c L1 D1 k
      = ∑ k in Finset.Icc 1 (c.N + 1), contribution c L2 D2 k := by
  refine Finset.sum_congr rfl (fun k hk => ?_)
  rw [Finset.mem_Icc] at hk
  unfold contribution rolled_payoff payoff
  rw [hL (k - 1) (k - 1) (le_refl _) (by omega), hD (k - 1) k (by omega) hk.2,
    hD (k - 1) (c.N + 1) (by omega) (le_refl _), hD 0 k (by omega) hk.2]

/-- The discount factors are a function of the meaningful entries of the rate surface. -/
theorem build_discounts_determined (c : IR F) (L1 L2 D1 D2 : Mat F)
    (hL : ∀ n i, n ≤ i → i ≤ c.N → L1 i n = L2 i n) :
    ∀ n i, n < i → i ≤ c.N + 1 → build_discounts c L1 D1 i n = build_discounts c L2 D2 i n := by
  intro n i hni hi
  rw [build_discounts_apply, build_discounts_apply, if_pos ⟨hni, hi⟩, if_pos ⟨hni, hi⟩,
    df_prod_eq_prod, df_prod_eq_prod]
  refine Finset.prod_congr rfl (fun k hk => ?_)
  rw [Finset.mem_Ico] at hk
  rw [hL n k hk.1 (by omega)]

end Run

/-! ## Positivity -/

section Positivity

variable {F : Type} [LinearOrderedField F]

open Dbl

theorem le_zero_fin (a : F) (h : 0 ≤ a) : Dbl.le (0 : Dbl F) (fin a) = true :=
  decide_eq_true h

end Positivity

/-! ## Independence of the paths -/

section Paths

variable {F : Type} [LinearOrderedField F]

open Dbl

/-- Every path makes `N` calls of `normal()`. -/
theorem run_paths_calls (m : Libm F) (c : IR F) (normal : Nat → F) (p : Nat) :
    (run_paths m c normal p).calls = p * c.N := by
  induction p with
  | zero =>
    rw [run_paths_zero, Nat.zero_mul]
    rfl
  | succ p ih => rw [run_paths_succ, simulate_path_calls, ih, Nat.succ_mul]

/-- The value an iteration of the loop over the paths stores depends on the state it starts
from only through column `0` of `L`, and on the stream of draws only through the `N` draws
it makes. -/
theorem simulate_path_value_frame (m : Libm F) (c : IR F) (normal1 normal2 : Nat → F)
    (n1 n2 : Nat) (s1 s2 : SimState F)
    (hcol : ∀ i, i ≤ c.N → s1.L i 0 = s2.L i 0)
    (hdraws : ∀ k, k < c.N → normal1 (s1.calls + k) = normal2 (s2.calls + k)) :
    (simulate_path m c normal1 n1 s1).V n1 = (simulate_path m c normal2 n2 s2).V n2 := by
  have hL : ∀ n i, n ≤ i → i ≤ c.N →
      (simulate_path m c normal1 n1 s1).L i n = (simulate_path m c normal2 n2 s2).L i n := by
    rw [simulate_path_L, simulate_path_L]
    refine evolve_rates_determined m c _ _ _ _ (fun j h1 h2 => ?_) hcol
    rw [simulate_path_dW, simulate_path_dW, (draw_increments_spec m c normal1 _).2.2.2.2,
      (draw_increments_spec m c normal2 _).2.2.2.2, if_pos ⟨h1, h2⟩, if_pos ⟨h1, h2⟩,
      hdraws (j - 1) (by omega)]
  have hD : ∀ n i, n < i → i ≤ c.N + 1 →
      (simulate_path m c normal1 n1 s1).D i n = (simulate_path m c normal2 n2 s2).D i n := by
    rw [simulate_path_D, simulate_path_D]
    exact build_discounts_determined c _ _ _ _ hL
  rw [(simulate_path_V m c normal1 n1 s1).1, (simulate_path_V m c normal2 n2 s2).1]
  exact path_value_determined c _ _ _ _ hL hD

end Paths

/-! ## The time-0 discount column and the last tenor -/

section Column

variable {F : Type} [LinearOrderedField F]

open Dbl

theorem dbl_add_mul (x y d : Dbl F) : (x + y) * d = x * d + y * d := by
  cases x <;> cases y <;> cases d <;>
    first
    | rfl
    | exact congrArg fin (add_mul _ _ _)

theorem list_sum_mul_right (l : List Nat) (hl : l ≠ []) (f : Nat → Dbl F) (d : Dbl F) :
    (l.map (fun p => f p * d)).sum = (l.map f).sum * d := by
  induction l with
  | nil => exact absurd rfl hl
  | cons a t ih =>
    cases t with
    | nil =>
      show f a * d + 0 = (f a + 0) * d
      rw [add_zero, add_zero]
    | cons b t =>
      show f a * d + (List.map (fun p => f p * d) (b :: t)).sum
        = (f a + (List.map f (b :: t)).sum) * d
      rw [ih (List.cons_ne_nil b t), dbl_add_mul]

/-- The time-0 discount column is the same on every path: it is built from column `0` of
the rate surface, which is flat. -/
theorem run_paths_D0 (m : Libm F) (c : IR F) (normal : Nat → F) (p i : Nat)
    (h1 : 1 ≤ i) (hi : i ≤ c.N + 1) :
    (run_paths m c normal (p + 1)).D i 0 = (1 / (1 + fin c.alpha * fin spot_init)) ^ i := by
  rw [run_paths_succ, simulate_path_D, build_discounts_apply, if_pos ⟨h1, hi⟩,
    df_prod_eq_prod, ← run_paths_succ]
  have hterm : ∀ k ∈ Finset.Ico 0 i,
      (1 : Dbl F) / (1 + fin c.alpha * (run_paths m c normal (p + 1)).L k 0)
        = 1 / (1 + fin c.alpha * fin spot_init) := by
    intro k hk
    rw [Finset.mem_Ico] at hk
    rw [run_paths_flat m c normal (p + 1) k (by omega)]
  rw [Finset.prod_congr rfl hterm, Finset.prod_const, Nat.card_Ico, Nat.sub_zero]

theorem sumPV_map_congr (M : Nat) (V W : Vec F) (h : ∀ p, p < M → V p = W p) :
    sumPV M V = ((List.range M).map W).sum := by
  rw [sumPV_eq_sum]
  congr 1
  exact List.map_congr_left (fun p hp => h p (List.mem_range.mp hp))

/-- The drift sum of the last tenor is empty. -/
theorem drift_sum_last (c : IR F) (L : Mat F) (n : Nat) : drift_sum c L c.N n = 0 := by
  unfold drift_sum
  exact forLoop_of_le (le_refl _) _ _

end Column

/-! ## Configurations the specification calls invalid -/

section Invalid

variable {F : Type} [LinearOrderedField F]

open Dbl

/-- Without paths the aggregate of lines 95-107 is `0 / 0`. -/
theorem value_no_paths (m : Libm F) (c : IR F) (normal : Nat → F) (hM : c.M = 0) :
    (get_simulation_data m c normal).value = nan := by
  show (if c.cap = true then
      (run_paths m c normal c.M).D (c.N + 1) 0 * sumPV c.M (run_paths m c normal c.M).V
        / fin (c.M : F)
    else sumPV c.M (run_paths m c normal c.M).V / fin (c.M : F)) = _
  rw [hM, run_paths_zero]
  show (if c.cap = true then (fin 0 : Dbl F) * fin 0 / fin ((0 : Nat) : F)
    else fin 0 / fin ((0 : Nat) : F)) = nan
  rw [Nat.cast_zero, fin_mul_fin, fin_div_zero, fin_div_zero, ite_self]

/-- Without tenors (`N = 0`) the only rate is `L[0][0]`, and every path has the value of
one period on the flat curve, whatever the volatility and the time step. -/
theorem run_paths_no_tenor (m : Libm F) (c : IR F) (normal : Nat → F) (hN : c.N = 0)
    (halpha : 1 + c.alpha * spot_init ≠ 0) (p : Nat) :
    (run_paths m c normal (p + 1)).D (c.N + 1) 0 = fin (flat_df c) ∧
    (run_paths m c normal (p + 1)).V p
      = fin (if c.cap then flat_payoff c else flat_payoff c * flat_df c) := by
  have hq := flat_df_ne_zero c halpha
  have hD : (run_paths m c normal (p + 1)).D 1 0 = fin (flat_df c) := by
    rw [run_paths_D0 m c normal p 1 (le_refl _) (by omega)]
    show (fin 1 / (fin 1 + fin c.alpha * fin spot_init)) ^ 1 = _
    rw [fin_mul_fin, fin_add_fin, fin_div_fin_of_ne _ halpha, pow_one]
    rfl
  have hpay : payoff c (run_paths m c normal (p + 1)).L 1 = fin (flat_payoff c) := by
    unfold payoff flat_payoff
    show (if c.cap = true then
        stdmax ((run_paths m c normal (p + 1)).L 0 0 - fin c.K) 0
      else fin c.notional * fin c.alpha
        * ((run_paths m c normal (p + 1)).L 0 0 - fin c.K)) = _
    rw [run_paths_flat m c normal (p + 1) 0 (Nat.zero_le _)]
    by_cases hc : c.cap = true
    · rw [if_pos hc, if_pos hc, fin_sub_fin, stdmax_fin_zero]
    · rw [if_neg hc, if_neg hc, fin_sub_fin, fin_mul_fin, fin_mul_fin]
  have hN1 : c.N + 1 = 1 := by omega
  refine ⟨by rw [hN1]; exact hD, ?_⟩
  rw [run_paths_succ, (simulate_path_V m c normal p _).1, ← run_paths_succ, hN1,
    Finset.Icc_self, Finset.sum_singleton]
  unfold contribution rolled_payoff
  rw [hpay, hN1]
  show (if c.cap = true then
      fin (flat_payoff c) * (run_paths m c normal (p + 1)).D 1 0
        / (run_paths m c normal (p + 1)).D 1 0
    else fin (flat_payoff c) * (run_paths m c normal (p + 1)).D 1 0
        / (run_paths m c normal (p + 1)).D 1 0 * (run_paths m c normal (p + 1)).D 1 0) = _
  rw [hD, fin_mul_fin, fin_div_fin_of_ne _ hq, fin_mul_fin, mul_div_assoc, div_self hq,
    mul_one]
  exact (apply_ite fin _ _ _).symm

/-- Without tenors the present value is the payoff of one period discounted over one
period. -/
theorem value_no_tenor (m : Libm F) (c : IR F) (normal : Nat → F) (hN : c.N = 0)
    (hM : 1 ≤ c.M) (halpha : 1 + c.alpha * spot_init ≠ 0) :
    (get_simulation_data m c normal).value
      = fin (flat_payoff c / (1 + c.alpha * spot_init)) := by
  have hMe : c.M = (c.M - 1) + 1 := by omega
  rw [value_of_const m c normal hM _ (flat_df c)
    (fun p _ => (run_paths_no_tenor m c normal hN halpha p).2)
    (by rw [hMe]; exact (run_paths_no_tenor m c normal hN halpha (c.M - 1)).1)]
  congr 1
  unfold flat_df
  by_cases hc : c.cap = true
  · rw [if_pos hc, if_pos hc, mul_comm, mul_one_div]
  · rw [if_neg hc, if_neg hc, mul_one_div]

end Invalid

/-! ## The Gaussian sampler -/

section SamplerLemmas

variable {F : Type} [LinearOrderedField F]

open Dbl

omit [LinearOrderedField F] in
theorem pair_stream_even (xs ys : Nat → F) (j : Nat) :
    pair_stream xs ys (2 * j) = fin (xs j) := by
  unfold pair_stream
  rw [if_pos (by omega), Nat.mul_div_cancel_left j (by decide)]

omit [LinearOrderedField F] in
theorem pair_stream_odd (xs ys : Nat → F) (j : Nat) :
    pair_stream xs ys (2 * j + 1) = fin (ys j) := by
  unfold pair_stream
  rw [if_neg (by omega)]
  congr 2
  omega

/-- A trip through the loop with a pair of norm at least `1` draws again. -/
theorem loop_reject (m : Libm F) (lg : F → F) (u : Nat → Dbl F) (fuel pos : Nat) (x y : F)
    (hx : u pos = fin x) (hy : u (pos + 1) = fin y) (h : 1 ≤ x * x + y * y) :
    SampleBoxMuller.loop m lg u (fuel + 1) pos = SampleBoxMuller.loop m lg u fuel (pos + 2) := by
  show (if Dbl.ge (u pos * u pos + u (pos + 1) * u (pos + 1)) 1 = true
    then SampleBoxMuller.loop m lg u fuel (pos + 2)
    else some (SampleBoxMuller.transform m lg (u pos)
      (u pos * u pos + u (pos + 1) * u (pos + 1)), pos + 2)) = _
  rw [hx, hy, fin_mul_fin, fin_mul_fin, fin_add_fin]
  exact if_pos (decide_eq_true h)

/-- A trip through the loop with a pair of norm less than `1` returns its transform. -/
theorem loop_accept (m : Libm F) (lg : F → F) (u : Nat → Dbl F) (fuel pos : Nat) (x y : F)
    (hx : u pos = fin x) (hy : u (pos + 1) = fin y) (h : x * x + y * y < 1) :
    SampleBoxMuller.loop m lg u (fuel + 1) pos
      = some (SampleBoxMuller.transform m lg (fin x) (fin (x * x + y * y)), pos + 2) := by
  show (if Dbl.ge (u pos * u pos + u (pos + 1) * u (pos + 1)) 1 = true
    then SampleBoxMuller.loop m lg u fuel (pos + 2)
    else some (SampleBoxMuller.transform m lg (u pos)
      (u pos * u pos + u (pos + 1) * u (pos + 1)), pos + 2)) = _
  rw [hx, hy, fin_mul_fin, fin_mul_fin, fin_add_fin]
  exact if_neg (by
    show ¬ decide ((1 : F) ≤ x * x + y * y) = true
    rw [decide_eq_true_iff]
    exact not_le.mpr h)

/-- The sampler skips the leading pairs of norm at least `1` and returns the transform of
the first pair of norm less than `1`. -/
theorem loop_first_accepted (m : Libm F) (lg : F → F) (xs ys : Nat → F) (k : Nat) :
    ∀ (j0 fuel : Nat), (∀ j, j < k → 1 ≤ xs (j0 + j) * xs (j0 + j) + ys (j0 + j) * ys (j0 + j)) →
      xs (j0 + k) * xs (j0 + k) + ys (j0 + k) * ys (j0 + k) < 1 → k < fuel →
      SampleBoxMuller.loop m lg (pair_stream xs ys) fuel (2 * j0)
        = some (SampleBoxMuller.transform m lg (fin (xs (j0 + k)))
            (fin (xs (j0 + k) * xs (j0 + k) + ys (j0 + k) * ys (j0 + k))),
          2 * (j0 + k + 1)) := by
  induction k with
  | zero =>
    intro j0 fuel _ hacc hfuel
    obtain ⟨f, rfl⟩ : ∃ f, fuel = f + 1 := ⟨fuel - 1, by omega⟩
    rw [loop_accept m lg _ f (2 * j0) (xs j0) (ys j0) (pair_stream_even xs ys j0)
      (pair_stream_odd xs ys j0) hacc]
    rfl
  | succ k ih =>
    intro j0 fuel hrej hacc hfuel
    obtain ⟨f, rfl⟩ : ∃ f, fuel = f + 1 := ⟨fuel - 1, by omega⟩
    rw [loop_reject m lg _ f (2 * j0) (xs j0) (ys j0) (pair_stream_even xs ys j0)
      (pair_stream_odd xs ys j0) (hrej 0 (by omega))]
    have e : ∀ j, j0 + 1 + j = j0 + (j + 1) := fun j => by omega
    have h := ih (j0 + 1) f
      (fun j hj => by rw [e]; exact hrej (j + 1) (by omega))
      (by rw [e]; exact hacc) (by omega)
    rw [e] at h
    exact h

/-- With an odd `RAND_MAX` no uniform variate is `0`. -/
theorem uniform_ne_zero (R : Nat) (hodd : R % 2 = 1) (r : Nat) :
    (SampleBoxMuller.uniform R r : Dbl F) = fin (2 * (r : F) / (R : F) - 1) ∧
    (2 * (r : F) / (R : F) - 1) ≠ 0 := by
  have hR : (R : F) ≠ 0 := Nat.cast_ne_zero.mpr (by omega)
  refine ⟨?_, fun h => ?_⟩
  · show fin 2 * fin (r : F) / fin (R : F) - fin 1 = _
    rw [fin_mul_fin, fin_div_fin_of_ne _ hR, fin_sub_fin]
  · have h1 : 2 * (r : F) / (R : F) = 1 := sub_eq_zero.mp h
    have h2 : 2 * (r : F) = (R : F) := by
      rw [div_eq_one_iff_eq hR] at h1
      exact h1
    have h3 : ((2 * r : Nat) : F) = ((R : Nat) : F) := by
      rw [Nat.cast_mul]
      exact h2
    have h4 : 2 * r = R := Nat.cast_injective h3
    omega

/-- With an odd `RAND_MAX` every call that returns has evaluated the transform at a norm
strictly between `0` and `1`, where the logarithm and the division are defined. -/
theorem call_result_defined (m : Libm F) (lg : F → F) (R : Nat) (hodd : R % 2 = 1)
    (rand : Nat → Nat) (fuel : Nat) :
    ∀ (pos : Nat) (v : Dbl F) (pos1 : Nat),
      SampleBoxMuller.call m lg R rand fuel pos = some (v, pos1) →
      ∃ x s, 0 < s ∧ s < 1 ∧ v = fin x * Dbl.sqrt m (fin (-2 * lg s / s)) := by
  induction fuel with
  | zero =>
    intro pos v pos1 h
    exact absurd h (by
      show ¬ (none : Option (Dbl F × Nat)) = some (v, pos1)
      exact fun h => Option.noConfusion h)
  | succ f ih =>
    intro pos v pos1 h
    obtain ⟨hx, hx0⟩ := uniform_ne_zero (F := F) R hodd (rand pos)
    obtain ⟨hy, _⟩ := uniform_ne_zero (F := F) R hodd (rand (pos + 1))
    have hs : 0 < (2 * (rand pos : F) / (R : F) - 1) * (2 * (rand pos : F) / (R : F) - 1)
        + (2 * (rand (pos + 1) : F) / (R : F) - 1) * (2 * (rand (pos + 1) : F) / (R : F) - 1) :=
      add_pos_of_pos_of_nonneg (mul_self_pos.mpr hx0) (mul_self_nonneg _)
    unfold SampleBoxMuller.call at h
    by_cases hrej : 1 ≤ (2 * (rand pos : F) / (R : F) - 1) * (2 * (rand pos : F) / (R : F) - 1)
        + (2 * (rand (pos + 1) : F) / (R : F) - 1) * (2 * (rand (pos + 1) : F) / (R : F) - 1)
    · rw [loop_reject m lg _ f pos _ _ hx hy hrej] at h
      exact ih (pos + 2) v pos1 h
    · rw [loop_accept m lg _ f pos _ _ hx hy (not_le.mp hrej)] at h
      have hv := (Prod.mk.inj (Option.some.inj h)).1
      refine ⟨2 * (rand pos : F) / (R : F) - 1, _, hs, not_le.mp hrej, ?_⟩
      rw [← hv]
      unfold SampleBoxMuller.transform
      show fin _ * Dbl.sqrt m (fin (-2) * (if _ ≤ 0 then nan else fin (lg _)) / fin _) = _
      rw [if_neg (not_le.mpr hs), fin_mul_fin, fin_div_fin_of_ne _ (ne_of_gt hs)]

end SamplerLemmas

/-! ## The two-asset option and the finite-difference grid -/

section EquityForex

variable {F : Type} [LinearOrderedField F]

open Dbl

/-- The premium is computed from the fields other than `sigma2`. -/
theorem find_premium_sigma2 (m : Libm F) (c : EQ2 F) (s : F) (normal : Nat → F) :
    EQ2.find_premium m { c with sigma2 := s } normal = EQ2.find_premium m c normal := rfl

theorem grid_nonneg_zero : grid_nonneg (fun _ _ => (0 : Dbl F)) :=
  fun _ _ => ⟨0, rfl, le_refl _⟩

theorem grid_nonneg_set (u : Mat F) (hu : grid_nonneg u) (i j : Nat) (x : Dbl F)
    (hx : ∃ v, x = fin v ∧ 0 ≤ v) : grid_nonneg (u.set i j x) := by
  intro a b
  rw [mat_set_apply]
  by_cases h : a = i ∧ b = j
  · rw [if_pos h]
    exact hx
  · rw [if_neg h]
    exact hu a b

/-- The initial condition rewrites column `0` in the rows below `N`, and nothing else. -/
theorem initial_condition_apply (cm : Cmath F) (c : FX1 F) (u : Mat F) (a b : Nat) :
    FX1.initial_condition cm c u a b
      = if b = 0 ∧ a < c.N then FX1.initial_value cm c a else u a b := by
  unfold FX1.initial_condition
  refine forLoop_induction _ u
    (fun k t => ∀ a b, t a b = if b = 0 ∧ a < k then FX1.initial_value cm c a else u a b)
    (Nat.zero_le _) (fun a b => by rw [if_neg (by omega)]) ?_ a b
  intro i t _ _ ht a b
  rw [mat_set_apply]
  by_cases h : a = i ∧ b = 0
  · rw [if_pos h, if_pos ⟨h.2, by omega⟩, h.1]
  · rw [if_neg h, ht a b]
    by_cases h2 : b = 0 ∧ a < i
    · rw [if_pos h2, if_pos ⟨h2.1, by omega⟩]
    · rw [if_neg h2, if_neg (by omega)]

/-- The boundary condition leaves column `0` as it is. -/
theorem boundary_condition_col0 (c : FX1 F) (u : Mat F) (a : Nat) :
    FX1.boundary_condition c u a 0 = u a 0 := by
  unfold FX1.boundary_condition
  rcases Nat.lt_or_ge c.M 1 with hlt | hle
  · rw [forLoop_of_le (by omega)]
  · refine forLoop_induction _ u (fun _ t => ∀ a, t a 0 = u a 0) hle (fun _ => rfl) ?_ a
    intro j t hj _ ht a
    show (if c.barrier = true then (Mat.set t 0 j 0).set (c.N - 1) j 0
      else (Mat.set t 0 j 0).set (c.N - 1) j (Mat.set t 0 j 0 (c.N - 1) 0)) a 0 = u a 0
    by_cases hb : c.barrier = true
    · rw [if_pos hb, mat_set_apply, if_neg (by omega), mat_set_apply, if_neg (by omega)]
      exact ht a
    · rw [if_neg hb, mat_set_apply, if_neg (by omega), mat_set_apply, if_neg (by omega)]
      exact ht a

/-- The forward difference leaves column `0` as it is. -/
theorem forward_difference_col0 (c : FX1 F) (u : Mat F) (a : Nat) :
    FX1.forward_difference c u a 0 = u a 0 := by
  unfold FX1.forward_difference
  refine forLoop_induction _ u (fun _ t => ∀ a, t a 0 = u a 0) (Nat.zero_le _)
    (fun _ => rfl) ?_ a
  intro j t _ _ ht a
  show forLoop 1 (c.N - 1) (FX1.difference_cell c j) t a 0 = u a 0
  rcases Nat.lt_or_ge (c.N - 1) 1 with hlt | hle
  · rw [forLoop_of_le (by omega)]
    exact ht a
  · refine forLoop_induction _ t (fun _ w => ∀ a, w a 0 = u a 0) hle ht ?_ a
    intro i w _ _ hw a
    unfold FX1.difference_cell
    rw [mat_set_apply, if_neg (by omega)]
    exact hw a

/-- The entries `u[i][0]` of the result are the values of line 41. -/
theorem result_u_col0 (cm : Cmath F) (c : FX1 F) (res : result_data F)
    (h : FX1.get_data_and_premium cm c = some res) (i : Nat) (hi : i < c.N) :
    res.u i 0 = FX1.initial_value cm c i := by
  unfold FX1.get_data_and_premium FX1.evaluate_data_and_premium at h
  by_cases hb : FX1.out_of_bounds c = true
  · rw [if_pos hb] at h
    exact Option.noConfusion h
  · rw [if_neg hb] at h
    have e := Option.some.inj h
    rw [← e]
    show FX1.forward_difference c _ i 0 = _
    rw [forward_difference_col0, boundary_condition_col0, initial_condition_apply,
      if_pos ⟨rfl, hi⟩]

/-- The initial condition writes numbers that are not negative when the two exponentials of
line 41 are finite. -/
theorem initial_condition_nonneg (cm : Cmath F) (c : FX1 F)
    (hexp : ∀ i, i < c.N → ∃ e1 e2,
      Dbl.cexp cm (fin 0.5 * (FX1.k c + 1) * FX1.x c i) = fin e1 ∧
      Dbl.cexp cm (fin 0.5 * (FX1.k c - 1) * FX1.x c i) = fin e2)
    (u : Mat F) (hu : grid_nonneg u) : grid_nonneg (FX1.initial_condition cm c u) := by
  unfold FX1.initial_condition
  refine forLoop_induction _ u (fun _ t => grid_nonneg t) (Nat.zero_le _) hu ?_
  intro i t _ hi ht
  refine grid_nonneg_set t ht i 0 _ ?_
  obtain ⟨e1, e2, h1, h2⟩ := hexp i hi
  unfold FX1.initial_value
  rw [h1, h2, fin_sub_fin, stdmax_fin_zero]
  exact ⟨_, rfl, le_max_right _ _⟩

/-- The boundary condition writes `0` or a value of the grid. -/
theorem boundary_condition_nonneg (c : FX1 F) (u : Mat F) (hu : grid_nonneg u) :
    grid_nonneg (FX1.boundary_condition c u) := by
  unfold FX1.boundary_condition
  rcases Nat.lt_or_ge c.M 1 with hlt | hle
  · rw [forLoop_of_le (by omega)]
    exact hu
  · refine forLoop_induction _ u (fun _ t => grid_nonneg t) hle hu ?_
    intro j t _ _ ht
    have h2 : grid_nonneg (Mat.set t 0 j 0) :=
      grid_nonneg_set t ht 0 j 0 ⟨0, rfl, le_refl _⟩
    show grid_nonneg (if c.barrier = true then (Mat.set t 0 j 0).set (c.N - 1) j 0
      else (Mat.set t 0 j 0).set (c.N - 1) j (Mat.set t 0 j 0 (c.N - 1) 0))
    by_cases hb : c.barrier = true
    · rw [if_pos hb]
      exact grid_nonneg_set _ h2 _ _ 0 ⟨0, rfl, le_refl _⟩
    · rw [if_neg hb]
      exact grid_nonneg_set _ h2 _ _ _ (h2 (c.N - 1) 0)

/-- Under the stability condition a step of the explicit scheme is a combination of three
values of the grid with coefficients that are not negative. -/
theorem difference_cell_nonneg (c : FX1 F) (a : F) (halpha : FX1.alpha c = fin a)
    (h0 : 0 ≤ a) (h1 : a ≤ 1 / 2) (j i : Nat) (u : Mat F) (hu : grid_nonneg u) :
    grid_nonneg (FX1.difference_cell c j i u) := by
  unfold FX1.difference_cell
  refine grid_nonneg_set u hu i (j + 1) _ ?_
  obtain ⟨v1, hv1, hv10⟩ := hu (i + 1) j
  obtain ⟨v2, hv2, hv20⟩ := hu i j
  obtain ⟨v3, hv3, hv30⟩ := hu (i - 1) j
  refine ⟨a * v1 + (1 - 2 * a) * v2 + a * v3, ?_, ?_⟩
  · rw [halpha, hv1, hv2, hv3, one_def]
    simp only [fin_mul_fin, fin_add_fin, fin_sub_fin]
  · have h2 : 0 ≤ 1 - 2 * a := by linarith
    exact add_nonneg (add_nonneg (mul_nonneg h0 hv10) (mul_nonneg h2 hv20))
      (mul_nonneg h0 hv30)

theorem forward_difference_nonneg (c : FX1 F) (a : F) (halpha : FX1.alpha c = fin a)
    (h0 : 0 ≤ a) (h1 : a ≤ 1 / 2) (u : Mat F) (hu : grid_nonneg u) :
    grid_nonneg (FX1.forward_difference c u) := by
  unfold FX1.forward_difference
  refine forLoop_induction _ u (fun _ t => grid_nonneg t) (Nat.zero_le _) hu ?_
  intro j t _ _ ht
  show grid_nonneg (forLoop 1 (c.N - 1) (FX1.difference_cell c j) t)
  rcases Nat.lt_or_ge (c.N - 1) 1 with hlt | hle
  · rw [forLoop_of_le (by omega)]
    exact ht
  · exact forLoop_induction _ t (fun _ w => grid_nonneg w) hle ht
      (fun i w _ _ hw => difference_cell_nonneg c a halpha h0 h1 j i w hw)

omit [LinearOrderedField F] in
/-- With at least one row and no more rows than columns the run stays within its arrays. -/
theorem in_bounds (c : FX1 F) (hN : 1 ≤ c.N) (hNM : c.N ≤ c.M) :
    FX1.out_of_bounds c = false := by
  unfold FX1.out_of_bounds
  have h1 : ¬ c.N = 0 := by omega
  have h2 : ¬ c.M < c.N := by omega
  simp [h1, h2]

/-- A run that stays within its arrays returns the scalars of lines 16-21 and the grid the
three loops of lines 39-64 leave. -/
theorem result_of_in_bounds (cm : Cmath F) (c : FX1 F) (hb : FX1.out_of_bounds c = false) :
    ∃ res, FX1.get_data_and_premium cm c = some res ∧ res.alpha = FX1.alpha c ∧
      res.k = FX1.k c ∧
      res.u = FX1.forward_difference c
        (FX1.boundary_condition c (FX1.initial_condition cm c (fun _ _ => 0))) := by
  unfold FX1.get_data_and_premium FX1.evaluate_data_and_premium
  rw [hb]
  exact ⟨_, rfl, rfl, rfl, rfl⟩

theorem cmathQ_exp_fin (x : ℚ) (h1 : x < 710) (h2 : -746 ≤ x) :
    Dbl.cexp cmathQ (fin x) = fin (1 + x + x ^ 2 / 2) := by
  show cmathQ.exp x = _
  unfold cmathQ
  simp only
  rw [if_neg (not_le.mpr h1), if_neg (not_lt.mpr h2)]

theorem cmathQ_exp_overflow (x : ℚ) (h : 710 ≤ x) : Dbl.cexp cmathQ (fin x) = nan := by
  show cmathQ.exp x = _
  unfold cmathQ
  simp only
  rw [if_pos h]

/-- The scalar `alpha` of an object with the default steps and volatility. -/
theorem fx1_alpha (c : FX1 ℚ) (hdt : c.dt = 0.1) (hs : c.sigma = 0.3) (hdx : c.dx = 0.5) :
    FX1.alpha c = fin (9 / 500) := by
  unfold FX1.alpha FX1.dtau
  rw [hdt, hs, hdx, fin_mul_fin, fin_mul_fin, fin_mul_fin, fin_mul_fin,
    fin_div_fin_of_ne _ (by norm_num)]
  congr 1
  norm_num

/-- At an object with the default rate, volatility and mesh the arguments of the
exponentials of line 41 lie between `-2` and `2`, where `exp` is finite. -/
theorem fx1_exp_finite (c : FX1 ℚ) (hr : c.r = 0.05) (hs : c.sigma = 0.3) (hdx : c.dx = 0.5)
    (hN : c.N = 5) (i : Nat) (hi : i < c.N) :
    ∃ e1 e2,
      Dbl.cexp cmathQ (fin 0.5 * (FX1.k c + 1) * FX1.x c i) = fin e1 ∧
      Dbl.cexp cmathQ (fin 0.5 * (FX1.k c - 1) * FX1.x c i) = fin e2 := by
  have hk : FX1.k c = fin (10 / 9) := by
    unfold FX1.k
    rw [hr, hs, fin_mul_fin, fin_mul_fin, fin_div_fin_of_ne _ (by norm_num)]
    congr 1
    norm_num
  have hx : FX1.x c i = fin (-1 + (i : ℚ) * (1 / 2)) := by
    unfold FX1.x
    rw [hdx, fin_mul_fin, fin_add_fin]
    congr 1
    norm_num
  have hi5 : (i : ℚ) ≤ 4 := by
    have : i ≤ 4 := by omega
    exact_mod_cast this
  have hi0 : (0 : ℚ) ≤ (i : ℚ) := Nat.cast_nonneg i
  rw [hk, hx, one_def]
  simp only [fin_add_fin, fin_sub_fin, fin_mul_fin]
  exact ⟨_, _, cmathQ_exp_fin _ (by norm_num; linarith) (by norm_num; linarith),
    cmathQ_exp_fin _ (by norm_num; linarith) (by norm_num; linarith)⟩

end EquityForex

/-! ## Signs -/

section Signs

variable {F : Type} [LinearOrderedField F]

open Dbl

end Signs

/-! ## The range of a run on the flat curve -/

section Range

variable {F : Type} [LinearOrderedField F]

open Dbl

theorem flat_df_bounds (c : IR F) (halpha : 0 ≤ c.alpha) (k : Nat) (hk : k ≤ c.N + 1) :
    1 / (1 + c.alpha * spot_init) ^ (c.N + 1) ≤ flat_df c ^ k ∧ flat_df c ^ k ≤ 1 := by
  have hs : (0 : F) ≤ spot_init := by unfold spot_init; norm_num
  have hA : (1 : F) ≤ 1 + c.alpha * spot_init :=
    le_add_of_nonneg_right (mul_nonneg halpha hs)
  have hq0 : 0 ≤ flat_df c := by
    unfold flat_df
    exact le_of_lt (one_div_pos.mpr (lt_of_lt_of_le one_pos hA))
  have hq1 : flat_df c ≤ 1 := by
    unfold flat_df
    exact (div_le_one (lt_of_lt_of_le one_pos hA)).mpr hA
  refine ⟨?_, pow_le_one₀ hq0 hq1⟩
  unfold flat_df
  rw [one_div_pow]
  exact one_div_pow_le_one_div_pow_of_le hA hk

/-- On the flat curve the amount a period adds to the path value is at most the payoff
rolled over all the periods. -/
theorem flat_contribution_bound (c : IR F) (halpha : 0 ≤ c.alpha) (i : Nat) (h1 : 1 ≤ i)
    (hi : i ≤ c.N + 1) :
    |flat_contribution c i| ≤ |flat_payoff c| * (1 + c.alpha * spot_init) ^ (c.N + 1) := by
  have hs : (0 : F) ≤ spot_init := by unfold spot_init; norm_num
  have hA : (1 : F) ≤ 1 + c.alpha * spot_init :=
    le_add_of_nonneg_right (mul_nonneg halpha hs)
  have hApos : (0 : F) < (1 + c.alpha * spot_init) ^ (c.N + 1) :=
    pow_pos (lt_of_lt_of_le one_pos hA) _
  have hq : 0 < flat_df c := by
    unfold flat_df
    exact one_div_pos.mpr (lt_of_lt_of_le one_pos hA)
  have hb := flat_df_bounds c halpha
  have hroll : |flat_payoff c * flat_df c ^ (i - (i - 1)) / flat_df c ^ (c.N + 1 - (i - 1))|
      ≤ |flat_payoff c| * (1 + c.alpha * spot_init) ^ (c.N + 1) := by
    rw [abs_div, abs_mul, abs_of_pos (pow_pos hq _), abs_of_pos (pow_pos hq _),
      div_le_iff₀ (pow_pos hq _)]
    have h2 := (hb (c.N + 1 - (i - 1)) (by omega)).1
    have h3 := (hb (i - (i - 1)) (by omega)).2
    have h4 : 1 ≤ (1 + c.alpha * spot_init) ^ (c.N + 1) * flat_df c ^ (c.N + 1 - (i - 1)) := by
      rw [div_le_iff₀ hApos] at h2
      rw [mul_comm]
      exact h2
    calc |flat_payoff c| * flat_df c ^ (i - (i - 1))
        ≤ |flat_payoff c| * 1 := mul_le_mul_of_nonneg_left h3 (abs_nonneg _)
      _ ≤ |flat_payoff c| * ((1 + c.alpha * spot_init) ^ (c.N + 1)
            * flat_df c ^ (c.N + 1 - (i - 1))) := mul_le_mul_of_nonneg_left h4 (abs_nonneg _)
      _ = |flat_payoff c| * (1 + c.alpha * spot_init) ^ (c.N + 1)
            * flat_df c ^ (c.N + 1 - (i - 1)) := by rw [mul_assoc]
  unfold flat_contribution
  by_cases hc : c.cap = true
  · rw [if_pos hc]
    exact hroll
  · rw [if_neg hc, abs_mul, abs_of_pos (pow_pos hq _)]
    calc _ ≤ |flat_payoff c| * (1 + c.alpha * spot_init) ^ (c.N + 1) * 1 :=
          mul_le_mul hroll (hb (i - 0) (by omega)).2 (le_of_lt (pow_pos hq _))
            (mul_nonneg (abs_nonneg _) (le_of_lt hApos))
      _ = _ := mul_one _

/-- The range of a run on the flat curve with inputs of ordinary magnitude: every discount
factor lies in `[2^-200, 1]`, and a path value times the path count stays below `2^500`. -/
theorem flat_run_in_range (m : Libm F) (c : IR F) (normal : Nat → F)
    (hsigma : c.sigma = 0) (hexp : m.exp 0 = 1) (halpha : 0 ≤ c.alpha) (hdT : 0 ≤ c.dT)
    (hM : 1 ≤ c.M) (hA : (1 + c.alpha * spot_init) ^ (c.N + 1) ≤ 2 ^ 200)
    (hP : |flat_payoff c| ≤ 2 ^ 201) (hN31 : c.N < 2 ^ 31) (hM31 : c.M < 2 ^ 31) :
    (∀ n i, n < i → i ≤ c.N + 1 →
      ∃ d, (run_paths m c normal c.M).D i n = fin d ∧ 1 / 2 ^ 200 ≤ d ∧ d ≤ 1) ∧
    (∀ x ∈ (get_simulation_data m c normal).datapoints,
      ∃ v, x = fin v ∧ |v| * (c.M : F) ≤ 2 ^ 500) := by
  have hs : (0 : F) < spot_init := by unfold spot_init; norm_num
  have hne : 1 + c.alpha * spot_init ≠ 0 :=
    ne_of_gt (add_pos_of_pos_of_nonneg one_pos (mul_nonneg halpha (le_of_lt hs)))
  have hApos : (0 : F) < (1 + c.alpha * spot_init) ^ (c.N + 1) :=
    pow_pos (add_pos_of_pos_of_nonneg one_pos (mul_nonneg halpha (le_of_lt hs))) _
  refine ⟨fun n i hni hi => ?_, fun x hx => ?_⟩
  · have e : c.M = (c.M - 1) + 1 := by omega
    rw [e, run_paths_flat_D m c normal hsigma hexp hne hdT _ n i hni hi]
    have hb := flat_df_bounds c halpha (i - n) (by omega)
    refine ⟨_, rfl, le_trans ?_ hb.1, hb.2⟩
    exact one_div_le_one_div_of_le hApos hA
  · obtain ⟨p, _, hp⟩ := mem_datapoints m c normal x hx
    rw [hp, run_paths_flat_V m c normal hsigma hexp hne hdT p]
    refine ⟨_, rfl, ?_⟩
    have hsum : |∑ i in Finset.Icc 1 (c.N + 1), flat_contribution c i|
        ≤ ((c.N : F) + 1) * (2 ^ 201 * 2 ^ 200) := by
      refine le_trans (Finset.abs_sum_le_sum_abs _ _) ?_
      have hterm : ∀ i ∈ Finset.Icc 1 (c.N + 1),
          |flat_contribution c i| ≤ 2 ^ 201 * 2 ^ 200 := by
        intro i hi
        rw [Finset.mem_Icc] at hi
        exact le_trans (flat_contribution_bound c halpha i hi.1 hi.2)
          (mul_le_mul hP hA (le_of_lt hApos) (by positivity))
      have h := Finset.sum_le_card_nsmul _ _ _ hterm
      rw [Nat.card_Icc, nsmul_eq_mul] at h
      have e : ((c.N + 1 + 1 - 1 : Nat) : F) = (c.N : F) + 1 := by
        rw [Nat.add_sub_cancel]
        push_cast
        rfl
      rw [e] at h
      exact h
    have hN : (c.N : F) + 1 ≤ 2 ^ 31 := by
      have : c.N + 1 ≤ 2 ^ 31 := hN31
      exact_mod_cast this
    have hMF : (c.M : F) ≤ 2 ^ 31 := by
      have : c.M ≤ 2 ^ 31 := le_of_lt hM31
      exact_mod_cast this
    have hM0 : (0 : F) ≤ (c.M : F) := Nat.cast_nonneg _
    calc |∑ i in Finset.Icc 1 (c.N + 1), flat_contribution c i| * (c.M : F)
        ≤ ((c.N : F) + 1) * (2 ^ 201 * 2 ^ 200) * (c.M : F) :=
          mul_le_mul_of_nonneg_right hsum hM0
      _ ≤ 2 ^ 31 * (2 ^ 201 * 2 ^ 200) * 2 ^ 31 :=
          mul_le_mul (mul_le_mul_of_nonneg_right hN (by positivity)) hMF hM0 (by positivity)
      _ ≤ 2 ^ 500 := by
          rw [← pow_add, ← pow_add, ← pow_add]
          exact pow_le_pow_right₀ (by norm_num) (by norm_num)

theorem cap_payoff_bound (c : IR F) (hcap : c.cap = true) (hK : |c.K| ≤ 2 ^ 100) :
    |flat_payoff c| ≤ 2 ^ 201 := by
  unfold flat_payoff
  rw [if_pos hcap, abs_of_nonneg (le_max_right _ _)]
  refine max_le ?_ (by positivity)
  have h1 : -c.K ≤ 2 ^ 100 := le_trans (neg_le_abs _) hK
  have h2 : (spot_init : F) ≤ 1 := by unfold spot_init; norm_num
  have h3 : (1 : F) ≤ 2 ^ 100 := one_le_pow₀ (by norm_num)
  have h4 : (2 : F) ^ 100 + 2 ^ 100 ≤ 2 ^ 201 := by
    rw [← two_mul, ← pow_succ']
    exact pow_le_pow_right₀ (by norm_num) (by norm_num)
  linarith

theorem swap_payoff_bound (c : IR F) (hcap : c.cap = false) (hK : |c.K| ≤ 2 ^ 100)
    (hNA : |c.notional * c.alpha| ≤ 2 ^ 100) : |flat_payoff c| ≤ 2 ^ 201 := by
  have hc : ¬ c.cap = true := by rw [hcap]; exact Bool.false_ne_true
  unfold flat_payoff
  rw [if_neg hc, abs_mul]
  have h2 : |(spot_init : F)| ≤ 1 := by
    unfold spot_init
    rw [abs_of_nonneg (by norm_num)]
    norm_num
  have h3 : (1 : F) ≤ 2 ^ 100 := one_le_pow₀ (by norm_num)
  have h5 : |spot_init - c.K| ≤ 2 ^ 101 := by
    refine le_trans (abs_sub _ _) ?_
    have : (2 : F) ^ 101 = 2 ^ 100 + 2 ^ 100 := by rw [← two_mul, ← pow_succ']
    rw [this]
    linarith
  calc |c.notional * c.alpha| * |spot_init - c.K| ≤ 2 ^ 100 * 2 ^ 101 :=
        mul_le_mul hNA h5 (abs_nonneg _) (by positivity)
    _ = 2 ^ 201 := by rw [← pow_add]

end Range

/-! ## Rounded arithmetic -/

section Rounded

variable {F : Type} [LinearOrderedField F]

open Dbl

/-- With the identity for the rounding the rounded engine is the engine. -/
theorem rounded_engine_exact (m : Libm F) (c : IR F) (normal : Nat → F) :
    Fp.get_simulation_data (fun x => x) m c normal = get_simulation_data m c normal := rfl

end Rounded

/-! ## The state along a run in rounded arithmetic -/

section RoundedRun

variable {F : Type} [LinearOrderedField F]

open Dbl

theorem forLoopAux_const {σ : Type} (f : σ → σ) (cnt : Nat) :
    ∀ (i : Nat) (z : σ),
      forLoopAux (fun _ acc => f acc) i cnt z = forLoopAux (fun _ acc => f acc) 0 cnt z := by
  induction cnt with
  | zero => intro i z; rfl
  | succ k ih =>
    intro i z
    show forLoopAux (fun _ acc => f acc) (i + 1) k (f z)
      = forLoopAux (fun _ acc => f acc) (0 + 1) k (f z)
    rw [ih (i + 1), ih (0 + 1)]

/-- A loop whose body does not read its index depends on the number of its trips only. -/
theorem forLoop_const_body {σ : Type} (f : σ → σ) (lo hi : Nat) (z : σ) :
    forLoop lo hi (fun _ acc => f acc) z = forLoop 0 (hi - lo) (fun _ acc => f acc) z := by
  unfold forLoop
  rw [forLoopAux_const f _ lo, Nat.sub_zero]

theorem forLoop_succ_bottom {σ : Type} {lo hi : Nat} (h : lo < hi) (body : Nat → σ → σ)
    (s : σ) : forLoop lo hi body s = forLoop (lo + 1) hi body (body lo s) := by
  unfold forLoop
  have e : hi - lo = (hi - (lo + 1)) + 1 := by omega
  rw [e]
  rfl

/-- A loop whose body keeps a value `a` returns `a` when started from `a`. -/
theorem forLoop_fixed {σ : Type} (body : Nat → σ → σ) (a : σ) (h : ∀ i, body i a = a)
    (lo hi : Nat) : forLoop lo hi body a = a := by
  rcases Nat.lt_or_ge hi lo with hlt | hle
  · rw [forLoop_of_le (by omega)]
  · exact forLoop_induction body a (fun _ t => t = a) hle rfl
      (fun i t _ _ hp => by show body i t = a; rw [hp, h i])

theorem rounded_drift_sum_congr (r : Dbl F → Dbl F) (c : IR F) {X L : Mat F} (n : Nat)
    (h : ∀ k, X k n = L k n) (i : Nat) : Fp.drift_sum r c X i n = Fp.drift_sum r c L i n := by
  unfold Fp.drift_sum
  simp only [h]

theorem rounded_next_rate_congr (r : Dbl F → Dbl F) (m : Libm F) (c : IR F) (dW : Vec F)
    {X L : Mat F} (n : Nat) (h : ∀ k, X k n = L k n) (i : Nat) :
    Fp.next_rate r m c dW X i n = Fp.next_rate r m c dW L i n := by
  unfold Fp.next_rate
  rw [rounded_drift_sum_congr r c n h, h]

theorem rounded_evolve_column_apply (r : Dbl F → Dbl F) (m : Libm F) (c : IR F) (dW : Vec F)
    (n : Nat) (L : Mat F) (hi : Nat) (hle : n + 1 ≤ hi) (a b : Nat) :
    forLoop (n + 1) hi (Fp.evolve_cell r m c dW n) L a b
      = if b = n + 1 ∧ n + 1 ≤ a ∧ a < hi then Fp.next_rate r m c dW L a n else L a b := by
  revert a b
  refine forLoop_induction (Fp.evolve_cell r m c dW n) L
    (fun i t => ∀ a b, t a b
      = if b = n + 1 ∧ n + 1 ≤ a ∧ a < i then Fp.next_rate r m c dW L a n else L a b) hle ?_ ?_
  · intro a b
    have : ¬ (b = n + 1 ∧ n + 1 ≤ a ∧ a < n + 1) := by omega
    rw [if_neg this]
  · intro i t h1 _ hp a b
    have hcol : ∀ k, t k n = L k n := by
      intro k
      rw [hp k n, if_neg (by omega)]
    show (Fp.evolve_cell r m c dW n i t) a b = _
    unfold Fp.evolve_cell
    rw [mat_set_apply, rounded_next_rate_congr r m c dW n hcol, hp a b]
    by_cases hab : a = i ∧ b = n + 1
    · obtain ⟨ha, hb⟩ := hab
      subst ha hb
      rw [if_pos ⟨rfl, rfl⟩, if_pos ⟨rfl, h1, Nat.lt_succ_self _⟩]
    · rw [if_neg hab]
      by_cases hc : b = n + 1 ∧ n + 1 ≤ a ∧ a < i
      · rw [if_pos hc, if_pos ⟨hc.1, hc.2.1, by omega⟩]
      · rw [if_neg hc, if_neg (by omega)]

theorem rounded_evolve_rates_invariant (r : Dbl F → Dbl F) (m : Libm F) (c : IR F)
    (dW : Vec F) (L0 : Mat F) (n : Nat) (hn : n ≤ c.N) :
    (∀ a b, ¬ (1 ≤ b ∧ b ≤ n ∧ b ≤ a ∧ a ≤ c.N) →
      forLoop 0 n (fun n L1 => forLoop (n + 1) (c.N + 1) (Fp.evolve_cell r m c dW n) L1) L0
        a b = L0 a b) ∧
    (∀ k i, k < n → k + 1 ≤ i → i ≤ c.N →
      forLoop 0 n (fun n L1 => forLoop (n + 1) (c.N + 1) (Fp.evolve_cell r m c dW n) L1) L0
          i (k + 1)
        = Fp.next_rate r m c dW
          (forLoop 0 n
            (fun n L1 => forLoop (n + 1) (c.N + 1) (Fp.evolve_cell r m c dW n) L1) L0)
          i k) := by
  induction n with
  | zero =>
    rw [forLoop_of_le (le_refl 0)]
    exact ⟨fun _ _ _ => rfl, fun k i hk => absurd hk (Nat.not_lt_zero k)⟩
  | succ n ih =>
    obtain ⟨hframe, hrec⟩ := ih (by omega)
    rw [forLoop_succ_top (Nat.zero_le n)]
    generalize forLoop 0 n
      (fun n L1 => forLoop (n + 1) (c.N + 1) (Fp.evolve_cell r m c dW n) L1) L0 = X
      at hframe hrec
    show (∀ a b, _ → forLoop (n + 1) (c.N + 1) (Fp.evolve_cell r m c dW n) X a b = L0 a b) ∧
      (∀ k i, k < n + 1 → k + 1 ≤ i → i ≤ c.N →
        forLoop (n + 1) (c.N + 1) (Fp.evolve_cell r m c dW n) X i (k + 1)
          = Fp.next_rate r m c dW
              (forLoop (n + 1) (c.N + 1) (Fp.evolve_cell r m c dW n) X) i k)
    have hY := rounded_evolve_column_apply r m c dW n X (c.N + 1) (by omega)
    constructor
    · intro a b hab
      rw [hY a b, if_neg (by omega)]
      exact hframe a b (by omega)
    · intro k i hk hki hiN
      have hcol : ∀ j, forLoop (n + 1) (c.N + 1) (Fp.evolve_cell r m c dW n) X j k
          = X j k := by
        intro j
        rw [hY j k, if_neg (by omega)]
      rw [rounded_next_rate_congr r m c dW k hcol, hY i (k + 1)]
      by_cases hkn : k = n
      · subst hkn
        rw [if_pos ⟨rfl, hki, by omega⟩]
      · rw [if_neg (by omega)]
        exact hrec k i (by omega) hki hiN

/-- The surface after the evolution in rounded arithmetic: column `0` and the entries above
the diagonal are untouched, the others satisfy the recurrence of line 45. -/
theorem rounded_evolve_rates_spec (r : Dbl F → Dbl F) (m : Libm F) (c : IR F) (dW : Vec F)
    (L0 : Mat F) :
    (∀ a b, ¬ (1 ≤ b ∧ b ≤ a ∧ a ≤ c.N) → Fp.evolve_rates r m c dW L0 a b = L0 a b) ∧
    (∀ n i, n < c.N → n + 1 ≤ i → i ≤ c.N →
      Fp.evolve_rates r m c dW L0 i (n + 1)
        = Fp.next_rate r m c dW (Fp.evolve_rates r m c dW L0) i n) := by
  obtain ⟨h1, h2⟩ := rounded_evolve_rates_invariant r m c dW L0 c.N (le_refl _)
  exact ⟨fun a b hab => h1 a b (by omega), h2⟩

theorem rounded_init_state_L (r : Dbl F → Dbl F) (c : IR F) (a b : Nat) :
    (Fp.init_state r c).L a b = if b = 0 ∧ a ≤ c.N then r (fin spot_init) else 0 := by
  have h : ∀ a b, forLoop 0 (c.N + 1)
      (fun i (L : Mat F) => Mat.set L i 0 (r (fin spot_init)))
      (fun _ _ => 0) a b = if b = 0 ∧ a < c.N + 1 then r (fin spot_init) else 0 := by
    refine forLoop_induction (fun i (L : Mat F) => Mat.set L i 0 (r (fin spot_init)))
      (fun _ _ => 0)
      (fun i t => ∀ a b, t a b = if b = 0 ∧ a < i then r (fin spot_init) else 0)
      (Nat.zero_le _) ?_ ?_
    · intro a b
      rw [if_neg (by omega)]
    · intro i t _ _ hp a b
      show Mat.set t i 0 (r (fin spot_init)) a b = _
      rw [mat_set_apply, hp a b]
      by_cases hab : a = i ∧ b = 0
      · rw [if_pos hab, if_pos ⟨hab.2, by omega⟩]
      · rw [if_neg hab]
        by_cases hc : b = 0 ∧ a < i
        · rw [if_pos hc, if_pos ⟨hc.1, by omega⟩]
        · rw [if_neg hc, if_neg (by omega)]
  show forLoop 0 (c.N + 1) (fun i (L : Mat F) => Mat.set L i 0 (r (fin spot_init)))
    (fun _ _ => 0) a b = _
  rw [h a b]
  by_cases hc : b = 0 ∧ a ≤ c.N
  · rw [if_pos hc, if_pos ⟨hc.1, by omega⟩]
  · rw [if_neg hc, if_neg (by omega)]

theorem rounded_discount_column_apply (r : Dbl F → Dbl F) (c : IR F) (L : Mat F) (n : Nat)
    (D : Mat F) (hi : Nat) (hle : n + 1 ≤ hi) (a b : Nat) :
    forLoop (n + 1) hi (fun i (D2 : Mat F) => D2.set i n (Fp.df_prod r c L n i)) D a b
      = if b = n ∧ n + 1 ≤ a ∧ a < hi then Fp.df_prod r c L n a else D a b := by
  revert a b
  refine forLoop_induction (fun i (D2 : Mat F) => D2.set i n (Fp.df_prod r c L n i)) D
    (fun i t => ∀ a b, t a b
      = if b = n ∧ n + 1 ≤ a ∧ a < i then Fp.df_prod r c L n a else D a b) hle ?_ ?_
  · intro a b
    rw [if_neg (by omega)]
  · intro i t h1 _ hp a b
    show Mat.set t i n (Fp.df_prod r c L n i) a b = _
    rw [mat_set_apply, hp a b]
    by_cases hab : a = i ∧ b = n
    · obtain ⟨ha, hb⟩ := hab
      subst ha hb
      rw [if_pos ⟨rfl, rfl⟩, if_pos ⟨rfl, h1, Nat.lt_succ_self _⟩]
    · rw [if_neg hab]
      by_cases hc : b = n ∧ n + 1 ≤ a ∧ a < i
      · rw [if_pos hc, if_pos ⟨hc.1, hc.2.1, by omega⟩]
      · rw [if_neg hc, if_neg (by omega)]

/-- The discount surface after the loop nest of lines 49-61 in rounded arithmetic. -/
theorem rounded_build_discounts_apply (r : Dbl F → Dbl F) (c : IR F) (L : Mat F) (D : Mat F)
    (a b : Nat) :
    Fp.build_discounts r c L D a b
      = if b + 1 ≤ a ∧ a ≤ c.N + 1 then Fp.df_prod r c L b a else D a b := by
  have h : ∀ hn, hn ≤ c.N + 1 → ∀ a b,
      forLoop 0 hn (fun n (D1 : Mat F) =>
        forLoop (n + 1) (c.N + 2)
          (fun i (D2 : Mat F) => D2.set i n (Fp.df_prod r c L n i)) D1) D a b
      = if b < hn ∧ b + 1 ≤ a ∧ a ≤ c.N + 1 then Fp.df_prod r c L b a else D a b := by
    intro hn
    induction hn with
    | zero =>
      intro _ a b
      rw [forLoop_of_le (le_refl 0), if_neg (by omega)]
    | succ n ih =>
      intro hle a b
      rw [forLoop_succ_top (Nat.zero_le n)]
      show forLoop (n + 1) (c.N + 2)
        (fun i (D2 : Mat F) => D2.set i n (Fp.df_prod r c L n i)) _ a b = _
      rw [rounded_discount_column_apply r c L n _ (c.N + 2) (by omega) a b, ih (by omega) a b]
      by_cases hab : b = n ∧ n + 1 ≤ a ∧ a < c.N + 2
      · obtain ⟨hb, h1, h2⟩ := hab
        subst hb
        rw [if_pos ⟨rfl, h1, h2⟩, if_pos ⟨Nat.lt_succ_self _, h1, by omega⟩]
      · rw [if_neg hab]
        by_cases hc : b < n ∧ b + 1 ≤ a ∧ a ≤ c.N + 1
        · rw [if_pos hc, if_pos ⟨by omega, hc.2.1, hc.2.2⟩]
        · rw [if_neg hc, if_neg (by omega)]
  unfold Fp.build_discounts
  rw [h (c.N + 1) (le_refl _) a b]
  by_cases hc : b + 1 ≤ a ∧ a ≤ c.N + 1
  · rw [if_pos hc, if_pos ⟨by omega, hc.1, hc.2⟩]
  · rw [if_neg hc, if_neg (by omega)]

theorem rounded_payoff_loop_frame (r : Dbl F → Dbl F) (c : IR F) (nsim : Nat)
    (s : SimState F) (hi : Nat) :
    (forLoop 1 hi (Fp.payoff_step r c nsim) s).L = s.L ∧
    (forLoop 1 hi (Fp.payoff_step r c nsim) s).D = s.D ∧
    (forLoop 1 hi (Fp.payoff_step r c nsim) s).dW = s.dW ∧
    (forLoop 1 hi (Fp.payoff_step r c nsim) s).calls = s.calls := by
  rcases Nat.lt_or_ge hi 1 with hlt | hle
  · rw [forLoop_of_le (by omega)]
    exact ⟨rfl, rfl, rfl, rfl⟩
  · refine forLoop_induction (Fp.payoff_step r c nsim) s
      (fun _ t => t.L = s.L ∧ t.D = s.D ∧ t.dW = s.dW ∧ t.calls = s.calls) hle
      ⟨rfl, rfl, rfl, rfl⟩ ?_
    intro i t _ _ hp
    exact hp

theorem rounded_draw_increments_spec (r : Dbl F → Dbl F) (m : Libm F) (c : IR F)
    (normal : Nat → F) (s : SimState F) :
    (Fp.draw_increments r m c normal s).L = s.L ∧
    (Fp.draw_increments r m c normal s).D = s.D ∧
    (Fp.draw_increments r m c normal s).V = s.V ∧
    (Fp.draw_increments r m c normal s).calls = s.calls + c.N ∧
    ∀ j, (Fp.draw_increments r m c normal s).dW j
      = if 1 ≤ j ∧ j ≤ c.N
        then r (r (Dbl.sqrt m (fin c.dT)) * fin (normal (s.calls + (j - 1))))
        else s.dW j := by
  have h := forLoop_induction
    (fun j (s1 : SimState F) => { s1 with
      dW := s1.dW.set j (r (r (Dbl.sqrt m (fin c.dT)) * fin (normal s1.calls)))
      calls := s1.calls + 1 }) s
    (fun i t => t.L = s.L ∧ t.D = s.D ∧ t.V = s.V ∧ t.calls = s.calls + (i - 1) ∧
      ∀ j, t.dW j
        = if 1 ≤ j ∧ j < i
          then r (r (Dbl.sqrt m (fin c.dT)) * fin (normal (s.calls + (j - 1))))
          else s.dW j)
    (show 1 ≤ c.N + 1 by omega)
    ⟨rfl, rfl, rfl, rfl, fun j => by rw [if_neg (by omega)]⟩
    (by
      intro i t h1 _ hp
      obtain ⟨hL, hD, hV, hcalls, hdW⟩ := hp
      refine ⟨hL, hD, hV, ?_, fun j => ?_⟩
      · show t.calls + 1 = s.calls + (i + 1 - 1)
        omega
      · show Vec.set t.dW i (r (r (Dbl.sqrt m (fin c.dT)) * fin (normal t.calls))) j = _
        rw [vec_set_apply, hdW j, hcalls]
        by_cases hji : j = i
        · subst hji
          rw [if_pos rfl, if_pos ⟨h1, Nat.lt_succ_self _⟩]
        · rw [if_neg hji]
          by_cases hc : 1 ≤ j ∧ j < i
          · rw [if_pos hc, if_pos ⟨hc.1, by omega⟩]
          · rw [if_neg hc, if_neg (by omega)])
  obtain ⟨hL, hD, hV, hcalls, hdW⟩ := h
  refine ⟨hL, hD, hV, hcalls, fun j => ?_⟩
  show (forLoop 1 (c.N + 1) _ s).dW j = _
  rw [hdW j]
  by_cases hc : 1 ≤ j ∧ j ≤ c.N
  · rw [if_pos hc, if_pos ⟨hc.1, by omega⟩]
  · rw [if_neg hc, if_neg (by omega)]

/-- The payoff loop (lines 66-92) in rounded arithmetic: what it leaves in `V` and `FV`. -/
theorem rounded_payoff_loop_spec (r : Dbl F → Dbl F) (c : IR F) (nsim : Nat)
    (s : SimState F) (hi : Nat) (hle : 1 ≤ hi) :
    (forLoop 1 hi (Fp.payoff_step r c nsim) s).V nsim
      = forLoop 1 hi (fun i acc => r (acc + Fp.contribution r c s.L s.D i)) (s.V nsim) ∧
    (∀ j, j ≠ nsim → (forLoop 1 hi (Fp.payoff_step r c nsim) s).V j = s.V j) ∧
    (∀ k, (forLoop 1 hi (Fp.payoff_step r c nsim) s).FV k
      = if 1 ≤ k ∧ k < hi then Fp.payoff r c s.L k else s.FV k) := by
  refine forLoop_induction (Fp.payoff_step r c nsim) s
    (fun i t => t.L = s.L ∧ t.D = s.D ∧
      t.V nsim
        = forLoop 1 i (fun i acc => r (acc + Fp.contribution r c s.L s.D i)) (s.V nsim) ∧
      (∀ j, j ≠ nsim → t.V j = s.V j) ∧
      (∀ k, t.FV k = if 1 ≤ k ∧ k < i then Fp.payoff r c s.L k else s.FV k))
    hle ?_ ?_ |>.2.2
  · refine ⟨rfl, rfl, ?_, fun _ _ => rfl, fun k => ?_⟩
    · rw [forLoop_of_le (le_refl 1)]
    · rw [if_neg (by omega)]
  · intro i t h1 _ hp
    obtain ⟨hL, hD, hV, hVo, hFV⟩ := hp
    have hfv : Vec.set t.FV i (Fp.payoff r c t.L i) i = Fp.payoff r c s.L i := by
      rw [vec_set_apply, if_pos rfl, hL]
    refine ⟨hL, hD, ?_, fun j hj => ?_, fun k => ?_⟩
    · show Vec.set t.V nsim
        (if c.cap = true then r (t.V nsim + Vec.set t.FVprime i
            (r (r (Vec.set t.FV i (Fp.payoff r c t.L i) i * t.D i (i - 1))
              / t.D (c.N + 1) (i - 1))) i)
          else r (t.V nsim + r (Vec.set t.FVprime i
            (r (r (Vec.set t.FV i (Fp.payoff r c t.L i) i * t.D i (i - 1))
              / t.D (c.N + 1) (i - 1))) i * t.D i 0))) nsim = _
      rw [vec_set_apply, if_pos rfl, vec_set_apply, if_pos rfl, hfv, hV, hD,
        forLoop_succ_top h1]
      unfold Fp.contribution
      by_cases hc : c.cap = true
      · rw [if_pos hc, if_pos hc]
      · rw [if_neg hc, if_neg hc]
    · show Vec.set t.V nsim _ j = _
      rw [vec_set_apply, if_neg hj]
      exact hVo j hj
    · show Vec.set t.FV i (Fp.payoff r c t.L i) k = _
      by_cases hki : k = i
      · subst hki
        rw [hfv, if_pos ⟨h1, Nat.lt_succ_self _⟩]
      · rw [vec_set_apply, if_neg hki, hFV k]
        by_cases hc : 1 ≤ k ∧ k < i
        · rw [if_pos hc, if_pos ⟨hc.1, by omega⟩]
        · rw [if_neg hc, if_neg (by omega)]

theorem rounded_simulate_path_dW (r : Dbl F → Dbl F) (m : Libm F) (c : IR F)
    (normal : Nat → F) (nsim : Nat) (s : SimState F) :
    (Fp.simulate_path r m c normal nsim s).dW = (Fp.draw_increments r m c normal s).dW := by
  unfold Fp.simulate_path
  exact (rounded_payoff_loop_frame r c nsim _ _).2.2.1

theorem rounded_simulate_path_L (r : Dbl F → Dbl F) (m : Libm F) (c : IR F)
    (normal : Nat → F) (nsim : Nat) (s : SimState F) :
    (Fp.simulate_path r m c normal nsim s).L
      = Fp.evolve_rates r m c (Fp.simulate_path r m c normal nsim s).dW s.L := by
  rw [rounded_simulate_path_dW]
  unfold Fp.simulate_path
  rw [(rounded_payoff_loop_frame r c nsim _ _).1]
  show Fp.evolve_rates r m c _ (Fp.draw_increments r m c normal s).L = _
  rw [(rounded_draw_increments_spec r m c normal s).1]

theorem rounded_simulate_path_D (r : Dbl F → Dbl F) (m : Libm F) (c : IR F)
    (normal : Nat → F) (nsim : Nat) (s : SimState F) :
    (Fp.simulate_path r m c normal nsim s).D
      = Fp.build_discounts r c (Fp.simulate_path r m c normal nsim s).L s.D := by
  rw [rounded_simulate_path_L, rounded_simulate_path_dW]
  unfold Fp.simulate_path
  rw [(rounded_payoff_loop_frame r c nsim _ _).2.1]
  show Fp.build_discounts r c
    (Fp.evolve_rates r m c _ (Fp.draw_increments r m c normal s).L)
    (Fp.draw_increments r m c normal s).D = _
  rw [(rounded_draw_increments_spec r m c normal s).1,
    (rounded_draw_increments_spec r m c normal s).2.1]

/-- The value of path `nsim`, the payoffs and the untouched values after one iteration of
the loop over the paths, in rounded arithmetic. -/
theorem rounded_simulate_path_V (r : Dbl F → Dbl F) (m : Libm F) (c : IR F)
    (normal : Nat → F) (nsim : Nat) (s : SimState F) :
    (Fp.simulate_path r m c normal nsim s).V nsim
      = forLoop 1 (c.N + 2)
          (fun i acc => r (acc + Fp.contribution r c (Fp.simulate_path r m c normal nsim s).L
            (Fp.simulate_path r m c normal nsim s).D i)) 0 ∧
    (∀ j, j ≠ nsim → (Fp.simulate_path r m c normal nsim s).V j = s.V j) ∧
    (∀ k, 1 ≤ k → k ≤ c.N + 1 →
      (Fp.simulate_path r m c normal nsim s).FV k
        = Fp.payoff r c (Fp.simulate_path r m c normal nsim s).L k) := by
  have hfr := rounded_payoff_loop_frame r c nsim
    { Fp.draw_increments r m c normal s with
      L := Fp.evolve_rates r m c (Fp.draw_increments r m c normal s).dW
        (Fp.draw_increments r m c normal s).L
      D := Fp.build_discounts r c
        (Fp.evolve_rates r m c (Fp.draw_increments r m c normal s).dW
          (Fp.draw_increments r m c normal s).L)
        (Fp.draw_increments r m c normal s).D
      V := Vec.set (Fp.draw_increments r m c normal s).V nsim 0 } (c.N + 2)
  have hsp := rounded_payoff_loop_spec r c nsim
    { Fp.draw_increments r m c normal s with
      L := Fp.evolve_rates r m c (Fp.draw_increments r m c normal s).dW
        (Fp.draw_increments r m c normal s).L
      D := Fp.build_discounts r c
        (Fp.evolve_rates r m c (Fp.draw_increments r m c normal s).dW
          (Fp.draw_increments r m c normal s).L)
        (Fp.draw_increments r m c normal s).D
      V := Vec.set (Fp.draw_increments r m c normal s).V nsim 0 } (c.N + 2) (by omega)
  obtain ⟨hL, hD, _, _⟩ := hfr
  obtain ⟨hV, hVo, hFV⟩ := hsp
  refine ⟨?_, fun j hj => ?_, fun k hk1 hk2 => ?_⟩
  · show (forLoop 1 (c.N + 2) (Fp.payoff_step r c nsim) _).V nsim
      = forLoop 1 (c.N + 2)
          (fun i acc => r (acc + Fp.contribution r c
            (forLoop 1 (c.N + 2) (Fp.payoff_step r c nsim) _).L
            (forLoop 1 (c.N + 2) (Fp.payoff_step r c nsim) _).D i)) 0
    rw [hV, hL, hD]
    show forLoop 1 (c.N + 2) _ (Vec.set (Fp.draw_increments r m c normal s).V nsim 0 nsim) = _
    rw [vec_set_apply, if_pos rfl]
  · show (forLoop 1 (c.N + 2) (Fp.payoff_step r c nsim) _).V j = _
    rw [hVo j hj]
    show Vec.set (Fp.draw_increments r m c normal s).V nsim 0 j = _
    rw [vec_set_apply, if_neg hj, (rounded_draw_increments_spec r m c normal s).2.2.1]
  · show (forLoop 1 (c.N + 2) (Fp.payoff_step r c nsim) _).FV k
      = Fp.payoff r c (forLoop 1 (c.N + 2) (Fp.payoff_step r c nsim) _).L k
    rw [hFV k, if_pos ⟨hk1, by omega⟩, hL]

theorem rounded_run_paths_zero (r : Dbl F → Dbl F) (m : Libm F) (c : IR F)
    (normal : Nat → F) : Fp.run_paths r m c normal 0 = Fp.init_state r c :=
  forLoop_of_le (le_refl 0) _ _

theorem rounded_run_paths_succ (r : Dbl F → Dbl F) (m : Libm F) (c : IR F)
    (normal : Nat → F) (p : Nat) :
    Fp.run_paths r m c normal (p + 1)
      = Fp.simulate_path r m c normal p (Fp.run_paths r m c normal p) :=
  forLoop_succ_top (Nat.zero_le p) _ _

/-- Column `0` of the surface holds the double `0.05` before and after every path. -/
theorem rounded_run_paths_flat (r : Dbl F → Dbl F) (m : Libm F) (c : IR F)
    (normal : Nat → F) (p : Nat) :
    ∀ i, i ≤ c.N → (Fp.run_paths r m c normal p).L i 0 = r (fin spot_init) := by
  induction p with
  | zero =>
    intro i hi
    rw [rounded_run_paths_zero, rounded_init_state_L, if_pos ⟨rfl, hi⟩]
  | succ p ih =>
    intro i hi
    rw [rounded_run_paths_succ, rounded_simulate_path_L,
      (rounded_evolve_rates_spec r m c _ _).1 i 0 (by omega)]
    exact ih i hi

/-- A path value is not touched by the later paths. -/
theorem rounded_run_paths_V_stable (r : Dbl F → Dbl F) (m : Libm F) (c : IR F)
    (normal : Nat → F) (p d : Nat) :
    (Fp.run_paths r m c normal (p + 1 + d)).V p = (Fp.run_paths r m c normal (p + 1)).V p := by
  induction d with
  | zero => rfl
  | succ d ih =>
    have e : p + 1 + (d + 1) = (p + 1 + d) + 1 := by omega
    rw [e, rounded_run_paths_succ, (rounded_simulate_path_V r m c normal _ _).2.1 p (by omega)]
    exact ih

end RoundedRun

/-! ## Zero volatility in rounded arithmetic -/

section RoundedFlat

variable {F : Type} [LinearOrderedField F]

open Dbl

omit [LinearOrderedField F] in
theorem fin_of_round (r : Dbl F → Dbl F) (hrn : r nan = nan) (z : Dbl F) (a : F)
    (h : r z = fin a) : ∃ b, z = fin b := by
  cases z with
  | fin b => exact ⟨b, rfl⟩
  | nan => rw [hrn] at h; exact Dbl.noConfusion h

theorem fin_of_add (x y : Dbl F) (a : F) (h : x + y = fin a) :
    (∃ b, x = fin b) ∧ ∃ b, y = fin b := by
  cases x with
  | nan => rw [nan_add] at h; exact Dbl.noConfusion h
  | fin b =>
    cases y with
    | nan => rw [add_nan] at h; exact Dbl.noConfusion h
    | fin d => exact ⟨⟨b, rfl⟩, ⟨d, rfl⟩⟩

theorem fin_of_mul (x y : Dbl F) (a : F) (h : x * y = fin a) :
    (∃ b, x = fin b) ∧ ∃ b, y = fin b := by
  cases x with
  | nan => rw [nan_mul] at h; exact Dbl.noConfusion h
  | fin b =>
    cases y with
    | nan => rw [mul_nan] at h; exact Dbl.noConfusion h
    | fin d => exact ⟨⟨b, rfl⟩, ⟨d, rfl⟩⟩

theorem fin_of_div (x y : Dbl F) (a : F) (h : x / y = fin a) :
    (∃ b, x = fin b) ∧ ∃ b, b ≠ 0 ∧ y = fin b := by
  cases x with
  | nan => rw [nan_div] at h; exact Dbl.noConfusion h
  | fin b =>
    cases y with
    | nan => rw [div_nan] at h; exact Dbl.noConfusion h
    | fin d =>
      refine ⟨⟨b, rfl⟩, ⟨d, ?_, rfl⟩⟩
      intro hd
      rw [hd, fin_div_zero] at h
      exact Dbl.noConfusion h

theorem flat_discount_zero (r : Dbl F → Dbl F) (c : IR F) : Fp.flat_discount r c 0 = 1 :=
  forLoop_of_le (le_refl 0) _ _

theorem flat_discount_succ (r : Dbl F → Dbl F) (c : IR F) (j : Nat) :
    Fp.flat_discount r c (j + 1) = r (Fp.flat_discount r c j * Fp.flat_factor r c) :=
  forLoop_succ_top (Nat.zero_le j) _ _

/-- A product of `J` factors that is a number other than `0`: so is every shorter product,
an underflow to `0` or a value that is not finite would have propagated. -/
theorem flat_discount_defined (r : Dbl F → Dbl F) (c : IR F) (hrn : r nan = nan)
    (hr0 : r (fin 0) = fin 0) (J : Nat) (d : F) (hd : d ≠ 0)
    (h : Fp.flat_discount r c J = fin d) :
    ∀ j, j ≤ J → ∃ e, e ≠ 0 ∧ Fp.flat_discount r c j = fin e := by
  have hk : ∀ k, k ≤ J → ∃ e, e ≠ 0 ∧ Fp.flat_discount r c (J - k) = fin e := by
    intro k
    induction k with
    | zero => intro _; exact ⟨d, hd, h⟩
    | succ k ih =>
      intro hkJ
      obtain ⟨e, he, hfe⟩ := ih (by omega)
      have e1 : J - k = (J - (k + 1)) + 1 := by omega
      rw [e1, flat_discount_succ] at hfe
      obtain ⟨b, hb⟩ := fin_of_round r hrn _ _ hfe
      obtain ⟨⟨x, hx⟩, ⟨q, hq⟩⟩ := fin_of_mul _ _ _ hb
      refine ⟨x, ?_, hx⟩
      intro hx0
      rw [hx, hq, hx0, fin_mul_fin, zero_mul, hr0] at hfe
      exact he (Dbl.fin.inj hfe).symm
  intro j hj
  have e : j = J - (J - j) := by omega
  rw [e]
  exact hk (J - j) (by omega)

/-- A product of at least one factor that is a number: the double `0.05` is a number and
the denominator `1 + alpha * 0.05` of line 56 is a number other than `0`. -/
theorem flat_factor_defined (r : Dbl F → Dbl F) (c : IR F) (hrn : r nan = nan) (J : Nat)
    (d : F) (h : Fp.flat_discount r c (J + 1) = fin d) :
    ∃ s x, r (fin spot_init) = fin s ∧ x ≠ 0 ∧ r (1 + r (fin c.alpha * fin s)) = fin x := by
  rw [flat_discount_succ] at h
  obtain ⟨b, hb⟩ := fin_of_round r hrn _ _ h
  obtain ⟨_, ⟨q, hq⟩⟩ := fin_of_mul _ _ _ hb
  unfold Fp.flat_factor at hq
  obtain ⟨b1, hb1⟩ := fin_of_round r hrn _ _ hq
  obtain ⟨_, ⟨x, hx0, hx⟩⟩ := fin_of_div _ _ _ hb1
  obtain ⟨b2, hb2⟩ := fin_of_round r hrn _ _ hx
  obtain ⟨_, ⟨y, hy⟩⟩ := fin_of_add _ _ _ hb2
  obtain ⟨b3, hb3⟩ := fin_of_round r hrn _ _ hy
  obtain ⟨_, ⟨s, hs⟩⟩ := fin_of_mul _ _ _ hb3
  refine ⟨s, x, hs, hx0, ?_⟩
  rw [← hs]
  exact hx

/-- With zero volatility every term of the drift of lines 41-43 is `0`. -/
theorem rounded_drift_sum_flat (r : Dbl F → Dbl F) (c : IR F) (L : Mat F) (i n : Nat)
    (hr0 : r (fin 0) = fin 0) (hsigma : c.sigma = 0) (s : F)
    (hX : c.N ≤ i ∨ ∃ x, x ≠ 0 ∧ r (1 + r (fin c.alpha * fin s)) = fin x)
    (hL : ∀ k, i + 1 ≤ k → k ≤ c.N → L k n = fin s) :
    Fp.drift_sum r c L i n = 0 := by
  unfold Fp.drift_sum
  rcases Nat.lt_or_ge i c.N with hlt | hge
  · rcases hX with h | ⟨x, hx0, hx⟩
    · omega
    · refine forLoop_induction _ (0 : Dbl F) (fun _ t => t = 0) (by omega) rfl ?_
      intro k t hk1 hk2 hp
      show r (t + r (r (r (fin c.alpha * fin c.sigma) * L k n)
        / r (1 + r (fin c.alpha * L k n)))) = 0
      rw [hp, hL k hk1 (by omega), hx, hsigma, fin_mul_fin, mul_zero, hr0, fin_mul_fin,
        zero_mul, hr0, fin_div_fin_of_ne _ hx0, zero_div, hr0, zero_def, fin_add_fin,
        add_zero, hr0]
  · exact forLoop_of_le (by omega) _ _

/-- With zero volatility, a drift `0` and a finite increment the step of line 45 copies the
rate. -/
theorem rounded_next_rate_flat (r : Dbl F → Dbl F) (m : Libm F) (c : IR F) (dW : Vec F)
    (L : Mat F) (i n : Nat) (hr0 : r (fin 0) = fin 0) (hr1 : r (fin 1) = fin 1)
    (hsigma : c.sigma = 0) (hexp : m.exp 0 = 1) (s : F) (hs : r (fin s) = fin s)
    (hL : L i n = fin s) (hds : Fp.drift_sum r c L i n = 0) (w : F)
    (hw : dW (n + 1) = fin w) :
    Fp.next_rate r m c dW L i n = fin s := by
  unfold Fp.next_rate
  rw [hds, hL, hw, hsigma, zero_def]
  simp only [neg_fin, fin_mul_fin, fin_sub_fin, fin_add_fin, neg_zero, mul_zero, zero_mul,
    sub_zero, add_zero, hr0, exp_fin, hexp, hr1, mul_one, hs]

/-- With zero volatility the surface stays flat in rounded arithmetic, provided no drift
term divides by zero and the increments are finite. -/
theorem rounded_evolve_rates_flat (r : Dbl F → Dbl F) (m : Libm F) (c : IR F) (dW : Vec F)
    (L0 : Mat F) (hr0 : r (fin 0) = fin 0) (hr1 : r (fin 1) = fin 1)
    (hsigma : c.sigma = 0) (hexp : m.exp 0 = 1) (s : F) (hs : r (fin s) = fin s)
    (hX : c.N ≤ 1 ∨ ∃ x, x ≠ 0 ∧ r (1 + r (fin c.alpha * fin s)) = fin x)
    (hdW : ∀ j, 1 ≤ j → j ≤ c.N → ∃ w, dW j = fin w)
    (hflat : ∀ i, i ≤ c.N → L0 i 0 = fin s) :
    ∀ n i, n ≤ i → i ≤ c.N → Fp.evolve_rates r m c dW L0 i n = fin s := by
  obtain ⟨hframe, hrec⟩ := rounded_evolve_rates_spec r m c dW L0
  intro n
  induction n with
  | zero =>
    intro i _ hi
    rw [hframe i 0 (by omega)]
    exact hflat i hi
  | succ n ih =>
    intro i hni hi
    rw [hrec n i (by omega) hni hi]
    obtain ⟨w, hw⟩ := hdW (n + 1) (by omega) (by omega)
    refine rounded_next_rate_flat r m c dW _ i n hr0 hr1 hsigma hexp s hs
      (ih i (by omega) hi) ?_ w hw
    refine rounded_drift_sum_flat r c _ i n hr0 hsigma s ?_
      (fun k hk1 hk2 => ih k (by omega) hk2)
    rcases hX with h | h
    · exact Or.inl (by omega)
    · exact Or.inr h

/-- On a column that holds the double `0.05` the product of lines 53-57 is the product of
the factors of the flat surface. -/
theorem rounded_df_prod_flat (r : Dbl F → Dbl F) (c : IR F) (L : Mat F) (n i : Nat)
    (hL : ∀ k, n ≤ k → k < i → L k n = r (fin spot_init)) :
    Fp.df_prod r c L n i = Fp.flat_discount r c (i - n) := by
  unfold Fp.df_prod Fp.flat_discount
  rw [forLoop_congr _ (fun _ acc => r (acc * Fp.flat_factor r c)) 1
    (fun k t hk1 hk2 => by
      show r (t * r (1 / r (1 + r (fin c.alpha * L k n)))) = r (t * Fp.flat_factor r c)
      rw [hL k hk1 hk2]
      rfl),
    forLoop_const_body (fun acc => r (acc * Fp.flat_factor r c))]

/-- The terminal discount factor `D[N+1][0]` a path leaves is the product of `N + 1`
factors of the flat surface: column `0` of the surface is never rewritten. -/
theorem rounded_run_terminal_discount (r : Dbl F → Dbl F) (m : Libm F) (c : IR F)
    (normal : Nat → F) (p i : Nat) (h1 : 1 ≤ i) (hi : i ≤ c.N + 1) :
    (Fp.run_paths r m c normal (p + 1)).D i 0 = Fp.flat_discount r c i := by
  rw [rounded_run_paths_succ, rounded_simulate_path_D, rounded_build_discounts_apply,
    if_pos ⟨by omega, hi⟩, ← rounded_run_paths_succ]
  exact rounded_df_prod_flat r c _ 0 i
    (fun k _ hk => rounded_run_paths_flat r m c normal (p + 1) k (by omega))

theorem rounded_contribution_congr (r : Dbl F → Dbl F) (c : IR F) (L L1 D D1 : Mat F)
    (i : Nat) (hL : L (i - 1) (i - 1) = L1 (i - 1) (i - 1))
    (h1 : D i (i - 1) = D1 i (i - 1)) (h2 : D (c.N + 1) (i - 1) = D1 (c.N + 1) (i - 1))
    (h3 : D i 0 = D1 i 0) :
    Fp.contribution r c L D i = Fp.contribution r c L1 D1 i := by
  unfold Fp.contribution Fp.payoff
  rw [hL, h1, h2, h3]

/-- The increments of a path are finite when those of the stream of draws are. -/
theorem rounded_path_dW_fin (r : Dbl F → Dbl F) (m : Libm F) (c : IR F) (normal : Nat → F)
    (hW : ∀ k, ∃ w, r (r (Dbl.sqrt m (fin c.dT)) * fin (normal k)) = fin w)
    (nsim : Nat) (s : SimState F) (j : Nat) (h1 : 1 ≤ j) (h2 : j ≤ c.N) :
    ∃ w, (Fp.simulate_path r m c normal nsim s).dW j = fin w := by
  rw [rounded_simulate_path_dW, (rounded_draw_increments_spec r m c normal s).2.2.2.2 j,
    if_pos ⟨h1, h2⟩]
  exact hW _

/-- Zero volatility in rounded arithmetic: the surface every path leaves is flat. -/
theorem rounded_run_flat_L (r : Dbl F → Dbl F) (m : Libm F) (c : IR F) (normal : Nat → F)
    (hr0 : r (fin 0) = fin 0) (hr1 : r (fin 1) = fin 1)
    (hsigma : c.sigma = 0) (hexp : m.exp 0 = 1) (s : F) (hs0 : r (fin spot_init) = fin s)
    (hs : r (fin s) = fin s)
    (hX : c.N ≤ 1 ∨ ∃ x, x ≠ 0 ∧ r (1 + r (fin c.alpha * fin s)) = fin x)
    (hW : ∀ k, ∃ w, r (r (Dbl.sqrt m (fin c.dT)) * fin (normal k)) = fin w)
    (p n i : Nat) (hni : n ≤ i) (hi : i ≤ c.N) :
    (Fp.run_paths r m c normal (p + 1)).L i n = fin s := by
  rw [rounded_run_paths_succ, rounded_simulate_path_L]
  exact rounded_evolve_rates_flat r m c _ _ hr0 hr1 hsigma hexp s hs hX
    (rounded_path_dW_fin r m c normal hW p _)
    (fun i hi => by rw [rounded_run_paths_flat r m c normal p i hi, hs0]) n i hni hi

/-- Zero volatility in rounded arithmetic: the discount factors every path leaves. -/
theorem rounded_run_flat_D (r : Dbl F → Dbl F) (m : Libm F) (c : IR F) (normal : Nat → F)
    (hr0 : r (fin 0) = fin 0) (hr1 : r (fin 1) = fin 1)
    (hsigma : c.sigma = 0) (hexp : m.exp 0 = 1) (s : F) (hs0 : r (fin spot_init) = fin s)
    (hs : r (fin s) = fin s)
    (hX : c.N ≤ 1 ∨ ∃ x, x ≠ 0 ∧ r (1 + r (fin c.alpha * fin s)) = fin x)
    (hW : ∀ k, ∃ w, r (r (Dbl.sqrt m (fin c.dT)) * fin (normal k)) = fin w)
    (p n i : Nat) (hni : n < i) (hi : i ≤ c.N + 1) :
    (Fp.run_paths r m c normal (p + 1)).D i n = Fp.flat_discount r c (i - n) := by
  rw [rounded_run_paths_succ, rounded_simulate_path_D, rounded_build_discounts_apply,
    if_pos ⟨hni, hi⟩, ← rounded_run_paths_succ]
  refine rounded_df_prod_flat r c _ n i (fun k hk1 hk2 => ?_)
  rw [rounded_run_flat_L r m c normal hr0 hr1 hsigma hexp s hs0 hs hX hW p n k hk1 (by omega),
    hs0]

/-- Zero volatility in rounded arithmetic: the value of every path is the value of the flat
surface. -/
theorem rounded_run_flat_V (r : Dbl F → Dbl F) (m : Libm F) (c : IR F) (normal : Nat → F)
    (hr0 : r (fin 0) = fin 0) (hr1 : r (fin 1) = fin 1)
    (hsigma : c.sigma = 0) (hexp : m.exp 0 = 1) (s : F) (hs0 : r (fin spot_init) = fin s)
    (hs : r (fin s) = fin s)
    (hX : c.N ≤ 1 ∨ ∃ x, x ≠ 0 ∧ r (1 + r (fin c.alpha * fin s)) = fin x)
    (hW : ∀ k, ∃ w, r (r (Dbl.sqrt m (fin c.dT)) * fin (normal k)) = fin w) (p : Nat) :
    (Fp.run_paths r m c normal (p + 1)).V p = Fp.flat_value r c := by
  have hL := rounded_run_flat_L r m c normal hr0 hr1 hsigma hexp s hs0 hs hX hW p
  have hD := rounded_run_flat_D r m c normal hr0 hr1 hsigma hexp s hs0 hs hX hW p
  rw [rounded_run_paths_succ, (rounded_simulate_path_V r m c normal p _).1,
    ← rounded_run_paths_succ]
  unfold Fp.flat_value
  refine forLoop_congr _ _ _ (fun i t h1 h2 => ?_)
  show r (t + Fp.contribution r c _ _ i) = r (t + Fp.contribution r c _ _ i)
  rw [rounded_contribution_congr r c _ (Fp.flat_surface r) _
    (fun a b => Fp.flat_discount r c (a - b)) i
    (by rw [hL (i - 1) (i - 1) (le_refl _) (by omega)]; exact hs0.symm)
    (hD (i - 1) i (by omega) (by omega))
    (hD (i - 1) (c.N + 1) (by omega) (le_refl _))
    (hD 0 i (by omega) (by omega))]

theorem rounded_mem_datapoints (r : Dbl F → Dbl F) (m : Libm F) (c : IR F)
    (normal : Nat → F) (x : Dbl F)
    (hx : x ∈ (Fp.get_simulation_data r m c normal).datapoints) :
    ∃ p, p < c.M ∧ x = (Fp.run_paths r m c normal (p + 1)).V p := by
  have hx1 : x ∈ (List.range c.M).map (Fp.run_paths r m c normal c.M).V := hx
  rw [List.mem_map] at hx1
  obtain ⟨p, hp, hpx⟩ := hx1
  rw [List.mem_range] at hp
  refine ⟨p, hp, ?_⟩
  have e : c.M = p + 1 + (c.M - (p + 1)) := by omega
  rw [← hpx, e, rounded_run_paths_V_stable]

/-- The accumulation of lines 95-98 reads the first `M` path values only. -/
theorem rounded_sumPV_congr (r : Dbl F → Dbl F) (M : Nat) (V V1 : Vec F)
    (h : ∀ p, p < M → V p = V1 p) : Fp.sumPV r M V = Fp.sumPV r M V1 := by
  unfold Fp.sumPV
  refine forLoop_congr _ _ _ (fun p t _ hp => ?_)
  show r (t + V p) = r (t + V1 p)
  rw [h p hp]

/-- The present value of a run all of whose path values are `v`. -/
theorem rounded_value_of_const (r : Dbl F → Dbl F) (m : Libm F) (c : IR F)
    (normal : Nat → F) (hM : 1 ≤ c.M) (v : Dbl F)
    (hV : ∀ p, p < c.M → (Fp.run_paths r m c normal (p + 1)).V p = v) :
    (Fp.get_simulation_data r m c normal).value
      = if c.cap then
          r (r (Fp.flat_discount r c (c.N + 1) * Fp.sumPV r c.M (fun _ => v)) / fin (c.M : F))
        else r (Fp.sumPV r c.M (fun _ => v) / fin (c.M : F)) := by
  have hsum : Fp.sumPV r c.M (Fp.run_paths r m c normal c.M).V
      = Fp.sumPV r c.M (fun _ => v) := by
    refine rounded_sumPV_congr r c.M _ _ (fun p hp => ?_)
    have e : c.M = p + 1 + (c.M - (p + 1)) := by omega
    rw [e, rounded_run_paths_V_stable]
    exact hV p hp
  have hD : (Fp.run_paths r m c normal c.M).D (c.N + 1) 0
      = Fp.flat_discount r c (c.N + 1) := by
    have e : c.M = (c.M - 1) + 1 := by omega
    rw [e]
    exact rounded_run_terminal_discount r m c normal _ (c.N + 1) (by omega) (le_refl _)
  show (if c.cap = true then
      r (r ((Fp.run_paths r m c normal c.M).D (c.N + 1) 0
        * Fp.sumPV r c.M (Fp.run_paths r m c normal c.M).V) / fin (c.M : F))
    else r (Fp.sumPV r c.M (Fp.run_paths r m c normal c.M).V / fin (c.M : F))) = _
  rw [hsum, hD]

end RoundedFlat

section RoundedZero

variable {F : Type} [LinearOrderedField F]

open Dbl

/-- An at-the-money cap on the flat surface: every payoff is `0`, and so is the path value
when the products of factors it is divided by are numbers other than `0`. -/
theorem rounded_flat_value_zero (r : Dbl F → Dbl F) (c : IR F) (hr0 : r (fin 0) = fin 0)
    (hcap : c.cap = true) (hK : fin c.K = r (fin spot_init))
    (hdisc : ∀ j, j ≤ c.N + 1 → ∃ e, e ≠ 0 ∧ Fp.flat_discount r c j = fin e) :
    Fp.flat_value r c = fin 0 := by
  obtain ⟨e1, _, he1⟩ := hdisc 1 (by omega)
  obtain ⟨s, hs⟩ : ∃ s, r (fin spot_init) = fin s := ⟨c.K, hK.symm⟩
  unfold Fp.flat_value
  refine forLoop_induction _ (0 : Dbl F) (fun _ t => t = fin 0) (by omega) rfl ?_
  intro i t h1 h2 hp
  obtain ⟨e2, he20, he2⟩ := hdisc (c.N + 1 - (i - 1)) (by omega)
  have e : i - (i - 1) = 1 := by omega
  show r (t + Fp.contribution r c (Fp.flat_surface r)
    (fun a b => Fp.flat_discount r c (a - b)) i) = fin 0
  unfold Fp.contribution Fp.payoff Fp.flat_surface
  rw [if_pos hcap, if_pos hcap, hp]
  show r (fin 0 + r (r (stdmax (r (r (fin spot_init) - fin c.K)) 0
    * Fp.flat_discount r c (i - (i - 1))) / Fp.flat_discount r c (c.N + 1 - (i - 1)))) = fin 0
  rw [e, he1, he2, hK, hs, fin_sub_fin, sub_self, hr0, stdmax_fin_zero, max_self, fin_mul_fin,
    zero_mul, hr0, fin_div_fin_of_ne _ he20, zero_div, hr0, fin_add_fin, add_zero, hr0]

theorem rounded_sumPV_zero (r : Dbl F → Dbl F) (hr0 : r (fin 0) = fin 0) (M : Nat) :
    Fp.sumPV r M (fun _ => fin 0) = fin 0 := by
  unfold Fp.sumPV
  refine forLoop_induction _ (0 : Dbl F) (fun _ t => t = fin 0) (Nat.zero_le _) rfl ?_
  intro i t _ _ hp
  show r (t + fin 0) = fin 0
  rw [hp, fin_add_fin, add_zero, hr0]

end RoundedZero

section RoundedUndefined

variable {F : Type} [LinearOrderedField F]

open Dbl

theorem div_fin_zero (x : Dbl F) : x / fin (0 : F) = nan := by
  cases x with
  | fin a => exact fin_div_zero a
  | nan => rfl

/-- A terminal product of factors that has underflowed to `0`: line 81 divides by it and
the path value is not finite. -/
theorem rounded_flat_value_underflow (r : Dbl F → Dbl F) (c : IR F) (hrn : r nan = nan)
    (h0 : Fp.flat_discount r c (c.N + 1) = fin 0) : Fp.flat_value r c = nan := by
  have hc : Fp.contribution r c (Fp.flat_surface r)
      (fun a b => Fp.flat_discount r c (a - b)) 1 = nan := by
    unfold Fp.contribution
    show (if c.cap = true then r (r (_ * _) / Fp.flat_discount r c (c.N + 1 - (1 - 1)))
      else r (r (r (_ * _) / Fp.flat_discount r c (c.N + 1 - (1 - 1))) * _)) = nan
    have e : c.N + 1 - (1 - 1) = c.N + 1 := by omega
    rw [e, h0, div_fin_zero, hrn, nan_mul, hrn]
    exact ite_self _
  unfold Fp.flat_value
  rw [forLoop_succ_bottom (by omega)]
  show forLoop (1 + 1) (c.N + 2) _ (r (0 + Fp.contribution r c (Fp.flat_surface r)
    (fun a b => Fp.flat_discount r c (a - b)) 1)) = nan
  rw [hc, add_nan, hrn]
  exact forLoop_fixed _ nan (fun i => by show r (nan + _) = nan; rw [nan_add, hrn]) _ _

theorem rounded_sumPV_nan (r : Dbl F → Dbl F) (hrn : r nan = nan) (M : Nat) (hM : 1 ≤ M) :
    Fp.sumPV r M (fun _ => (nan : Dbl F)) = nan := by
  unfold Fp.sumPV
  rw [forLoop_succ_bottom (by omega)]
  show forLoop (0 + 1) M _ (r (0 + nan)) = nan
  rw [add_nan, hrn]
  exact forLoop_fixed _ nan (fun i => by show r (nan + _) = nan; rw [nan_add, hrn]) _ _

/-- The present value of a run all of whose path values are not finite. -/
theorem rounded_value_of_nan (r : Dbl F → Dbl F) (m : Libm F) (c : IR F) (normal : Nat → F)
    (hrn : r nan = nan) (hM : 1 ≤ c.M)
    (hV : ∀ p, p < c.M → (Fp.run_paths r m c normal (p + 1)).V p = nan) :
    (Fp.get_simulation_data r m c normal).value = nan := by
  rw [rounded_value_of_const r m c normal hM nan hV, rounded_sumPV_nan r hrn c.M hM, mul_nan,
    hrn, nan_div, hrn]
  exact ite_self _

end RoundedUndefined

theorem round_half_even_of_lt (s : ℚ) (f : Int) (h1 : (f : ℚ) ≤ s) (h2 : s - f < 1 / 2) :
    round_half_even s = f := by
  have hf : ⌊s⌋ = f := Int.floor_eq_iff.mpr ⟨h1, by linarith⟩
  unfold round_half_even
  rw [hf, if_pos h2]

theorem round_half_even_of_gt (s : ℚ) (f : Int) (h1 : 1 / 2 < s - f) (h2 : s < f + 1) :
    round_half_even s = f + 1 := by
  have hf : ⌊s⌋ = f := Int.floor_eq_iff.mpr ⟨by linarith, h2⟩
  unfold round_half_even
  rw [hf, if_neg (not_lt.mpr (le_of_lt h1)), if_pos h1]

theorem ulp_exponent_eq (x : ℚ) (k : Int) (hk : -1022 ≤ k) (h1 : (2 : ℚ) ^ k ≤ |x|)
    (h2 : |x| < (2 : ℚ) ^ (k + 1)) : ulp_exponent x = k - 52 := by
  have hpos : 0 < |x| := lt_of_lt_of_le (zpow_pos (by norm_num) k) h1
  have ha : k ≤ Int.log 2 |x| :=
    (Int.zpow_le_iff_le_log (by norm_num) hpos).mp (by exact_mod_cast h1)
  have hb : Int.log 2 |x| < k + 1 :=
    (Int.lt_zpow_iff_log_lt (by norm_num) hpos).mp (by exact_mod_cast h2)
  unfold ulp_exponent
  rw [max_eq_left (by omega)]
  omega

/-- The rounding of a normal number, from its binary exponent `k` and the integer `n`
nearest to its significand scaled to `53` bits. -/
theorem binary64_eq (x : ℚ) (k n : Int) (hk : -1022 ≤ k) (h1 : (2 : ℚ) ^ k ≤ |x|)
    (h2 : |x| < (2 : ℚ) ^ (k + 1)) (hn : round_half_even (x / 2 ^ (k - 52)) = n)
    (hfin : |(n : ℚ) * 2 ^ (k - 52)| < 2 ^ (1024 : ℤ)) :
    binary64 (Dbl.fin x) = Dbl.fin ((n : ℚ) * 2 ^ (k - 52)) := by
  unfold binary64
  simp only
  rw [ulp_exponent_eq x k hk h1 h2, hn, if_pos hfin]

theorem binary64_zero : binary64 (Dbl.fin 0) = Dbl.fin 0 := by
  have e : ulp_exponent 0 = -52 := by
    unfold ulp_exponent
    rw [abs_zero, Int.log_zero_right]
    rfl
  have hr : round_half_even (0 / 2 ^ (-52 : ℤ)) = 0 := by
    rw [zero_div]
    exact round_half_even_of_lt 0 0 (by norm_num) (by norm_num)
  unfold binary64
  simp only
  rw [e, hr]
  norm_num

theorem binary64_one : binary64 (Dbl.fin 1) = Dbl.fin 1 := by
  rw [binary64_eq 1 0 4503599627370496 (by norm_num) (by norm_num) (by norm_num)
    (round_half_even_of_lt _ 4503599627370496 (by norm_num) (by norm_num)) (by norm_num)]
  congr 1
  norm_num

/-- The double `0.05`: the literal of line 25 as the compiler rounds it. -/
theorem binary64_spot :
    binary64 (Dbl.fin spot_init) = Dbl.fin (3602879701896397 / 2 ^ 56) := by
  rw [binary64_eq spot_init (-5) 7205759403792794 (by norm_num)
    (by norm_num [spot_init, abs_of_pos]) (by norm_num [spot_init, abs_of_pos])
    (round_half_even_of_gt _ 7205759403792793 (by norm_num [spot_init])
      (by norm_num [spot_init])) (by norm_num [abs_of_pos])]
  congr 1
  norm_num

/-- The double `0.05` is a binary64 number. -/
theorem binary64_spot_fix :
    binary64 (Dbl.fin (3602879701896397 / 2 ^ 56)) = Dbl.fin (3602879701896397 / 2 ^ 56) := by
  rw [binary64_eq _ (-5) 7205759403792794 (by norm_num)
    (by norm_num [abs_of_pos]) (by norm_num [abs_of_pos])
    (round_half_even_of_lt _ 7205759403792794 (by norm_num) (by norm_num))
    (by norm_num [abs_of_pos])]
  congr 1
  norm_num

theorem binary64_nan : binary64 Dbl.nan = Dbl.nan := rfl

theorem round_half_even_near (s : ℚ) : |(round_half_even s : ℚ) - s| ≤ 1 := by
  have h1 := Int.floor_le s
  have h2 := Int.lt_floor_add_one s
  unfold round_half_even
  split_ifs <;> rw [abs_le] <;> constructor <;> push_cast <;> linarith

theorem ulp_exponent_le (x : ℚ) (hx : |x| ≤ 2 ^ 1000) : ulp_exponent x ≤ 948 := by
  have hl : Int.log 2 |x| ≤ 1000 := by
    rcases eq_or_lt_of_le (abs_nonneg x) with h0 | hpos
    · rw [← h0, Int.log_zero_right]
      norm_num
    · have h : Int.log 2 |x| < 1001 :=
        (Int.lt_zpow_iff_log_lt (by norm_num) hpos).mp
          (lt_of_le_of_lt hx (by norm_num))
      omega
  unfold ulp_exponent
  have := max_le hl (show (-1022 : ℤ) ≤ 1000 by norm_num)
  omega

/-- A result of ordinary magnitude does not overflow. -/
theorem binary64_defined (x : ℚ) (hx : |x| ≤ 2 ^ 1000) :
    ∃ y, binary64 (Dbl.fin x) = Dbl.fin y := by
  have he := ulp_exponent_le x hx
  have hp : (0 : ℚ) < 2 ^ ulp_exponent x := zpow_pos (by norm_num) _
  have hp2 : (2 : ℚ) ^ ulp_exponent x ≤ 2 ^ (948 : ℤ) :=
    zpow_le_zpow_right₀ (by norm_num) he
  have hr := round_half_even_near (x / 2 ^ ulp_exponent x)
  have hs : |x / 2 ^ ulp_exponent x| * 2 ^ ulp_exponent x = |x| := by
    rw [abs_div, abs_of_pos hp, div_mul_cancel₀ _ (ne_of_gt hp)]
  have hn : |(round_half_even (x / 2 ^ ulp_exponent x) : ℚ)|
      ≤ |x / 2 ^ ulp_exponent x| + 1 := by
    have := abs_sub_abs_le_abs_sub (round_half_even (x / 2 ^ ulp_exponent x) : ℚ)
      (x / 2 ^ ulp_exponent x)
    linarith
  have hfin : |(round_half_even (x / 2 ^ ulp_exponent x) : ℚ) * 2 ^ ulp_exponent x|
      < 2 ^ (1024 : ℤ) := by
    rw [abs_mul, abs_of_pos hp]
    calc |(round_half_even (x / 2 ^ ulp_exponent x) : ℚ)| * 2 ^ ulp_exponent x
        ≤ (|x / 2 ^ ulp_exponent x| + 1) * 2 ^ ulp_exponent x :=
          mul_le_mul_of_nonneg_right hn (le_of_lt hp)
      _ = |x| + 2 ^ ulp_exponent x := by rw [add_mul, hs, one_mul]
      _ ≤ 2 ^ 1000 + 2 ^ (948 : ℤ) := add_le_add hx hp2
      _ < 2 ^ (1024 : ℤ) := by norm_num
  refine ⟨round_half_even (x / 2 ^ ulp_exponent x) * 2 ^ ulp_exponent x, ?_⟩
  unfold binary64
  simp only
  rw [if_pos hfin]

/-- Half the double `0.05` is a binary64 number. -/
theorem binary64_half_spot :
    binary64 (Dbl.fin (0.5 * (3602879701896397 / 2 ^ 56)))
      = Dbl.fin (3602879701896397 / 2 ^ 57) := by
  rw [binary64_eq _ (-6) 7205759403792794 (by norm_num)
    (by norm_num [abs_of_pos]) (by norm_num [abs_of_pos])
    (round_half_even_of_lt _ 7205759403792794 (by norm_num) (by norm_num))
    (by norm_num [abs_of_pos])]
  congr 1
  norm_num

/-- The denominator `1 + 0.5 * 0.05` of line 56 in binary64 arithmetic. -/
theorem binary64_accrual :
    binary64 (Dbl.fin (1 + 3602879701896397 / 2 ^ 57))
      = Dbl.fin (2308094809027379 / 2 ^ 51) := by
  rw [binary64_eq _ 0 4616189618054758 (by norm_num)
    (by norm_num [abs_of_pos]) (by norm_num [abs_of_pos])
    (round_half_even_of_lt _ 4616189618054758 (by norm_num) (by norm_num))
    (by norm_num [abs_of_pos])]
  congr 1
  norm_num

/-- The factor `1 / (1 + 0.5 * 0.05)` of line 56 in binary64 arithmetic. -/
theorem binary64_factor :
    binary64 (Dbl.fin (1 / (2308094809027379 / 2 ^ 51)))
      = Dbl.fin (8787511468039993 / 2 ^ 53) := by
  rw [binary64_eq _ (-1) 8787511468039993 (by norm_num)
    (by norm_num [abs_of_pos]) (by norm_num [abs_of_pos])
    (round_half_even_of_gt _ 8787511468039992 (by norm_num) (by norm_num))
    (by norm_num [abs_of_pos])]
  congr 1
  norm_num

theorem binary64_factor_fix :
    binary64 (Dbl.fin (1 * (8787511468039993 / 2 ^ 53)))
      = Dbl.fin (8787511468039993 / 2 ^ 53) := by
  rw [binary64_eq _ (-1) 8787511468039993 (by norm_num)
    (by norm_num [abs_of_pos]) (by norm_num [abs_of_pos])
    (round_half_even_of_lt _ 8787511468039993 (by norm_num) (by norm_num))
    (by norm_num [abs_of_pos])]
  congr 1
  norm_num

/-- The product of two factors in binary64 arithmetic. -/
theorem binary64_factor_sq :
    binary64 (Dbl.fin (8787511468039993 / 2 ^ 53 * (8787511468039993 / 2 ^ 53)))
      = Dbl.fin (4286590960019509 / 2 ^ 52) := by
  rw [binary64_eq _ (-1) 8573181920039018 (by norm_num)
    (by norm_num [abs_of_pos]) (by norm_num [abs_of_pos])
    (round_half_even_of_lt _ 8573181920039018 (by norm_num) (by norm_num))
    (by norm_num [abs_of_pos])]
  congr 1
  norm_num

theorem binary64_three_quarters :
    binary64 (Dbl.fin (3 / 4)) = Dbl.fin (3 / 4) := by
  rw [binary64_eq _ (-1) 6755399441055744 (by norm_num)
    (by norm_num [abs_of_pos]) (by norm_num [abs_of_pos])
    (round_half_even_of_lt _ 6755399441055744 (by norm_num) (by norm_num))
    (by norm_num [abs_of_pos])]
  congr 1
  norm_num

theorem drawsSample_bound (k : Nat) : |drawsSample k| ≤ 3 / 4 := by
  unfold drawsSample
  have h : k % 7 < 7 := Nat.mod_lt _ (by norm_num)
  have h1 : ((k % 7 : Nat) : ℚ) ≤ 6 := by exact_mod_cast Nat.lt_succ_iff.mp h
  have h2 : (0 : ℚ) ≤ ((k % 7 : Nat) : ℚ) := Nat.cast_nonneg _
  rw [abs_le]
  constructor <;> linarith

/-- The increments `sqrt(0.5) * normal()` of the sample stream are finite in binary64
arithmetic. -/
theorem binary64_increments (k : Nat) :
    ∃ w, binary64 (binary64 (Dbl.sqrt libmQ (Dbl.fin 0.5)) * Dbl.fin (drawsSample k))
      = Dbl.fin w := by
  have e : Dbl.sqrt libmQ (Dbl.fin (0.5 : ℚ)) = Dbl.fin (3 / 4) := by
    show (if (0.5 : ℚ) < 0 then Dbl.nan else Dbl.fin (libmQ.sqrt 0.5)) = _
    rw [if_neg (by norm_num)]
    congr 1
    norm_num [libmQ]
  rw [e, binary64_three_quarters, Dbl.fin_mul_fin]
  refine binary64_defined _ ?_
  have h := drawsSample_bound k
  rw [abs_mul]
  calc |(3 / 4 : ℚ)| * |drawsSample k| ≤ 1 * (3 / 4) :=
        mul_le_mul (by norm_num [abs_of_pos]) h (abs_nonneg _) (by norm_num)
    _ ≤ 2 ^ 1000 := by norm_num

/-- The products of one and of two factors `1 / (1 + 0.5 * 0.05)` in binary64
arithmetic. -/
theorem binary64_flat_discount :
    Fp.flat_discount binary64 cfgAtTheMoney 2 = Dbl.fin (4286590960019509 / 2 ^ 52) := by
  have hq : Fp.flat_factor binary64 cfgAtTheMoney = Dbl.fin (8787511468039993 / 2 ^ 53) := by
    unfold Fp.flat_factor
    rw [binary64_spot]
    show binary64 (1 / binary64 (1 + binary64
      (Dbl.fin (0.5 : ℚ) * Dbl.fin (3602879701896397 / 2 ^ 56)))) = _
    rw [Dbl.fin_mul_fin, binary64_half_spot, Dbl.one_def, Dbl.fin_add_fin, binary64_accrual,
      Dbl.fin_div_fin_of_ne _ (by norm_num), binary64_factor]
  rw [flat_discount_succ, flat_discount_succ, flat_discount_zero, hq, Dbl.one_def,
    Dbl.fin_mul_fin, binary64_factor_fix, Dbl.fin_mul_fin, binary64_factor_sq]

/-- A positive result below half the smallest positive binary64 number underflows to `0`. -/
theorem binary64_underflow (x : ℚ) (h0 : 0 < x) (h : x < 2 ^ (-1075 : ℤ)) :
    binary64 (Dbl.fin x) = Dbl.fin 0 := by
  have hl : Int.log 2 |x| < -1075 := by
    rw [abs_of_pos h0]
    exact (Int.lt_zpow_iff_log_lt (by norm_num) h0).mp (by exact_mod_cast h)
  have he : ulp_exponent x = -1074 := by
    unfold ulp_exponent
    rw [max_eq_right (by omega)]
    rfl
  have hr : round_half_even (x / 2 ^ (-1074 : ℤ)) = 0 := by
    refine round_half_even_of_lt _ 0 ?_ ?_
    · exact le_of_lt (div_pos h0 (zpow_pos (by norm_num) _))
    · have e : x / 2 ^ (-1074 : ℤ) < 2 ^ (-1075 : ℤ) / 2 ^ (-1074 : ℤ) :=
        div_lt_div_of_pos_right h (zpow_pos (by norm_num) _)
      have e2 : (2 : ℚ) ^ (-1075 : ℤ) / 2 ^ (-1074 : ℤ) = 1 / 2 := by
        rw [← zpow_sub₀ (by norm_num)]
        norm_num
      rw [e2] at e
      push_cast
      linarith
  unfold binary64
  simp only
  rw [he, hr]
  norm_num

/-- The product `2^-60 * 0.05` is a binary64 number. -/
theorem binary64_tiny_product :
    binary64 (Dbl.fin (1 / 2 ^ 60 * (3602879701896397 / 2 ^ 56)))
      = Dbl.fin (3602879701896397 / 2 ^ 116) := by
  rw [binary64_eq _ (-65) 7205759403792794 (by norm_num)
    (by norm_num [abs_of_pos]) (by norm_num [abs_of_pos])
    (round_half_even_of_lt _ 7205759403792794 (by norm_num) (by norm_num))
    (by norm_num [abs_of_pos])]
  congr 1
  norm_num

/-- The sum `1 + 2^-60 * 0.05` is rounded to `1`. -/
theorem binary64_absorbed :
    binary64 (Dbl.fin (1 + 3602879701896397 / 2 ^ 116)) = Dbl.fin 1 := by
  rw [binary64_eq _ 0 4503599627370496 (by norm_num)
    (by norm_num [abs_of_pos]) (by norm_num [abs_of_pos])
    (round_half_even_of_lt _ 4503599627370496 (by norm_num) (by norm_num))
    (by norm_num [abs_of_pos])]
  congr 1
  norm_num

/-- With `alpha = 2^-60` the products of one and of two factors are both `1` in binary64
arithmetic. -/
theorem binary64_tiny_discount (c : IR ℚ) (halpha : c.alpha = 1 / 2 ^ 60) :
    Fp.flat_discount binary64 c 1 = Dbl.fin 1 ∧ Fp.flat_discount binary64 c 2 = Dbl.fin 1 := by
  have hq : Fp.flat_factor binary64 c = Dbl.fin 1 := by
    unfold Fp.flat_factor
    rw [binary64_spot, halpha, Dbl.fin_mul_fin, binary64_tiny_product, Dbl.one_def,
      Dbl.fin_add_fin, binary64_absorbed, Dbl.fin_div_fin_of_ne _ one_ne_zero, div_one,
      binary64_one]
  have h1 : Fp.flat_discount binary64 c 1 = Dbl.fin 1 := by
    rw [flat_discount_succ, flat_discount_zero, hq, Dbl.one_def, Dbl.fin_mul_fin, mul_one,
      binary64_one]
  refine ⟨h1, ?_⟩
  rw [flat_discount_succ, h1, hq, Dbl.fin_mul_fin, mul_one, binary64_one]

/-- The product `2^600 * 0.05` is a binary64 number. -/
theorem binary64_huge_product :
    binary64 (Dbl.fin (2 ^ 600 * (3602879701896397 / 2 ^ 56)))
      = Dbl.fin (3602879701896397 * 2 ^ 544) := by
  rw [binary64_eq _ 595 7205759403792794 (by norm_num)
    (by norm_num [abs_of_pos]) (by norm_num [abs_of_pos])
    (round_half_even_of_lt _ 7205759403792794 (by norm_num) (by norm_num))
    (by norm_num [abs_of_pos])]
  congr 1
  norm_num

/-- The sum `1 + 2^600 * 0.05` is rounded to `2^600 * 0.05`. -/
theorem binary64_huge_accrual :
    binary64 (Dbl.fin (1 + 3602879701896397 * 2 ^ 544))
      = Dbl.fin (3602879701896397 * 2 ^ 544) := by
  rw [binary64_eq _ 595 7205759403792794 (by norm_num)
    (by norm_num [abs_of_pos]) (by norm_num [abs_of_pos])
    (round_half_even_of_lt _ 7205759403792794 (by norm_num) (by norm_num))
    (by norm_num [abs_of_pos])]
  congr 1
  norm_num

/-- The factor `1 / (2^600 * 0.05)` in binary64 arithmetic: `5 * 2^-598`. -/
theorem binary64_huge_factor :
    binary64 (Dbl.fin (1 / (3602879701896397 * 2 ^ 544))) = Dbl.fin (5 / 2 ^ 598) := by
  rw [binary64_eq _ (-596) 5629499534213120 (by norm_num)
    (by norm_num [abs_of_pos]) (by norm_num [abs_of_pos])
    (round_half_even_of_gt _ 5629499534213119 (by norm_num) (by norm_num))
    (by norm_num [abs_of_pos])]
  congr 1
  norm_num

theorem binary64_huge_factor_fix :
    binary64 (Dbl.fin (1 * (5 / 2 ^ 598))) = Dbl.fin (5 / 2 ^ 598) := by
  rw [binary64_eq _ (-596) 5629499534213120 (by norm_num)
    (by norm_num [abs_of_pos]) (by norm_num [abs_of_pos])
    (round_half_even_of_lt _ 5629499534213120 (by norm_num) (by norm_num))
    (by norm_num [abs_of_pos])]
  congr 1
  norm_num

/-- With `alpha = 2^600`, zero volatility and two periods the terminal discount factor
underflows to `0` in binary64 arithmetic, and every path value and the present value are not
finite. -/
theorem binary64_underflow_run (c : IR ℚ) (halpha : c.alpha = 2 ^ 600) (hsigma : c.sigma = 0)
    (hdT : c.dT = 0.5) (hN : c.N = 1) (hM : 1 ≤ c.M) :
    Fp.flat_discount binary64 c 2 = Dbl.fin 0 ∧
    (∀ p, (Fp.run_paths binary64 libmQ c drawsSample (p + 1)).V p = Dbl.nan) ∧
    (Fp.get_simulation_data binary64 libmQ c drawsSample).value = Dbl.nan := by
  have hq : Fp.flat_factor binary64 c = Dbl.fin (5 / 2 ^ 598) := by
    unfold Fp.flat_factor
    rw [binary64_spot, halpha, Dbl.fin_mul_fin, binary64_huge_product, Dbl.one_def,
      Dbl.fin_add_fin, binary64_huge_accrual, Dbl.fin_div_fin_of_ne _ (by norm_num),
      binary64_huge_factor]
  have h2 : Fp.flat_discount binary64 c 2 = Dbl.fin 0 := by
    rw [flat_discount_succ, flat_discount_succ, flat_discount_zero, hq, Dbl.one_def,
      Dbl.fin_mul_fin, binary64_huge_factor_fix, Dbl.fin_mul_fin]
    exact binary64_underflow _ (by norm_num) (by norm_num)
  have hW : ∀ k, ∃ w, binary64 (binary64 (Dbl.sqrt libmQ (Dbl.fin c.dT))
      * Dbl.fin (drawsSample k)) = Dbl.fin w := by
    rw [hdT]
    exact binary64_increments
  have hV : ∀ p, (Fp.run_paths binary64 libmQ c drawsSample (p + 1)).V p = Dbl.nan := by
    intro p
    rw [rounded_run_flat_V binary64 libmQ c drawsSample binary64_zero binary64_one hsigma
      (by norm_num [libmQ]) _ binary64_spot binary64_spot_fix (Or.inl (by omega)) hW p]
    refine rounded_flat_value_underflow binary64 c binary64_nan ?_
    rw [hN]
    exact h2
  exact ⟨h2, hV, rounded_value_of_nan binary64 libmQ c drawsSample binary64_nan hM
    (fun p _ => hV p)⟩

section Call

variable {F : Type} [LinearOrderedField F]

open Dbl

theorem call_of_nonneg (m : Libm F) (a : IR_args F) (normal : Nat → F) (hN : 0 ≤ a.N)
    (hN31 : a.N + 2 < 2 ^ 31) (hM : 0 ≤ a.M) :
    a.get_simulation_data m normal = some (get_simulation_data m a.toIR normal) := by
  unfold IR_args.get_simulation_data
  rw [if_neg (by omega)]

end Call

/-! ## Claims -/

section Claims

variable {F : Type} [LinearOrderedField F]

open Dbl

/-- C1: for every configuration and every vector of increments `dW`, the surface `L` that
the loop nest of lines 37-47 builds for one path from arrays whose column `0` holds the flat
initial curve satisfies `L[i][0] = 0.05` for `i` in `[0, N]` and, for every step `n` in
`[0, N-1]` and tenor `i` in `[n+1, N]`,
`L[i][n+1] = L[i][n] * exp((-drift_i - 0.5*sigma^2)*dT + sigma*dW[n+1])` with
`drift_i = sigma * sum over k = i+1..N of (alpha*sigma*L[k][n]) / (1 + alpha*L[k][n])`. -/
theorem C1_forward_rate_recurrence (m : Libm F) (c : IR F) (dW : Vec F) (L0 : Mat F)
    (hflat : ∀ i, i ≤ c.N → L0 i 0 = fin 0.05) :
    (∀ i, i ≤ c.N → evolve_rates m c dW L0 i 0 = fin 0.05) ∧
    (∀ n i, n < c.N → n + 1 ≤ i → i ≤ c.N →
      evolve_rates m c dW L0 i (n + 1)
        = evolve_rates m c dW L0 i n * Dbl.exp m
          ((-(fin c.sigma * ∑ k in Finset.Icc (i + 1) c.N,
                (fin c.alpha * fin c.sigma * evolve_rates m c dW L0 k n)
                  / (1 + fin c.alpha * evolve_rates m c dW L0 k n))
            - fin 0.5 * fin c.sigma ^ 2) * fin c.dT + fin c.sigma * dW (n + 1))) := by
  obtain ⟨hframe, hrec⟩ := evolve_rates_spec m c dW L0
  refine ⟨fun i hi => ?_, fun n i hn hni hi => ?_⟩
  · rw [hframe i 0 (by omega)]
    exact hflat i hi
  · rw [hrec n i hn hni hi, next_rate_eq]

/-- C1 at the swap of the application, on the arrays as the engine initialises them and
on the arrays the first path leaves behind. -/
theorem C1_forward_rate_recurrence_witness :
    (evolve_rates libmQ scenarioA dWsample (init_state scenarioA).L 2 0 = fin 0.05) ∧
    (evolve_rates libmQ scenarioA dWsample (run_paths libmQ scenarioA drawsSample 1).L 2 2
      = evolve_rates libmQ scenarioA dWsample (run_paths libmQ scenarioA drawsSample 1).L 2 1
        * Dbl.exp libmQ
          ((-(fin scenarioA.sigma * ∑ k in Finset.Icc (2 + 1) scenarioA.N,
                (fin scenarioA.alpha * fin scenarioA.sigma
                    * evolve_rates libmQ scenarioA dWsample
                        (run_paths libmQ scenarioA drawsSample 1).L k 1)
                  / (1 + fin scenarioA.alpha
                    * evolve_rates libmQ scenarioA dWsample
                        (run_paths libmQ scenarioA drawsSample 1).L k 1))
            - fin 0.5 * fin scenarioA.sigma ^ 2) * fin scenarioA.dT
            + fin scenarioA.sigma * dWsample (1 + 1))) :=
  ⟨(C1_forward_rate_recurrence libmQ scenarioA dWsample (init_state scenarioA).L
      (fun i hi => by rw [init_state_L, if_pos ⟨rfl, hi⟩]; rfl)).1 2 (by decide),
   (C1_forward_rate_recurrence libmQ scenarioA dWsample
      (run_paths libmQ scenarioA drawsSample 1).L
      (fun i hi => run_paths_flat libmQ scenarioA drawsSample 1 i hi)).2 1 2
      (by decide) (by decide) (by decide)⟩

/-- C2: for every surface `L` and every pair `(i, n)` with `0 <= n < i <= N + 1`, the
discount surface built by lines 49-61 satisfies
`D[i][n] = product over k = n..i-1 of 1 / (1 + alpha*L[k][n])`, and it reads only rates
observed at step `n` in the rows `n .. N`: a surface that agrees with `L` on the entries
`L[k][n]`, `n <= k <= N`, gives the same discount factors. -/
theorem C2_discount_surface (c : IR F) (L D0 : Mat F) (n i : Nat)
    (hni : n < i) (hi : i ≤ c.N + 1) :
    build_discounts c L D0 i n = ∏ k in Finset.Ico n i, 1 / (1 + fin c.alpha * L k n) ∧
    ∀ (L1 D1 : Mat F), (∀ k, n ≤ k → k ≤ c.N → L1 k n = L k n) →
      build_discounts c L1 D1 i n = build_discounts c L D0 i n := by
  have h : ∀ (X Y : Mat F),
      build_discounts c X Y i n = ∏ k in Finset.Ico n i, 1 / (1 + fin c.alpha * X k n) := by
    intro X Y
    rw [build_discounts_apply, if_pos ⟨hni, hi⟩, df_prod_eq_prod]
  refine ⟨h L D0, fun L1 D1 hL => ?_⟩
  rw [h L1 D1, h L D0]
  refine Finset.prod_congr rfl (fun k hk => ?_)
  rw [Finset.mem_Ico] at hk
  rw [hL k hk.1 (by omega)]

/-- C2 at the swap of the application: the entry `D[3][1]` after the first path. -/
theorem C2_discount_surface_witness :
    build_discounts scenarioA (run_paths libmQ scenarioA drawsSample 1).L
        (init_state scenarioA).D 3 1
      = ∏ k in Finset.Ico 1 3,
          1 / (1 + fin scenarioA.alpha * (run_paths libmQ scenarioA drawsSample 1).L k 1) :=
  (C2_discount_surface scenarioA (run_paths libmQ scenarioA drawsSample 1).L
    (init_state scenarioA).D 1 3 (by decide) (by decide)).1

/-- C3: for every path `p`, with `L`, `D`, `FV`, `V` the arrays as the iteration of path `p`
leaves them, `V[p]` is the sum over `i = 1..N+1` of
`FV[i] * D[i][i-1] / D[N+1][i-1] * w_i`, where for a cap `FV[i] = max(L[i-1][i-1] - K, 0)`
and `w_i = 1`, and for a swap `FV[i] = notional*alpha*(L[i-1][i-1] - K)`, not floored, and
`w_i = D[i][0]`; `std::max(x, 0.)` is the maximum of `x` and `0` on finite `x`. -/
theorem C3_path_value (m : Libm F) (c : IR F) (normal : Nat → F) (p : Nat) :
    ((run_paths m c normal (p + 1)).V p
      = ∑ i in Finset.Icc 1 (c.N + 1),
          (run_paths m c normal (p + 1)).FV i * (run_paths m c normal (p + 1)).D i (i - 1)
            / (run_paths m c normal (p + 1)).D (c.N + 1) (i - 1)
            * (if c.cap then 1 else (run_paths m c normal (p + 1)).D i 0)) ∧
    (∀ i, 1 ≤ i → i ≤ c.N + 1 →
      (run_paths m c normal (p + 1)).FV i
        = if c.cap then stdmax ((run_paths m c normal (p + 1)).L (i - 1) (i - 1) - fin c.K) 0
          else fin c.notional * fin c.alpha
            * ((run_paths m c normal (p + 1)).L (i - 1) (i - 1) - fin c.K)) ∧
    (∀ x : F, stdmax (fin x) (0 : Dbl F) = fin (max x 0)) := by
  rw [run_paths_succ]
  obtain ⟨hV, _, hFV⟩ := simulate_path_V m c normal p (run_paths m c normal p)
  refine ⟨?_, fun i h1 h2 => ?_, stdmax_fin_zero⟩
  · rw [hV]
    refine Finset.sum_congr rfl (fun i hi => ?_)
    rw [Finset.mem_Icc] at hi
    rw [hFV i hi.1 hi.2]
    unfold contribution rolled_payoff
    by_cases hc : c.cap = true
    · rw [if_pos hc, if_pos hc, mul_one]
    · rw [if_neg hc, if_neg hc]
  · rw [hFV i h1 h2]
    rfl

/-- C3 at the cap of the application: the value and the third payoff of the second path. -/
theorem C3_path_value_witness :
    ((run_paths libmQ scenarioB drawsSample (1 + 1)).V 1
      = ∑ i in Finset.Icc 1 (scenarioB.N + 1),
          (run_paths libmQ scenarioB drawsSample (1 + 1)).FV i
            * (run_paths libmQ scenarioB drawsSample (1 + 1)).D i (i - 1)
            / (run_paths libmQ scenarioB drawsSample (1 + 1)).D (scenarioB.N + 1) (i - 1)
            * (if scenarioB.cap then 1
                else (run_paths libmQ scenarioB drawsSample (1 + 1)).D i 0)) ∧
    ((run_paths libmQ scenarioB drawsSample (1 + 1)).FV 3
      = if scenarioB.cap
          then stdmax
            ((run_paths libmQ scenarioB drawsSample (1 + 1)).L (3 - 1) (3 - 1)
              - fin scenarioB.K) 0
          else fin scenarioB.notional * fin scenarioB.alpha
            * ((run_paths libmQ scenarioB drawsSample (1 + 1)).L (3 - 1) (3 - 1)
              - fin scenarioB.K)) :=
  ⟨(C3_path_value libmQ scenarioB drawsSample 1).1,
   (C3_path_value libmQ scenarioB drawsSample 1).2.1 3 (by decide) (by decide)⟩

/-- C4: for every configuration with `M >= 1`, the result of `IR::get_simulation_data` has
a `datapoints` sequence of length exactly `M` whose entry `p` is the value of path `p` as
the iteration of path `p` computed it, and its `value` is
`D[N+1][0] * (sum of datapoints) / M` for a cap, with `D[N+1][0]` the entry left by the last
path (index `M - 1`), and `(sum of datapoints) / M` otherwise. -/
theorem C4_simulation_result (m : Libm F) (c : IR F) (normal : Nat → F) (hM : 1 ≤ c.M) :
    (get_simulation_data m c normal).datapoints.length = c.M ∧
    (∀ p, p < c.M →
      (get_simulation_data m c normal).datapoints[p]?
        = some ((run_paths m c normal (p + 1)).V p)) ∧
    (get_simulation_data m c normal).value
      = if c.cap then
          (run_paths m c normal ((c.M - 1) + 1)).D (c.N + 1) 0
            * (get_simulation_data m c normal).datapoints.sum / fin (c.M : F)
        else (get_simulation_data m c normal).datapoints.sum / fin (c.M : F) := by
  have hM1 : c.M - 1 + 1 = c.M := by omega
  refine ⟨?_, fun p hp => ?_, ?_⟩
  · show ((List.range c.M).map (run_paths m c normal c.M).V).length = c.M
    rw [List.length_map, List.length_range]
  · show ((List.range c.M).map (run_paths m c normal c.M).V)[p]? = _
    rw [List.getElem?_map, List.getElem?_range hp]
    have e : c.M = p + 1 + (c.M - (p + 1)) := by omega
    show some ((run_paths m c normal c.M).V p) = _
    rw [e, run_paths_V_stable]
  · rw [hM1]
    show (if c.cap = true then
        (run_paths m c normal c.M).D (c.N + 1) 0 * sumPV c.M (run_paths m c normal c.M).V
          / fin (c.M : F)
      else sumPV c.M (run_paths m c normal c.M).V / fin (c.M : F)) = _
    rw [sumPV_eq_sum]
    rfl

/-- C4 at the swap of the application (`M = 1000`): the length, the entry of path `41`
and the aggregate. -/
theorem C4_simulation_result_witness :
    1 ≤ scenarioA.M ∧
    (get_simulation_data libmQ scenarioA drawsSample).datapoints.length = 1000 ∧
    (get_simulation_data libmQ scenarioA drawsSample).datapoints[41]?
      = some ((run_paths libmQ scenarioA drawsSample (41 + 1)).V 41) ∧
    (get_simulation_data libmQ scenarioA drawsSample).value
      = if scenarioA.cap then
          (run_paths libmQ scenarioA drawsSample ((scenarioA.M - 1) + 1)).D (scenarioA.N + 1) 0
            * (get_simulation_data libmQ scenarioA drawsSample).datapoints.sum
            / fin (scenarioA.M : ℚ)
        else (get_simulation_data libmQ scenarioA drawsSample).datapoints.sum
          / fin (scenarioA.M : ℚ) :=
  ⟨by decide,
   (C4_simulation_result libmQ scenarioA drawsSample (by decide)).1,
   (C4_simulation_result libmQ scenarioA drawsSample (by decide)).2.1 41 (by decide),
   (C4_simulation_result libmQ scenarioA drawsSample (by decide)).2.2⟩

/-- C5 as stated fails: with `sigma = 0`, `alpha = -20` and `N = 2` the drift of tenor `1`
at step `0` is `(alpha*sigma*L[2][0]) / (1 + alpha*L[2][0]) = 0 / 0`, so the meaningful
entry `L[1][1]` is not `0.05`. -/
theorem C5_counterexample :
    cfgSingularRates.sigma = 0 ∧ 1 ≤ cfgSingularRates.N ∧ libmQ.exp 0 = 1 ∧
    (1 ≤ 1 ∧ 1 ≤ cfgSingularRates.N) ∧
    evolve_rates libmQ cfgSingularRates dWsample (init_state cfgSingularRates).L 1 1
      ≠ fin 0.05 := by
  refine ⟨rfl, by decide, by norm_num [libmQ], by decide, ?_⟩
  rw [evolve_rates_singular libmQ cfgSingularRates dWsample _
    (by norm_num [cfgSingularRates, spot_init]) (by decide)
    (fun i hi => by rw [init_state_L, if_pos ⟨rfl, hi⟩])]
  exact fun h => Dbl.noConfusion h

/-- C5, amended: for `sigma = 0`, every `dT`, every vector of finite increments and every
`alpha` with `1 + alpha*0.05 != 0` (or `N <= 1`, where no drift term is computed), every
meaningful entry of the surface built for one path from arrays whose column `0` is flat
equals the initial rate: `L[i][n] = 0.05` for `0 <= n <= i <= N`. -/
theorem C5_zero_vol_flat_surface (m : Libm F) (c : IR F) (w : Nat → F) (L0 : Mat F)
    (hsigma : c.sigma = 0) (hexp : m.exp 0 = 1)
    (halpha : c.N ≤ 1 ∨ 1 + c.alpha * 0.05 ≠ 0)
    (hflat : ∀ i, i ≤ c.N → L0 i 0 = fin 0.05) :
    ∀ n i, n ≤ i → i ≤ c.N → evolve_rates m c (fun j => fin (w j)) L0 i n = fin 0.05 := by
  intro n i hni hi
  have hfin : ∀ j, 1 ≤ j → j ≤ c.N → ∃ x, (fun k => (fin (w k) : Dbl F)) j = fin x :=
    fun j _ _ => ⟨w j, rfl⟩
  have hflat0 : ∀ k, k ≤ c.N → L0 k 0 = fin spot_init := hflat
  exact evolve_rates_flat m c _ L0 hsigma hexp halpha hfin hflat0 n i hni hi

/-- C5, amended, at the swap of the application with zero volatility. -/
theorem C5_zero_vol_flat_surface_witness :
    scenarioA0.sigma = 0 ∧ libmQ.exp 0 = 1 ∧ 1 + scenarioA0.alpha * 0.05 ≠ 0 ∧
    evolve_rates libmQ scenarioA0 (fun j => fin (drawsSample j)) (init_state scenarioA0).L 3 2
      = fin 0.05 :=
  ⟨rfl, by norm_num [libmQ], by norm_num [scenarioA0, scenarioA],
   C5_zero_vol_flat_surface libmQ scenarioA0 drawsSample (init_state scenarioA0).L rfl
    (by norm_num [libmQ]) (Or.inr (by norm_num [scenarioA0, scenarioA]))
    (fun i hi => by rw [init_state_L, if_pos ⟨rfl, hi⟩]; rfl) 2 3 (by decide) (by decide)⟩

/-- C7 as stated fails: with a negative time step `sqrt(dT)` is not a number, so the
increments, the rate `L[1][1]`, the path value and the present value are not finite.  And in
binary64 arithmetic, for the cap on two periods with `alpha = 2^600` and `dT = 0.5`, the
terminal discount factor `D[2][0]` underflows to `0`, line 81 divides by it, and the present
value is not finite. -/
theorem C7_counterexample :
    (cfgNegStep.sigma = 0 ∧ cfgNegStep.cap = true ∧ 0 ≤ cfgNegStep.alpha ∧ 1 ≤ cfgNegStep.M ∧
     libmQ.exp 0 = 1 ∧
     (get_simulation_data libmQ cfgNegStep drawsSample).value
       ≠ fin (∑ i in Finset.Icc 1 (cfgNegStep.N + 1),
           max (0.05 - cfgNegStep.K) 0 * (1 + cfgNegStep.alpha * 0.05) ^ (-(i : ℤ)))) ∧
    (cfgHugeCap.sigma = 0 ∧ cfgHugeCap.cap = true ∧ 0 ≤ cfgHugeCap.alpha ∧ 1 ≤ cfgHugeCap.M ∧
     (Fp.run_paths binary64 libmQ cfgHugeCap drawsSample 1).D 2 0 = fin 0 ∧
     (Fp.get_simulation_data binary64 libmQ cfgHugeCap drawsSample).value = nan) := by
  refine ⟨?_, ?_⟩
  · refine ⟨rfl, rfl, by norm_num [cfgNegStep], by decide, by norm_num [libmQ], ?_⟩
    rw [value_of_nan libmQ cfgNegStep drawsSample 0 (by decide)
      (run_paths_V_neg_step libmQ cfgNegStep drawsSample (by norm_num [cfgNegStep])
        (by decide) 0)]
    exact fun h => Dbl.noConfusion h
  · have h := binary64_underflow_run cfgHugeCap rfl rfl rfl rfl (by decide)
    exact ⟨rfl, rfl, by show (0 : ℚ) ≤ 2 ^ 600; positivity, by decide,
      (rounded_run_terminal_discount binary64 libmQ cfgHugeCap drawsSample 0 2 (by decide)
        (by decide)).trans h.1, h.2.2⟩

/-- C7, amended: for `sigma = 0`, a cap, `alpha >= 0`, `dT >= 0`, `M >= 1` and inputs of
ordinary magnitude, `(1 + alpha*0.05)^(N+1) <= 2^200`, `|K| <= 2^100` and `N, M < 2^31` (the
range of `int`), the present value is the analytic discounted payoff of the cap on the flat
curve, `PV = sum over i = 1..N+1 of max(0.05 - K, 0) * (1 + alpha*0.05)^(-i)`; on such a run
every discount factor lies in `[2^-200, 1]` and every path value times `M` is at most `2^500`
in absolute value, far from the underflow and the overflow of a double. -/
theorem C7_cap_flat_value_in_range (m : Libm F) (c : IR F) (normal : Nat → F)
    (hsigma : c.sigma = 0) (hexp : m.exp 0 = 1) (hcap : c.cap = true)
    (halpha : 0 ≤ c.alpha) (hdT : 0 ≤ c.dT) (hM : 1 ≤ c.M)
    (hA : (1 + c.alpha * 0.05) ^ (c.N + 1) ≤ 2 ^ 200) (hK : |c.K| ≤ 2 ^ 100)
    (hN31 : c.N < 2 ^ 31) (hM31 : c.M < 2 ^ 31) :
    (get_simulation_data m c normal).value
      = fin (∑ i in Finset.Icc 1 (c.N + 1),
          max (0.05 - c.K) 0 * (1 + c.alpha * 0.05) ^ (-(i : ℤ))) ∧
    (∀ n i, n < i → i ≤ c.N + 1 →
      ∃ d, (run_paths m c normal c.M).D i n = fin d ∧ 1 / 2 ^ 200 ≤ d ∧ d ≤ 1) ∧
    (∀ x ∈ (get_simulation_data m c normal).datapoints,
      ∃ v, x = fin v ∧ |v| * (c.M : F) ≤ 2 ^ 500) := by
  have hs : (0 : F) < spot_init := by unfold spot_init; norm_num
  have hne : 1 + c.alpha * spot_init ≠ 0 :=
    ne_of_gt (add_pos_of_pos_of_nonneg one_pos (mul_nonneg halpha (le_of_lt hs)))
  refine ⟨?_, flat_run_in_range m c normal hsigma hexp halpha hdT hM hA
    (cap_payoff_bound c hcap hK) hN31 hM31⟩
  rw [value_flat m c normal hsigma hexp hne hdT hM, if_pos hcap, Finset.mul_sum]
  congr 1
  refine Finset.sum_congr rfl (fun i hi => ?_)
  rw [Finset.mem_Icc] at hi
  rw [flat_contribution_cap c hne hcap i hi.1 hi.2]
  unfold flat_payoff
  rw [if_pos hcap]
  rfl

/-- C7, amended, at the cap of the application with zero volatility and the strike `0.04`:
the present value is `0.01 * (q + q^2 + q^3 + q^4 + q^5)` with `q = 1 / 1.025`. -/
theorem C7_cap_flat_value_in_range_witness :
    cfgFlatCap.sigma = 0 ∧ libmQ.exp 0 = 1 ∧ cfgFlatCap.cap = true ∧ 0 ≤ cfgFlatCap.alpha ∧
    0 ≤ cfgFlatCap.dT ∧ 1 ≤ cfgFlatCap.M ∧
    (1 + cfgFlatCap.alpha * 0.05) ^ (cfgFlatCap.N + 1) ≤ 2 ^ 200 ∧ |cfgFlatCap.K| ≤ 2 ^ 100 ∧
    cfgFlatCap.N < 2 ^ 31 ∧ cfgFlatCap.M < 2 ^ 31 ∧
    (get_simulation_data libmQ cfgFlatCap drawsSample).value
      = fin (∑ i in Finset.Icc 1 (cfgFlatCap.N + 1),
          max (0.05 - cfgFlatCap.K) 0 * (1 + cfgFlatCap.alpha * 0.05) ^ (-(i : ℤ))) :=
  have hA : (1 + cfgFlatCap.alpha * 0.05) ^ (cfgFlatCap.N + 1) ≤ (2 : ℚ) ^ 200 := by
    have e : (1 + cfgFlatCap.alpha * 0.05 : ℚ) ≤ 2 := by
      norm_num [cfgFlatCap, scenarioB0, scenarioB]
    calc (1 + cfgFlatCap.alpha * 0.05 : ℚ) ^ (cfgFlatCap.N + 1)
        ≤ 2 ^ (cfgFlatCap.N + 1) :=
          pow_le_pow_left₀ (by norm_num [cfgFlatCap, scenarioB0, scenarioB]) e _
      _ ≤ 2 ^ 200 := pow_le_pow_right₀ (by norm_num) (by decide)
  have hK : |cfgFlatCap.K| ≤ (2 : ℚ) ^ 100 := by
    have e : |cfgFlatCap.K| ≤ (1 : ℚ) := by
      rw [abs_le]
      constructor <;> norm_num [cfgFlatCap]
    exact le_trans e (one_le_pow₀ (by norm_num))
  have hM : 1 ≤ cfgFlatCap.M := by decide
  have hN31 : cfgFlatCap.N < 2 ^ 31 := by decide
  have hM31 : cfgFlatCap.M < 2 ^ 31 := by decide
  ⟨rfl, by norm_num [libmQ], rfl, by norm_num [cfgFlatCap, scenarioB0, scenarioB],
   by norm_num [cfgFlatCap, scenarioB0, scenarioB], hM, hA, hK, hN31, hM31,
   (C7_cap_flat_value_in_range libmQ cfgFlatCap drawsSample rfl (by norm_num [libmQ]) rfl
    (by norm_num [cfgFlatCap, scenarioB0, scenarioB])
    (by norm_num [cfgFlatCap, scenarioB0, scenarioB]) hM hA hK hN31 hM31).1⟩

/-- C8 as stated fails: for the two-period swap with `sigma = 0`, `alpha = 0.25`,
`K = 0.04` and notional `1e6` the engine returns `2500 * (1 + (80/81)^2)`, the claimed sum
is `2500 * (80/81 + (80/81)^2)`; and with a negative time step the present value is not
finite.  And in binary64 arithmetic, for the swap on two periods with `alpha = 2^600`, the
terminal discount factor `D[2][0]` underflows to `0`, line 81 divides by it, and the present
value is not finite. -/
theorem C8_counterexample :
    (cfgFlatSwap.sigma = 0 ∧ cfgFlatSwap.cap = false ∧ 0 ≤ cfgFlatSwap.alpha ∧
     1 ≤ cfgFlatSwap.M ∧ libmQ.exp 0 = 1 ∧
     (get_simulation_data libmQ cfgFlatSwap drawsSample).value
       = fin (2500 * (1 + (80 / 81) ^ 2)) ∧
     (get_simulation_data libmQ cfgFlatSwap drawsSample).value
       ≠ fin (∑ i in Finset.Icc 1 (cfgFlatSwap.N + 1),
           cfgFlatSwap.notional * cfgFlatSwap.alpha * (0.05 - cfgFlatSwap.K)
             * (1 + cfgFlatSwap.alpha * 0.05) ^ (-(i : ℤ))) ∧
     cfgNegStepSwap.dT < 0 ∧
     (get_simulation_data libmQ cfgNegStepSwap drawsSample).value = nan) ∧
    (cfgHugeSwap.sigma = 0 ∧ cfgHugeSwap.cap = false ∧ 0 ≤ cfgHugeSwap.alpha ∧
     1 ≤ cfgHugeSwap.M ∧
     (Fp.run_paths binary64 libmQ cfgHugeSwap drawsSample 1).D 2 0 = fin 0 ∧
     (Fp.get_simulation_data binary64 libmQ cfgHugeSwap drawsSample).value = nan) := by
  refine ⟨?_, ?_⟩
  · have hv : (get_simulation_data libmQ cfgFlatSwap drawsSample).value
        = fin (2500 * (1 + (80 / 81) ^ 2)) := by
      rw [value_flat libmQ cfgFlatSwap drawsSample rfl (by norm_num [libmQ])
        (by norm_num [cfgFlatSwap, spot_init]) (by norm_num [cfgFlatSwap]) (by decide)]
      congr 1
      have e : Finset.Icc 1 (cfgFlatSwap.N + 1) = {1, 2} := by decide
      rw [e, Finset.sum_pair (by decide)]
      norm_num [flat_contribution, flat_payoff, flat_df, spot_init, cfgFlatSwap]
    refine ⟨rfl, rfl, by norm_num [cfgFlatSwap], by decide, by norm_num [libmQ], hv, ?_,
      by norm_num [cfgNegStepSwap],
      value_of_nan libmQ cfgNegStepSwap drawsSample 0 (by decide)
        (run_paths_V_neg_step libmQ cfgNegStepSwap drawsSample (by norm_num [cfgNegStepSwap])
          (by decide) 0)⟩
    rw [hv]
    intro h
    have e : Finset.Icc 1 (cfgFlatSwap.N + 1) = {1, 2} := by decide
    rw [e, Finset.sum_pair (by decide)] at h
    have h2 := Dbl.fin.inj h
    norm_num [cfgFlatSwap] at h2
  · have h := binary64_underflow_run cfgHugeSwap rfl rfl rfl rfl (by decide)
    exact ⟨rfl, rfl, by show (0 : ℚ) ≤ 2 ^ 600; positivity, by decide,
      (rounded_run_terminal_discount binary64 libmQ cfgHugeSwap drawsSample 0 2 (by decide)
        (by decide)).trans h.1, h.2.2⟩

/-- C8, amended: for `sigma = 0`, a swap, `alpha >= 0`, `dT >= 0`, `M >= 1` and inputs of
ordinary magnitude, `(1 + alpha*0.05)^(N+1) <= 2^200`, `|K| <= 2^100`,
`|notional*alpha| <= 2^100` and `N, M < 2^31`, the present value is
`sum over i = 1..N+1 of notional*alpha*(0.05 - K) * (1 + alpha*0.05)^(N+1-2*i)`: the cashflow
of period `i` is rolled to the terminal date, factor `(1 + alpha*0.05)^(N+1-i)`, and
multiplied by the time-0 discount factor of its own payment date, `(1 + alpha*0.05)^(-i)`; on
such a run every discount factor lies in `[2^-200, 1]` and every path value times `M` is at
most `2^500` in absolute value. -/
theorem C8_swap_flat_value_in_range (m : Libm F) (c : IR F) (normal : Nat → F)
    (hsigma : c.sigma = 0) (hexp : m.exp 0 = 1) (hcap : c.cap = false)
    (halpha : 0 ≤ c.alpha) (hdT : 0 ≤ c.dT) (hM : 1 ≤ c.M)
    (hA : (1 + c.alpha * 0.05) ^ (c.N + 1) ≤ 2 ^ 200) (hK : |c.K| ≤ 2 ^ 100)
    (hNA : |c.notional * c.alpha| ≤ 2 ^ 100) (hN31 : c.N < 2 ^ 31) (hM31 : c.M < 2 ^ 31) :
    (get_simulation_data m c normal).value
      = fin (∑ i in Finset.Icc 1 (c.N + 1),
          c.notional * c.alpha * (0.05 - c.K)
            * (1 + c.alpha * 0.05) ^ ((c.N : ℤ) + 1 - 2 * (i : ℤ))) ∧
    (∀ n i, n < i → i ≤ c.N + 1 →
      ∃ d, (run_paths m c normal c.M).D i n = fin d ∧ 1 / 2 ^ 200 ≤ d ∧ d ≤ 1) ∧
    (∀ x ∈ (get_simulation_data m c normal).datapoints,
      ∃ v, x = fin v ∧ |v| * (c.M : F) ≤ 2 ^ 500) := by
  have hs : (0 : F) < spot_init := by unfold spot_init; norm_num
  have hne : 1 + c.alpha * spot_init ≠ 0 :=
    ne_of_gt (add_pos_of_pos_of_nonneg one_pos (mul_nonneg halpha (le_of_lt hs)))
  have hc : ¬ c.cap = true := by rw [hcap]; exact Bool.false_ne_true
  refine ⟨?_, flat_run_in_range m c normal hsigma hexp halpha hdT hM hA
    (swap_payoff_bound c hcap hK hNA) hN31 hM31⟩
  rw [value_flat m c normal hsigma hexp hne hdT hM, if_neg hc]
  congr 1
  refine Finset.sum_congr rfl (fun i hi => ?_)
  rw [Finset.mem_Icc] at hi
  rw [flat_contribution_swap c hne hcap i hi.1 hi.2]
  unfold flat_payoff
  rw [if_neg hc]
  rfl

/-- C8, amended, at the swap of the application with zero volatility. -/
theorem C8_swap_flat_value_in_range_witness :
    scenarioA0.sigma = 0 ∧ libmQ.exp 0 = 1 ∧ scenarioA0.cap = false ∧ 0 ≤ scenarioA0.alpha ∧
    0 ≤ scenarioA0.dT ∧ 1 ≤ scenarioA0.M ∧
    (1 + scenarioA0.alpha * 0.05) ^ (scenarioA0.N + 1) ≤ 2 ^ 200 ∧ |scenarioA0.K| ≤ 2 ^ 100 ∧
    |scenarioA0.notional * scenarioA0.alpha| ≤ 2 ^ 100 ∧
    scenarioA0.N < 2 ^ 31 ∧ scenarioA0.M < 2 ^ 31 ∧
    (get_simulation_data libmQ scenarioA0 drawsSample).value
      = fin (∑ i in Finset.Icc 1 (scenarioA0.N + 1),
          scenarioA0.notional * scenarioA0.alpha * (0.05 - scenarioA0.K)
            * (1 + scenarioA0.alpha * 0.05) ^ ((scenarioA0.N : ℤ) + 1 - 2 * (i : ℤ))) :=
  have hA : (1 + scenarioA0.alpha * 0.05) ^ (scenarioA0.N + 1) ≤ (2 : ℚ) ^ 200 := by
    have e : (1 + scenarioA0.alpha * 0.05 : ℚ) ≤ 2 := by
      norm_num [scenarioA0, scenarioA]
    calc (1 + scenarioA0.alpha * 0.05 : ℚ) ^ (scenarioA0.N + 1)
        ≤ 2 ^ (scenarioA0.N + 1) :=
          pow_le_pow_left₀ (by norm_num [scenarioA0, scenarioA]) e _
      _ ≤ 2 ^ 200 := pow_le_pow_right₀ (by norm_num) (by decide)
  have hK : |scenarioA0.K| ≤ (2 : ℚ) ^ 100 := by
    have e : |scenarioA0.K| ≤ (1 : ℚ) := by
      rw [abs_le]
      constructor <;> norm_num [scenarioA0, scenarioA]
    exact le_trans e (one_le_pow₀ (by norm_num))
  have hNA : |scenarioA0.notional * scenarioA0.alpha| ≤ (2 : ℚ) ^ 100 := by
    have e : |scenarioA0.notional * scenarioA0.alpha| ≤ (2 : ℚ) ^ 18 := by
      rw [abs_le]
      constructor <;> norm_num [scenarioA0, scenarioA]
    exact le_trans e (pow_le_pow_right₀ (by norm_num) (by norm_num))
  have hM : 1 ≤ scenarioA0.M := by decide
  have hN31 : scenarioA0.N < 2 ^ 31 := by decide
  have hM31 : scenarioA0.M < 2 ^ 31 := by decide
  ⟨rfl, by norm_num [libmQ], rfl, by norm_num [scenarioA0, scenarioA],
   by norm_num [scenarioA0, scenarioA], hM, hA, hK, hNA, hN31, hM31,
   (C8_swap_flat_value_in_range libmQ scenarioA0 drawsSample rfl (by norm_num [libmQ]) rfl
    (by norm_num [scenarioA0, scenarioA]) (by norm_num [scenarioA0, scenarioA]) hM
    hA hK hNA hN31 hM31).1⟩

/-- C9 as stated fails: for the at-the-money cap with `sigma = 0` and `alpha = -20` the
first discount factor is `1 / (1 + alpha*0.05) = 1 / 0`, so the path value
`0 * D[1][0] / D[2][0]` and the present value are not `0`; and with a negative time step the
present value is not finite.  And in binary64 arithmetic, for the at-the-money cap on two
periods with `alpha = 2^600`, the terminal discount factor `D[2][0]` underflows to `0`, the
path value is `0 * D[1][0] / 0`, and the present value is not a number. -/
theorem C9_counterexample :
    (cfgSingularCap.cap = true ∧ cfgSingularCap.K = 0.05 ∧ cfgSingularCap.sigma = 0 ∧
     1 ≤ cfgSingularCap.N ∧ 1 ≤ cfgSingularCap.M ∧ libmQ.exp 0 = 1 ∧
     (get_simulation_data libmQ cfgSingularCap drawsSample).value ≠ fin 0 ∧
     cfgNegStepCap.K = 0.05 ∧ cfgNegStepCap.dT < 0 ∧
     (get_simulation_data libmQ cfgNegStepCap drawsSample).value = nan) ∧
    (cfgHugeAccrual.cap = true ∧ fin cfgHugeAccrual.K = binary64 (fin spot_init) ∧
     cfgHugeAccrual.sigma = 0 ∧ 1 ≤ cfgHugeAccrual.N ∧ 1 ≤ cfgHugeAccrual.M ∧
     (Fp.run_paths binary64 libmQ cfgHugeAccrual drawsSample 1).D 2 0 = fin 0 ∧
     (Fp.get_simulation_data binary64 libmQ cfgHugeAccrual drawsSample).value = nan) := by
  refine ⟨?_, ?_⟩
  · refine ⟨rfl, rfl, rfl, by decide, by decide, by norm_num [libmQ], ?_, rfl,
      by norm_num [cfgNegStepCap, cfgNegStep],
      value_of_nan libmQ cfgNegStepCap drawsSample 0 (by decide)
        (run_paths_V_neg_step libmQ cfgNegStepCap drawsSample
          (by norm_num [cfgNegStepCap, cfgNegStep]) (by decide) 0)⟩
    rw [value_of_nan libmQ cfgSingularCap drawsSample 0 (by decide)
      (run_paths_V_singular libmQ cfgSingularCap drawsSample
        (by norm_num [cfgSingularCap, spot_init]) 0)]
    exact fun h => Dbl.noConfusion h
  · have h := binary64_underflow_run cfgHugeAccrual rfl rfl rfl rfl (by decide)
    exact ⟨rfl, binary64_spot.symm, rfl, by decide, by decide,
      (rounded_run_terminal_discount binary64 libmQ cfgHugeAccrual drawsSample 0 2 (by decide)
        (by decide)).trans h.1, h.2.2⟩

/-- C9, amended: in the arithmetic of the program, where the result of every operation is
rounded (for every rounding `r` that keeps `0`, `1`, the double `0.05` and what is not
finite, as binary64 does): for a cap with `K` the double `0.05` and `sigma = 0`, for every
`alpha`, `dT`, `N`, `M >= 1` and every sequence of draws with finite increments
`sqrt(dT) * normal()` for which the terminal discount factor `D[N+1][0]` the run computes is
a finite number other than `0`, the payoff `FV[i]` is `0` for every period `i` in
`[1, N+1]` of every path, every path value is `0` and the present value is `0`. -/
theorem C9_at_the_money_zero (r : Dbl F → Dbl F) (m : Libm F) (c : IR F)
    (normal : Nat → F)
    (hrn : r nan = nan) (hr0 : r (fin 0) = fin 0) (hr1 : r (fin 1) = fin 1)
    (hrs : r (r (fin spot_init)) = r (fin spot_init))
    (hcap : c.cap = true) (hK : fin c.K = r (fin spot_init)) (hsigma : c.sigma = 0)
    (hexp : m.exp 0 = 1)
    (hW : ∀ k, ∃ w, r (r (Dbl.sqrt m (fin c.dT)) * fin (normal k)) = fin w)
    (hM : 1 ≤ c.M)
    (hD : ∃ d, d ≠ 0 ∧ (Fp.run_paths r m c normal c.M).D (c.N + 1) 0 = fin d) :
    (∀ p i, 1 ≤ i → i ≤ c.N + 1 → (Fp.run_paths r m c normal (p + 1)).FV i = fin 0) ∧
    (∀ x ∈ (Fp.get_simulation_data r m c normal).datapoints, x = fin 0) ∧
    (Fp.get_simulation_data r m c normal).value = fin 0 := by
  obtain ⟨d, hd0, hd⟩ := hD
  have e : c.M = (c.M - 1) + 1 := by omega
  rw [e, rounded_run_terminal_discount r m c normal _ (c.N + 1) (by omega) (le_refl _)] at hd
  obtain ⟨s, x, hs0, hx0, hx⟩ := flat_factor_defined r c hrn c.N d hd
  have hs : r (fin s) = fin s := by rw [hs0] at hrs; exact hrs
  have hX : c.N ≤ 1 ∨ ∃ x, x ≠ 0 ∧ r (1 + r (fin c.alpha * fin s)) = fin x :=
    Or.inr ⟨x, hx0, hx⟩
  have hdisc := flat_discount_defined r c hrn hr0 (c.N + 1) d hd0 hd
  have hV : ∀ p, (Fp.run_paths r m c normal (p + 1)).V p = fin 0 := by
    intro p
    rw [rounded_run_flat_V r m c normal hr0 hr1 hsigma hexp s hs0 hs hX hW p]
    exact rounded_flat_value_zero r c hr0 hcap hK hdisc
  refine ⟨fun p i h1 hi => ?_, fun x hx => ?_, ?_⟩
  · rw [rounded_run_paths_succ, (rounded_simulate_path_V r m c normal p _).2.2 i h1 hi,
      ← rounded_run_paths_succ]
    unfold Fp.payoff
    rw [if_pos hcap, rounded_run_flat_L r m c normal hr0 hr1 hsigma hexp s hs0 hs hX hW p
      (i - 1) (i - 1) (le_refl _) (by omega), hK, hs0, fin_sub_fin, sub_self, hr0,
      stdmax_fin_zero, max_self]
  · obtain ⟨p, _, hp⟩ := rounded_mem_datapoints r m c normal x hx
    rw [hp]
    exact hV p
  · have hMne : (c.M : F) ≠ 0 := Nat.cast_ne_zero.mpr (by omega)
    rw [rounded_value_of_const r m c normal hM (fin 0) (fun p _ => hV p), if_pos hcap,
      rounded_sumPV_zero r hr0, hd, fin_mul_fin, mul_zero, hr0, fin_div_fin_of_ne _ hMne,
      zero_div, hr0]

/-- C9, amended, in binary64 arithmetic at the cap with `alpha = 0.5`, two periods and the
strike the double `0.05`, where `D[2][0]` is the double `4286590960019509 / 2^52`. -/
theorem C9_at_the_money_zero_witness :
    binary64 Dbl.nan = Dbl.nan ∧ binary64 (Dbl.fin 0) = Dbl.fin 0 ∧
    binary64 (Dbl.fin 1) = Dbl.fin 1 ∧
    binary64 (binary64 (Dbl.fin spot_init)) = binary64 (Dbl.fin spot_init) ∧
    cfgAtTheMoney.cap = true ∧ Dbl.fin cfgAtTheMoney.K = binary64 (Dbl.fin spot_init) ∧
    cfgAtTheMoney.sigma = 0 ∧ libmQ.exp 0 = 1 ∧
    (∀ k, ∃ w, binary64 (binary64 (Dbl.sqrt libmQ (Dbl.fin cfgAtTheMoney.dT))
      * Dbl.fin (drawsSample k)) = Dbl.fin w) ∧
    1 ≤ cfgAtTheMoney.M ∧
    (∃ d, d ≠ 0 ∧ (Fp.run_paths binary64 libmQ cfgAtTheMoney drawsSample
      cfgAtTheMoney.M).D (cfgAtTheMoney.N + 1) 0 = Dbl.fin d) ∧
    (Fp.run_paths binary64 libmQ cfgAtTheMoney drawsSample (1 + 1)).FV 2 = Dbl.fin 0 ∧
    (Fp.get_simulation_data binary64 libmQ cfgAtTheMoney drawsSample).value = Dbl.fin 0 :=
  have hrs : binary64 (binary64 (Dbl.fin spot_init)) = binary64 (Dbl.fin spot_init) := by
    rw [binary64_spot, binary64_spot_fix]
  have hK : Dbl.fin cfgAtTheMoney.K = binary64 (Dbl.fin spot_init) := binary64_spot.symm
  have hexp : libmQ.exp 0 = 1 := by norm_num [libmQ]
  have hD : ∃ d, d ≠ 0 ∧ (Fp.run_paths binary64 libmQ cfgAtTheMoney drawsSample
      cfgAtTheMoney.M).D (cfgAtTheMoney.N + 1) 0 = Dbl.fin d :=
    ⟨4286590960019509 / 2 ^ 52, by norm_num,
      (rounded_run_terminal_discount binary64 libmQ cfgAtTheMoney drawsSample 1 2
        (by decide) (by decide)).trans binary64_flat_discount⟩
  ⟨binary64_nan, binary64_zero, binary64_one, hrs, rfl, hK, rfl, hexp, binary64_increments,
   by decide, hD,
   (C9_at_the_money_zero binary64 libmQ cfgAtTheMoney drawsSample binary64_nan
    binary64_zero binary64_one hrs rfl hK rfl hexp binary64_increments (by decide) hD).1
      1 2 (by decide) (by decide),
   (C9_at_the_money_zero binary64 libmQ cfgAtTheMoney drawsSample binary64_nan
    binary64_zero binary64_one hrs rfl hK rfl hexp binary64_increments (by decide) hD).2.2⟩

/-- C10 as stated fails: with `alpha = 0` every discount factor is `1` although the
simulated rates are strictly positive, so `D[2][0] < D[1][0]` does not hold.  Nor does it
hold for every `alpha > 0`: in binary64 arithmetic with `alpha = 2^-60` every rate of the
surface is the double `0.05`, the sum `1 + alpha * 0.05` is rounded to `1`, and
`D[1][0] = D[2][0] = 1`. -/
theorem C10_counterexample :
    ((run_paths libmQ cfgZeroAccrual drawsSample 1).L 0 0 = fin 0.05 ∧
     (run_paths libmQ cfgZeroAccrual drawsSample 1).L 1 0 = fin 0.05 ∧
     (run_paths libmQ cfgZeroAccrual drawsSample 1).L 1 1 = fin 0.05 ∧
     (0 : ℚ) < 0.05 ∧ (0 < 1 ∧ 1 < 2 ∧ 2 ≤ cfgZeroAccrual.N + 1) ∧
     Dbl.lt ((run_paths libmQ cfgZeroAccrual drawsSample 1).D 2 0)
       ((run_paths libmQ cfgZeroAccrual drawsSample 1).D 1 0) = false) ∧
    (0 < cfgTinyAccrual.alpha ∧
     (∀ n i, n ≤ i → i ≤ cfgTinyAccrual.N →
       (Fp.run_paths binary64 libmQ cfgTinyAccrual drawsSample 1).L i n
         = fin (3602879701896397 / 2 ^ 56)) ∧
     (0 : ℚ) < 3602879701896397 / 2 ^ 56 ∧
     (Fp.run_paths binary64 libmQ cfgTinyAccrual drawsSample 1).D 1 0 = fin 1 ∧
     (Fp.run_paths binary64 libmQ cfgTinyAccrual drawsSample 1).D 2 0 = fin 1 ∧
     Dbl.lt ((Fp.run_paths binary64 libmQ cfgTinyAccrual drawsSample 1).D 2 0)
       ((Fp.run_paths binary64 libmQ cfgTinyAccrual drawsSample 1).D 1 0) = false) := by
  refine ⟨?_, ?_⟩
  · have hL := run_paths_flat_L libmQ cfgZeroAccrual drawsSample rfl (by norm_num [libmQ])
      (Or.inl (by decide)) (by norm_num [cfgZeroAccrual]) 0
    have hD := run_paths_flat_D libmQ cfgZeroAccrual drawsSample rfl (by norm_num [libmQ])
      (by norm_num [cfgZeroAccrual, spot_init]) (by norm_num [cfgZeroAccrual]) 0
    refine ⟨hL 0 0 (by decide) (by decide), hL 0 1 (by decide) (by decide),
      hL 1 1 (by decide) (by decide), by norm_num, by decide, ?_⟩
    rw [hD 0 2 (by decide) (by decide), hD 0 1 (by decide) (by decide)]
    show decide (_ < _) = false
    rw [decide_eq_false_iff_not]
    norm_num [flat_df, cfgZeroAccrual]
  · have hD1 := (rounded_run_terminal_discount binary64 libmQ cfgTinyAccrual drawsSample 0 1
      (by decide) (by decide)).trans (binary64_tiny_discount cfgTinyAccrual rfl).1
    have hD2 := (rounded_run_terminal_discount binary64 libmQ cfgTinyAccrual drawsSample 0 2
      (by decide) (by decide)).trans (binary64_tiny_discount cfgTinyAccrual rfl).2
    refine ⟨by show (0 : ℚ) < 1 / 2 ^ 60; positivity, fun n i hni hi => ?_, by positivity,
      hD1, hD2, ?_⟩
    · exact rounded_run_flat_L binary64 libmQ cfgTinyAccrual drawsSample binary64_zero
        binary64_one rfl (by norm_num [libmQ]) _ binary64_spot binary64_spot_fix
        (Or.inl (by decide)) binary64_increments 0 n i hni hi
    · rw [hD1, hD2]
      show decide ((1 : ℚ) < 1) = false
      exact decide_eq_false (lt_irrefl _)

/-- C10, amended: for `alpha >= 0` and every surface whose rates observed at step `n` are
strictly positive, the discount factors of step `n` do not increase with the maturity
index: `D[j][n] <= D[i][n]` for `n < i < j <= N + 1`.  They need not decrease strictly. -/
theorem C10_discount_nonincreasing (c : IR F) (L D0 : Mat F) (halpha : 0 ≤ c.alpha)
    (n i j : Nat) (hni : n < i) (hij : i < j) (hj : j ≤ c.N + 1)
    (hpos : ∀ k, n ≤ k → k ≤ c.N → ∃ l, L k n = fin l ∧ 0 < l) :
    Dbl.le (build_discounts c L D0 j n) (build_discounts c L D0 i n) = true := by
  have hden : ∀ k, n ≤ k → k < j → 1 ≤ 1 + c.alpha * toF (L k n) := by
    intro k hk1 hk2
    obtain ⟨l, hl, hl0⟩ := hpos k hk1 (by omega)
    rw [hl]
    exact le_add_of_nonneg_right (mul_nonneg halpha (le_of_lt hl0))
  have hfac : ∀ k ∈ Finset.Ico n j,
      (1 : Dbl F) / (1 + fin c.alpha * L k n) = fin (1 / (1 + c.alpha * toF (L k n))) := by
    intro k hk
    rw [Finset.mem_Ico] at hk
    obtain ⟨l, hl, hl0⟩ := hpos k hk.1 (by omega)
    rw [hl]
    show fin 1 / (fin 1 + fin c.alpha * fin l) = fin (1 / (1 + c.alpha * l))
    rw [fin_mul_fin, fin_add_fin, fin_div_fin_of_ne _
      (ne_of_gt (add_pos_of_pos_of_nonneg one_pos (mul_nonneg halpha (le_of_lt hl0))))]
  have hDj : build_discounts c L D0 j n
      = fin (∏ k in Finset.Ico n j, 1 / (1 + c.alpha * toF (L k n))) := by
    rw [build_discounts_apply, if_pos ⟨by omega, hj⟩, df_prod_eq_prod,
      Finset.prod_congr rfl hfac, prod_fin]
  have hDi : build_discounts c L D0 i n
      = fin (∏ k in Finset.Ico n i, 1 / (1 + c.alpha * toF (L k n))) := by
    rw [build_discounts_apply, if_pos ⟨hni, by omega⟩, df_prod_eq_prod,
      Finset.prod_congr rfl (fun k hk => hfac k (Finset.mem_Ico.mpr
        ⟨(Finset.mem_Ico.mp hk).1, by have := (Finset.mem_Ico.mp hk).2; omega⟩)), prod_fin]
  rw [hDj, hDi]
  show decide (_ ≤ _) = true
  rw [decide_eq_true_iff,
    ← Finset.prod_Ico_consecutive _ (le_of_lt hni) (le_of_lt hij)]
  have hPpos : 0 ≤ ∏ k in Finset.Ico n i, 1 / (1 + c.alpha * toF (L k n)) := by
    refine Finset.prod_nonneg (fun k hk => ?_)
    rw [Finset.mem_Ico] at hk
    exact le_of_lt (one_div_pos.mpr (lt_of_lt_of_le one_pos (hden k hk.1 (by omega))))
  have hQ : ∏ k in Finset.Ico i j, 1 / (1 + c.alpha * toF (L k n)) ≤ 1 := by
    refine Finset.prod_le_one (fun k hk => ?_) (fun k hk => ?_)
    · rw [Finset.mem_Ico] at hk
      exact le_of_lt (one_div_pos.mpr (lt_of_lt_of_le one_pos (hden k (by omega) hk.2)))
    · rw [Finset.mem_Ico] at hk
      exact (div_le_one (lt_of_lt_of_le one_pos (hden k (by omega) hk.2))).mpr
        (hden k (by omega) hk.2)
  exact mul_le_of_le_one_right hPpos hQ

/-- C10, amended, at the cap of the application: `D[4][0] <= D[2][0]` on the surfaces the
third path leaves. -/
theorem C10_discount_nonincreasing_witness :
    0 ≤ scenarioB.alpha ∧ (0 < 2 ∧ 2 < 4 ∧ 4 ≤ scenarioB.N + 1) ∧
    Dbl.le
      (build_discounts scenarioB (run_paths libmQ scenarioB drawsSample (2 + 1)).L
        (run_paths libmQ scenarioB drawsSample 2).D 4 0)
      (build_discounts scenarioB (run_paths libmQ scenarioB drawsSample (2 + 1)).L
        (run_paths libmQ scenarioB drawsSample 2).D 2 0) = true :=
  ⟨by norm_num [scenarioB], by decide,
   C10_discount_nonincreasing scenarioB _ _ (by norm_num [scenarioB]) 0 2 4
    (by decide) (by decide) (by decide)
    (fun k _ hk2 => ⟨spot_init, run_paths_flat libmQ scenarioB drawsSample (2 + 1) k hk2,
      by norm_num [spot_init]⟩)⟩

/-- C13: no state leaks from one path to the next.  For every path index `p` the value
`V[p]` the run computes equals the value obtained by evaluating that path alone, as path
`0`, on the freshly initialised arrays with the `N` draws of path `p`; it is the same for
every stream that has the same `N` draws at the positions of path `p`; it is the same
whatever the arrays hold when the iteration starts, column `0` of `L` apart; and it is the
entry `datapoints[p]` of the result. -/
theorem C13_no_state_leak (m : Libm F) (c : IR F) (normal : Nat → F) (p : Nat) :
    ((run_paths m c normal (p + 1)).V p
      = (simulate_path m c (fun k => normal (p * c.N + k)) 0 (init_state c)).V 0) ∧
    (∀ normal2 : Nat → F, (∀ k, k < c.N → normal2 (p * c.N + k) = normal (p * c.N + k)) →
      (run_paths m c normal2 (p + 1)).V p = (run_paths m c normal (p + 1)).V p) ∧
    (∀ s : SimState F, (∀ i, i ≤ c.N → s.L i 0 = fin 0.05) → s.calls = p * c.N →
      (simulate_path m c normal p s).V p = (run_paths m c normal (p + 1)).V p) ∧
    (p < c.M → (get_simulation_data m c normal).datapoints[p]?
      = some ((simulate_path m c (fun k => normal (p * c.N + k)) 0 (init_state c)).V 0)) := by
  have hfresh : (run_paths m c normal (p + 1)).V p
      = (simulate_path m c (fun k => normal (p * c.N + k)) 0 (init_state c)).V 0 := by
    rw [run_paths_succ]
    refine simulate_path_value_frame m c _ _ p 0 _ _ (fun i hi => ?_) (fun k _ => ?_)
    · rw [run_paths_flat m c normal p i hi, init_state_L, if_pos ⟨rfl, hi⟩]
    · rw [run_paths_calls]
      show normal (p * c.N + k) = normal (p * c.N + (0 + k))
      rw [Nat.zero_add]
  refine ⟨hfresh, fun normal2 h2 => ?_, fun s hs hcalls => ?_, fun hp => ?_⟩
  · rw [run_paths_succ, run_paths_succ]
    refine simulate_path_value_frame m c _ _ p p _ _ (fun i hi => ?_) (fun k hk => ?_)
    · rw [run_paths_flat m c normal2 p i hi, run_paths_flat m c normal p i hi]
    · rw [run_paths_calls, run_paths_calls]
      exact h2 k hk
  · rw [run_paths_succ]
    refine simulate_path_value_frame m c _ _ p p _ _ (fun i hi => ?_) (fun k _ => ?_)
    · rw [hs i hi, run_paths_flat m c normal p i hi]
      rfl
    · rw [hcalls, run_paths_calls]
  · show ((List.range c.M).map (run_paths m c normal c.M).V)[p]? = _
    rw [List.getElem?_map, List.getElem?_range hp, ← hfresh]
    have e : c.M = p + 1 + (c.M - (p + 1)) := by omega
    show some ((run_paths m c normal c.M).V p) = _
    rw [e, run_paths_V_stable]

/-- C13 at the swap of the application: the value of path `41` is the value of a run of
that path alone, and it is the entry `41` of the result. -/
theorem C13_no_state_leak_witness :
    (run_paths libmQ scenarioA drawsSample (41 + 1)).V 41
      = (simulate_path libmQ scenarioA (fun k => drawsSample (41 * scenarioA.N + k)) 0
          (init_state scenarioA)).V 0 ∧
    (get_simulation_data libmQ scenarioA drawsSample).datapoints[41]?
      = some ((simulate_path libmQ scenarioA (fun k => drawsSample (41 * scenarioA.N + k)) 0
          (init_state scenarioA)).V 0) :=
  ⟨(C13_no_state_leak libmQ scenarioA drawsSample 41).1,
   (C13_no_state_leak libmQ scenarioA drawsSample 41).2.2.2 (by decide)⟩

/-- C18: the time-0 discount column does not depend on the path: on every path and for
every `i` in `[1, N+1]`, `D[i][0] = (1 / (1 + alpha*0.05))^i` whatever the draws, which is
the number `(1 + alpha*0.05)^(-i)` when `1 + alpha*0.05` is not zero.  Hence, for a cap and
`M >= 1`, the present value the engine returns, the last path's `D[N+1][0]` times the mean
of the path values, equals the per-path-discounted mean over `p` of `V_p * D_p[N+1][0]`. -/
theorem C18_time0_discount_column (m : Libm F) (c : IR F) (normal : Nat → F) :
    (∀ p i, 1 ≤ i → i ≤ c.N + 1 →
      (run_paths m c normal (p + 1)).D i 0 = (1 / (1 + fin c.alpha * fin 0.05)) ^ i) ∧
    (1 + c.alpha * 0.05 ≠ 0 → ∀ p i, 1 ≤ i → i ≤ c.N + 1 →
      (run_paths m c normal (p + 1)).D i 0 = fin ((1 + c.alpha * 0.05) ^ (-(i : ℤ)))) ∧
    (c.cap = true → 1 ≤ c.M →
      (get_simulation_data m c normal).value = value_path_discounted m c normal) := by
  refine ⟨fun p i h1 hi => run_paths_D0 m c normal p i h1 hi,
    fun hne p i h1 hi => ?_, fun hcap hM => ?_⟩
  · have hne1 : 1 + c.alpha * spot_init ≠ 0 := hne
    rw [run_paths_D0 m c normal p i h1 hi]
    show (fin 1 / (fin 1 + fin c.alpha * fin spot_init)) ^ i
      = fin ((1 + c.alpha * spot_init) ^ (-(i : ℤ)))
    rw [fin_mul_fin, fin_add_fin, fin_div_fin_of_ne _ hne1, fin_pow, one_div, inv_pow,
      zpow_neg, zpow_natCast]
  · have hne : List.range c.M ≠ [] := by
      intro h
      have := congrArg List.length h
      rw [List.length_range] at this
      simp at this
      omega
    have hMe : c.M = (c.M - 1) + 1 := by omega
    have hsum : sumPV c.M (run_paths m c normal c.M).V
        = ((List.range c.M).map (fun p => (run_paths m c normal (p + 1)).V p)).sum := by
      refine sumPV_map_congr _ _ _ (fun p hp => ?_)
      have e : c.M = p + 1 + (c.M - (p + 1)) := by omega
      rw [e, run_paths_V_stable]
    have hmap : (List.range c.M).map
          (fun p => (run_paths m c normal (p + 1)).V p
            * (run_paths m c normal (p + 1)).D (c.N + 1) 0)
        = (List.range c.M).map
          (fun p => (run_paths m c normal (p + 1)).V p
            * (1 / (1 + fin c.alpha * fin spot_init)) ^ (c.N + 1)) :=
      List.map_congr_left (fun p _ => by
        rw [run_paths_D0 m c normal p (c.N + 1) (by omega) (le_refl _)])
    show (if c.cap = true then
        (run_paths m c normal c.M).D (c.N + 1) 0 * sumPV c.M (run_paths m c normal c.M).V
          / fin (c.M : F)
      else sumPV c.M (run_paths m c normal c.M).V / fin (c.M : F)) = _
    unfold value_path_discounted
    rw [if_pos hcap, hsum, hmap, list_sum_mul_right _ hne]
    congr 1
    rw [mul_comm]
    congr 1
    rw [hMe, run_paths_D0 m c normal (c.M - 1) (c.N + 1) (by omega) (le_refl _)]

/-- C18 at the cap of the application: `D[5][0]` on the path `12` and the present value. -/
theorem C18_time0_discount_column_witness :
    scenarioB.cap = true ∧ 1 ≤ scenarioB.M ∧ 1 + scenarioB.alpha * 0.05 ≠ 0 ∧
    (run_paths libmQ scenarioB drawsSample (12 + 1)).D 5 0
      = fin ((1 + scenarioB.alpha * 0.05) ^ (-((5 : Nat) : ℤ))) ∧
    (get_simulation_data libmQ scenarioB drawsSample).value
      = value_path_discounted libmQ scenarioB drawsSample :=
  ⟨rfl, by decide, by norm_num [scenarioB],
   (C18_time0_discount_column libmQ scenarioB drawsSample).2.1 (by norm_num [scenarioB])
    12 5 (by decide) (by decide),
   (C18_time0_discount_column libmQ scenarioB drawsSample).2.2 rfl (by decide)⟩

/-- C19: the last tenor carries no drift correction: for every configuration, every vector
of increments and every `n` in `[0, N]`,
`L[N][n] = 0.05 * exp(sum over k = 1..n of (-0.5*sigma^2*dT + sigma*dW[k]))`, whatever
`alpha` and the other tenors are; `exp` turns sums into products and `exp(0) = 1`. -/
theorem C19_last_tenor (m : Libm F) (c : IR F) (w : Nat → F) (L0 : Mat F)
    (hexp0 : m.exp 0 = 1) (hexp_add : ∀ a b, m.exp (a + b) = m.exp a * m.exp b)
    (hflat : ∀ i, i ≤ c.N → L0 i 0 = fin 0.05) :
    ∀ n, n ≤ c.N →
      evolve_rates m c (fun j => fin (w j)) L0 c.N n
        = fin (0.05 * m.exp
            (∑ k in Finset.Icc 1 n, (-0.5 * c.sigma ^ 2 * c.dT + c.sigma * w k))) := by
  obtain ⟨hframe, hrec⟩ := evolve_rates_spec m c (fun j => fin (w j)) L0
  intro n
  induction n with
  | zero =>
    intro _
    rw [hframe c.N 0 (by omega), hflat c.N (le_refl _)]
    congr 1
    rw [show Finset.Icc 1 0 = (∅ : Finset Nat) from rfl, Finset.sum_empty, hexp0, mul_one]
  | succ n ih =>
    intro hn
    rw [hrec n c.N (by omega) (by omega) (le_refl _)]
    unfold next_rate
    rw [drift_sum_last, ih (by omega), zero_def]
    simp only [neg_fin, fin_mul_fin, fin_sub_fin, fin_add_fin, exp_fin]
    have e : (-(0 : F) * c.sigma - 0.5 * c.sigma * c.sigma) * c.dT + c.sigma * w (n + 1)
        = -0.5 * c.sigma ^ 2 * c.dT + c.sigma * w (n + 1) := by ring
    rw [e, Finset.sum_Icc_succ_top (by omega), mul_assoc, ← hexp_add]

/-- C19 over the real numbers with the exponential function, at the swap of the
application: the entry `L[3][2]`. -/
theorem C19_last_tenor_witness :
    Real.exp 0 = 1 ∧ (2 ≤ 3) ∧
    evolve_rates (⟨Real.exp, Real.sqrt⟩ : Libm ℝ)
        (⟨1000000, 0.04, 0.25, 0.15, 0.25, 3, 1000, false⟩ : IR ℝ)
        (fun j => fin ((j : ℝ) / 10)) (init_state
          (⟨1000000, 0.04, 0.25, 0.15, 0.25, 3, 1000, false⟩ : IR ℝ)).L 3 2
      = fin (0.05 * Real.exp
          (∑ k in Finset.Icc (1 : Nat) 2,
            (-0.5 * (0.15 : ℝ) ^ 2 * 0.25 + 0.15 * ((k : ℝ) / 10)))) :=
  ⟨Real.exp_zero, by decide,
   C19_last_tenor (⟨Real.exp, Real.sqrt⟩ : Libm ℝ)
    (⟨1000000, 0.04, 0.25, 0.15, 0.25, 3, 1000, false⟩ : IR ℝ)
    (fun j => (j : ℝ) / 10) _ Real.exp_zero Real.exp_add
    (fun i hi => by rw [init_state_L, if_pos ⟨rfl, hi⟩]; rfl) 2 (by decide)⟩

/-- C14 as stated fails: the swap with `N = 0`, `sigma = -0.15` and `dT = -0.25` is not
rejected; the engine returns one datapoint and the finite present value
`2500 / 1.0125 = 200000 / 81`. -/
theorem C14_counterexample :
    cfgInvalid.N < 1 ∧ cfgInvalid.sigma < 0 ∧ cfgInvalid.dT ≤ 0 ∧
    (get_simulation_data libmQ cfgInvalid drawsSample).datapoints.length = 1 ∧
    (get_simulation_data libmQ cfgInvalid drawsSample).value = fin (200000 / 81) := by
  refine ⟨by decide, by norm_num [cfgInvalid], by norm_num [cfgInvalid], ?_, ?_⟩
  · show ((List.range cfgInvalid.M).map _).length = 1
    rw [List.length_map, List.length_range]
    rfl
  · rw [value_no_tenor libmQ cfgInvalid drawsSample rfl (by decide)
      (by norm_num [cfgInvalid, spot_init])]
    congr 1
    norm_num [flat_payoff, spot_init, cfgInvalid]

/-- C14, amended: `IR::get_simulation_data` validates none of `N`, `M`, `sigma`, `dT`.  With
`N < 0` or `M < 0` the call has no result (the allocations of lines 7-16 throw, or, with
`N = -1`, line 30 writes out of bounds, which is undefined behaviour).  With `N >= 0`,
`N + 2` in the range of `int` and `M >= 0` the configuration is not rejected, whatever
`sigma` and `dT` are, negative values included: the run returns a result with `M` path
values; with `M = 0` the returned value is `0 / 0`, not a number; with `N = 0`, `M >= 1` and
`1 + alpha*0.05 != 0` it is the finite present value `payoff / (1 + alpha*0.05)` of the
single period. -/
theorem C14_not_rejected (m : Libm F) (a : IR_args F) (normal : Nat → F) :
    (a.N < 0 ∨ a.M < 0 → a.get_simulation_data m normal = none) ∧
    (0 ≤ a.N → a.N + 2 < 2 ^ 31 → 0 ≤ a.M →
      ∃ r, a.get_simulation_data m normal = some r ∧
        (r.datapoints.length : Int) = a.M ∧
        (a.M = 0 → r.value = nan) ∧
        (a.N = 0 → 1 ≤ a.M → 1 + a.alpha * 0.05 ≠ 0 →
          r.value
            = fin ((if a.cap then max (0.05 - a.K) 0 else a.notional * a.alpha * (0.05 - a.K))
                / (1 + a.alpha * 0.05)))) := by
  refine ⟨fun h => ?_, fun hN hN31 hM => ⟨_, call_of_nonneg m a normal hN hN31 hM, ?_, ?_, ?_⟩⟩
  · unfold IR_args.get_simulation_data
    rw [if_pos (by omega)]
  · show (((List.range a.toIR.M).map (run_paths m a.toIR normal a.toIR.M).V).length : Int)
      = a.M
    rw [List.length_map, List.length_range]
    exact Int.toNat_of_nonneg hM
  · intro h0
    exact value_no_paths m a.toIR normal (by show a.M.toNat = 0; rw [h0]; rfl)
  · intro h0 h1 halpha
    exact value_no_tenor m a.toIR normal (by show a.N.toNat = 0; rw [h0]; rfl)
      (by show 1 ≤ a.M.toNat; omega) halpha

/-- C14, amended, at the swap without tenors and at a negative path count. -/
theorem C14_not_rejected_witness :
    (argsNegPaths.N < 0 ∨ argsNegPaths.M < 0) ∧
    argsNegPaths.get_simulation_data libmQ drawsSample = none ∧
    (0 ≤ argsInvalid.N ∧ argsInvalid.N + 2 < 2 ^ 31 ∧ 0 ≤ argsInvalid.M ∧
      argsInvalid.sigma < 0 ∧ argsInvalid.dT ≤ 0) ∧
    (∃ r, argsInvalid.get_simulation_data libmQ drawsSample = some r ∧
      (r.datapoints.length : Int) = argsInvalid.M) :=
  ⟨Or.inr (by decide),
   (C14_not_rejected libmQ argsNegPaths drawsSample).1 (Or.inr (by decide)),
   ⟨by decide, by decide, by decide, by norm_num [argsInvalid], by norm_num [argsInvalid]⟩,
   (let ⟨r, hr, hl, _⟩ := (C14_not_rejected libmQ argsInvalid drawsSample).2
      (by decide) (by decide) (by decide)
    ⟨r, hr, hl⟩)⟩

/-- C15 as stated fails: for the two-period swap with `sigma = 0` and `alpha = -40` every
denominator `1 + alpha*L[k][n]` is `-1 <= 0`, and the run reports nothing: it returns the
finite present value `-800000` computed with those denominators. -/
theorem C15_counterexample :
    1 + cfgNegDenominator.alpha * 0.05 ≤ 0 ∧
    (run_paths libmQ cfgNegDenominator drawsSample 1).L 0 0 = fin 0.05 ∧
    (get_simulation_data libmQ cfgNegDenominator drawsSample).value = fin (-800000) := by
  refine ⟨by norm_num [cfgNegDenominator, cfgFlatSwap],
    run_paths_flat libmQ cfgNegDenominator drawsSample 1 0 (by decide), ?_⟩
  rw [value_flat libmQ cfgNegDenominator drawsSample rfl (by norm_num [libmQ])
    (by norm_num [cfgNegDenominator, cfgFlatSwap, spot_init])
    (by norm_num [cfgNegDenominator, cfgFlatSwap]) (by decide)]
  congr 1
  have e : Finset.Icc 1 (cfgNegDenominator.N + 1) = {1, 2} := by decide
  rw [e, Finset.sum_pair (by decide)]
  norm_num [flat_contribution, flat_payoff, flat_df, spot_init, cfgNegDenominator,
    cfgFlatSwap]

/-- C15, amended: the run has no detection of `1 + alpha*L[k][n] <= 0` and reports no
failure.  For `N >= 0` with `N + 2` in the range of `int` and `M >= 1`, when
`1 + alpha*0.05 = 0` the run returns a result all the same, and the division by zero of
line 56 has propagated into it: every path value and the present value are not numbers. -/
theorem C15_silent_nan (m : Libm F) (a : IR_args F) (normal : Nat → F) (hN : 0 ≤ a.N)
    (hN31 : a.N + 2 < 2 ^ 31) (hM : 1 ≤ a.M) (hzero : 1 + a.alpha * 0.05 = 0) :
    ∃ r, a.get_simulation_data m normal = some r ∧
      (r.datapoints.length : Int) = a.M ∧ (∀ x ∈ r.datapoints, x = nan) ∧ r.value = nan := by
  have hM0 : 0 ≤ a.M := by omega
  have hzero1 : 1 + a.toIR.alpha * spot_init = 0 := hzero
  refine ⟨_, call_of_nonneg m a normal hN hN31 hM0, ?_, fun x hx => ?_, ?_⟩
  · show (((List.range a.toIR.M).map (run_paths m a.toIR normal a.toIR.M).V).length : Int)
      = a.M
    rw [List.length_map, List.length_range]
    exact Int.toNat_of_nonneg hM0
  · obtain ⟨p, _, hp⟩ := mem_datapoints m a.toIR normal x hx
    rw [hp]
    exact run_paths_V_singular m a.toIR normal hzero1 p
  · exact value_of_nan m a.toIR normal 0 (by show 0 < a.M.toNat; omega)
      (run_paths_V_singular m a.toIR normal hzero1 0)

/-- C15, amended, at a cap with `1 + alpha*0.05 = 0`. -/
theorem C15_silent_nan_witness :
    0 ≤ argsSingularCap.N ∧ argsSingularCap.N + 2 < 2 ^ 31 ∧ 1 ≤ argsSingularCap.M ∧
    1 + argsSingularCap.alpha * 0.05 = 0 ∧
    ∃ r, argsSingularCap.get_simulation_data libmQ drawsSample = some r ∧
      (r.datapoints.length : Int) = argsSingularCap.M ∧ (∀ x ∈ r.datapoints, x = nan) ∧
      r.value = nan :=
  ⟨by decide, by decide, by decide, by norm_num [argsSingularCap],
   C15_silent_nan libmQ argsSingularCap drawsSample (by decide) (by decide) (by decide)
    (by norm_num [argsSingularCap])⟩

/-- C16: for every sequence of pairs of uniform variates `(x, y)` that contains a pair with
`s = x^2 + y^2 < 1`, the sampler, given enough trips through its loop, discards every
leading pair with `s >= 1` and returns `x * sqrt(-2*ln(s)/s)` computed from the first pair
with `s < 1`, having read the pairs up to that one. -/
theorem C16_box_muller_first_accepted (m : Libm F) (lg : F → F) (xs ys : Nat → F) (k : Nat)
    (hrej : ∀ j, j < k → 1 ≤ xs j * xs j + ys j * ys j)
    (hacc : xs k * xs k + ys k * ys k < 1) (fuel : Nat) (hfuel : k < fuel) :
    SampleBoxMuller.loop m lg (pair_stream xs ys) fuel 0
      = some (fin (xs k) * Dbl.sqrt m
            (fin (-2) * Dbl.log lg (fin (xs k * xs k + ys k * ys k))
              / fin (xs k * xs k + ys k * ys k)),
          2 * (k + 1)) := by
  have h := loop_first_accepted m lg xs ys k 0 fuel
    (fun j hj => by rw [Nat.zero_add]; exact hrej j hj)
    (by rw [Nat.zero_add]; exact hacc) hfuel
  rw [Nat.zero_add] at h
  exact h

/-- C16 on the pairs `(1, 3/4), (1, 3/4), (1/2, -1/4)`: the third pair is the one
transformed. -/
theorem C16_box_muller_first_accepted_witness :
    xsSample 2 * xsSample 2 + ysSample 2 * ysSample 2 < 1 ∧
    SampleBoxMuller.loop libmQ logQ (pair_stream xsSample ysSample) 5 0
      = some (fin (xsSample 2) * Dbl.sqrt libmQ
            (fin (-2) * Dbl.log logQ (fin (xsSample 2 * xsSample 2 + ysSample 2 * ysSample 2))
              / fin (xsSample 2 * xsSample 2 + ysSample 2 * ysSample 2)),
          2 * (2 + 1)) :=
  ⟨by norm_num [xsSample, ysSample],
   C16_box_muller_first_accepted libmQ logQ xsSample ysSample 2
    (fun j hj => by
      have h2 : j ≠ 2 := by omega
      simp only [xsSample, ysSample, if_neg h2]
      norm_num)
    (by norm_num [xsSample, ysSample]) 5 (by decide)⟩

/-- C17 as stated fails: the pair `(0, 0)`, with `s = 0`, is not rejected: the call returns
on the first trip, having read one pair, and its result is not a number. -/
theorem C17_counterexample :
    SampleBoxMuller.loop libmQ logQ (pair_stream (fun _ => 0) (fun _ => 0)) 1 0
      = some (nan, 2) := by
  rw [loop_accept libmQ logQ _ 0 0 0 0 (pair_stream_even _ _ 0) (pair_stream_odd _ _ 0)
    (by norm_num)]
  have e : ((0 : ℚ) * 0 + 0 * 0) = 0 := by norm_num
  rw [e]
  unfold SampleBoxMuller.transform
  show some (fin 0 * Dbl.sqrt libmQ (fin (-2) * (if (0 : ℚ) ≤ 0 then nan else fin (logQ 0))
    / fin 0), 0 + 2) = _
  rw [if_pos (le_refl _), mul_nan, nan_div]
  rfl

/-- C17, amended: the sampler rejects the pairs with `s >= 1` only: a degenerate pair with
`s = x^2 + y^2 = 0` that follows rejected pairs is accepted, the transform is evaluated at
`s = 0`, where the logarithm and the division are not defined, and the call returns a value
that is not a number. -/
theorem C17_degenerate_draw_accepted (m : Libm F) (lg : F → F) (xs ys : Nat → F) (k : Nat)
    (hrej : ∀ j, j < k → 1 ≤ xs j * xs j + ys j * ys j)
    (hzero : xs k * xs k + ys k * ys k = 0) (fuel : Nat) (hfuel : k < fuel) :
    SampleBoxMuller.loop m lg (pair_stream xs ys) fuel 0 = some (nan, 2 * (k + 1)) := by
  have h := loop_first_accepted m lg xs ys k 0 fuel
    (fun j hj => by rw [Nat.zero_add]; exact hrej j hj)
    (by rw [Nat.zero_add, hzero]; exact one_pos) hfuel
  rw [Nat.zero_add, hzero] at h
  rw [h]
  unfold SampleBoxMuller.transform
  show some (fin (xs k) * Dbl.sqrt m (fin (-2) * (if (0 : F) ≤ 0 then nan else fin (lg 0))
    / fin 0), 2 * (k + 1)) = _
  rw [if_pos (le_refl _), mul_nan, nan_div]
  rfl

/-- C17, amended, on the pairs `(1, 1), (0, 0)`. -/
theorem C17_degenerate_draw_accepted_witness :
    SampleBoxMuller.loop libmQ logQ
        (pair_stream (fun j => if j = 0 then 1 else 0) (fun j => if j = 0 then 1 else 0)) 2 0
      = some (nan, 2 * (1 + 1)) :=
  C17_degenerate_draw_accepted libmQ logQ (fun j => if j = 0 then 1 else 0)
    (fun j => if j = 0 then 1 else 0) 1
    (fun j hj => by
      have h0 : j = 0 := by omega
      simp only [h0, if_true]
      norm_num)
    (by norm_num) 2 (by decide)

/-- C20: with the uniform variates the code draws the degenerate pair is unreachable: for
every odd `RAND_MAX` and every value `r` of `rand()`, `x = 2*r/RAND_MAX - 1` is not zero in
exact arithmetic, so `s = x^2 + y^2 > 0` for every pair drawn, and a call that returns has
evaluated the logarithm and the division at a norm `s` with `0 < s < 1`. -/
theorem C20_degenerate_draw_unreachable (m : Libm F) (lg : F → F) (R : Nat)
    (hodd : R % 2 = 1) (rand : Nat → Nat) :
    (∀ r : Nat, (SampleBoxMuller.uniform R r : Dbl F) = fin (2 * (r : F) / (R : F) - 1) ∧
      (2 * (r : F) / (R : F) - 1) ≠ 0) ∧
    (∀ r1 r2 : Nat,
      (SampleBoxMuller.uniform R r1 * SampleBoxMuller.uniform R r1
        + SampleBoxMuller.uniform R r2 * SampleBoxMuller.uniform R r2 : Dbl F)
        = fin ((2 * (r1 : F) / (R : F) - 1) * (2 * (r1 : F) / (R : F) - 1)
          + (2 * (r2 : F) / (R : F) - 1) * (2 * (r2 : F) / (R : F) - 1)) ∧
      0 < (2 * (r1 : F) / (R : F) - 1) * (2 * (r1 : F) / (R : F) - 1)
          + (2 * (r2 : F) / (R : F) - 1) * (2 * (r2 : F) / (R : F) - 1)) ∧
    (∀ (fuel pos : Nat) (v : Dbl F) (pos1 : Nat),
      SampleBoxMuller.call m lg R rand fuel pos = some (v, pos1) →
      ∃ x s, 0 < s ∧ s < 1 ∧ v = fin x * Dbl.sqrt m (fin (-2 * lg s / s))) := by
  refine ⟨fun r => uniform_ne_zero R hodd r, fun r1 r2 => ⟨?_, ?_⟩,
    fun fuel pos v pos1 h => call_result_defined m lg R hodd rand fuel pos v pos1 h⟩
  · rw [(uniform_ne_zero (F := F) R hodd r1).1, (uniform_ne_zero (F := F) R hodd r2).1,
      fin_mul_fin, fin_mul_fin, fin_add_fin]
  · exact add_pos_of_pos_of_nonneg (mul_self_pos.mpr (uniform_ne_zero R hodd r1).2)
      (mul_self_nonneg _)

/-- C20 at `RAND_MAX = 2147483647`: the variate nearest to `0`, from
`rand() = 1073741823`, is `-1 / 2147483647`. -/
theorem C20_degenerate_draw_unreachable_witness :
    2147483647 % 2 = 1 ∧
    (SampleBoxMuller.uniform 2147483647 1073741823 : Dbl ℚ)
      = fin (2 * ((1073741823 : Nat) : ℚ) / ((2147483647 : Nat) : ℚ) - 1) ∧
    (2 * ((1073741823 : Nat) : ℚ) / ((2147483647 : Nat) : ℚ) - 1) ≠ 0 :=
  ⟨by decide,
   ((C20_degenerate_draw_unreachable libmQ logQ 2147483647 (by decide)
    (fun _ => 0)).1 1073741823).1,
   ((C20_degenerate_draw_unreachable libmQ logQ 2147483647 (by decide)
    (fun _ => 0)).1 1073741823).2⟩

/-- C21: `EQ2::get_premium` does not depend on the constructor argument `sigma2`: two
objects that differ only in `sigma2` return the same premium on every common stream of
normal draws (line 50 evolves the second asset with `sigma1`). -/
theorem C21_premium_ignores_sigma2 (m : Libm F) (c1 c2 : EQ2 F) (normal : Nat → F)
    (hT : c1.T = c2.T) (hr : c1.r = c2.r) (hS10 : c1.S10 = c2.S10) (hS20 : c1.S20 = c2.S20)
    (hsigma1 : c1.sigma1 = c2.sigma1) (hrho : c1.rho = c2.rho) (hN : c1.N = c2.N)
    (hM : c1.M = c2.M) :
    EQ2.get_premium m c1 normal = EQ2.get_premium m c2 normal := by
  have e : c2 = { c1 with sigma2 := c2.sigma2 } := by
    cases c1
    cases c2
    simp only at hT hr hS10 hS20 hsigma1 hrho hN hM
    subst hT hr hS10 hS20 hsigma1 hrho hN hM
    rfl
  rw [e]
  exact (find_premium_sigma2 m c1 c2.sigma2 normal).symm

/-- C21 at the default object, `sigma2 = 0.15`, against the same object with
`sigma2 = 0.9`. -/
theorem C21_premium_ignores_sigma2_witness :
    eq2Default.sigma2 ≠ ({ eq2Default with sigma2 := 0.9 } : EQ2 ℚ).sigma2 ∧
    EQ2.get_premium libmQ eq2Default drawsSample
      = EQ2.get_premium libmQ { eq2Default with sigma2 := 0.9 } drawsSample :=
  ⟨by norm_num [eq2Default],
   C21_premium_ignores_sigma2 libmQ eq2Default { eq2Default with sigma2 := 0.9 } drawsSample
    rfl rfl rfl rfl rfl rfl rfl rfl⟩

/-- C22 as stated fails: for the default object with `sigma = 0.005` (`N = 5`, `M = 6`,
`alpha = 0.000005`) the scalar `k` is `4000`, both exponentials of line 41 overflow at
`x[4] = 1`, their difference is not a number and `std::max` returns it, so `u[4][0] >= 0` is
false.  And with `N = 7` rows and `M = 6` columns line 72 reads `t[6]` past the end of `t`:
the run has no defined result. -/
theorem C22_counterexample :
    (1 ≤ fx1LowVol.N ∧ 1 ≤ fx1LowVol.M ∧ fx1LowVol.sigma ≠ 0 ∧ fx1LowVol.dx ≠ 0) ∧
    (∃ res, FX1.get_data_and_premium cmathQ fx1LowVol = some res ∧
      res.alpha = fin (1 / 200000) ∧ ((0 : ℚ) ≤ 1 / 200000 ∧ (1 / 200000 : ℚ) ≤ 1 / 2) ∧
      res.k = fin 4000 ∧ Dbl.le 0 (res.u 4 0) = false) ∧
    (1 ≤ fx1Tall.N ∧ 1 ≤ fx1Tall.M ∧ FX1.get_data_and_premium cmathQ fx1Tall = none) := by
  have hk : FX1.k fx1LowVol = fin 4000 := by
    unfold FX1.k
    rw [fin_mul_fin, fin_mul_fin, fin_div_fin_of_ne _ (by norm_num [fx1LowVol, fx1Default])]
    congr 1
    norm_num [fx1LowVol, fx1Default]
  have ha : FX1.alpha fx1LowVol = fin (1 / 200000) := by
    unfold FX1.alpha FX1.dtau
    rw [fin_mul_fin, fin_mul_fin, fin_mul_fin, fin_mul_fin,
      fin_div_fin_of_ne _ (by norm_num [fx1LowVol, fx1Default])]
    congr 1
    norm_num [fx1LowVol, fx1Default]
  obtain ⟨res, hres, hra, hrk, _⟩ :=
    result_of_in_bounds cmathQ fx1LowVol (in_bounds _ (by decide) (by decide))
  refine ⟨⟨by decide, by decide, by norm_num [fx1LowVol, fx1Default],
    by norm_num [fx1LowVol, fx1Default]⟩, ⟨res, hres, hra.trans ha, by norm_num, hrk.trans hk, ?_⟩,
    by decide, by decide, ?_⟩
  · rw [result_u_col0 cmathQ fx1LowVol _ hres 4 (by decide)]
    unfold FX1.initial_value
    have hx : FX1.x fx1LowVol 4 = fin 1 := by
      unfold FX1.x
      rw [fin_mul_fin, fin_add_fin]
      congr 1
      norm_num [fx1LowVol, fx1Default]
    have e1 : Dbl.cexp cmathQ (fin 0.5 * (FX1.k fx1LowVol + 1) * FX1.x fx1LowVol 4) = nan := by
      rw [hk, hx, one_def, fin_add_fin, fin_mul_fin, fin_mul_fin]
      exact cmathQ_exp_overflow _ (by norm_num)
    rw [e1, nan_sub]
    rfl
  · unfold FX1.get_data_and_premium FX1.evaluate_data_and_premium
    rw [if_pos (by decide)]

/-- C22, amended: for every configuration with `1 <= N <= M` (so that line 72 reads `t`
within its bounds) for which the `alpha` the solver computes is a number with
`0 <= alpha <= 1/2` and the two exponentials of line 41 are finite for every `i < N` (no
overflow), the solver returns a result and every entry `u[i][j]`, `0 <= i < N`,
`0 <= j < M`, of its grid is `>= 0`, with or without the barrier flag. -/
theorem C22_grid_nonneg (cm : Cmath F) (c : FX1 F) (a : F) (hN : 1 ≤ c.N) (hNM : c.N ≤ c.M)
    (halpha : FX1.alpha c = fin a) (h0 : 0 ≤ a) (h1 : a ≤ 1 / 2)
    (hexp : ∀ i, i < c.N → ∃ e1 e2,
      Dbl.cexp cm (fin 0.5 * (FX1.k c + 1) * FX1.x c i) = fin e1 ∧
      Dbl.cexp cm (fin 0.5 * (FX1.k c - 1) * FX1.x c i) = fin e2) :
    ∃ res, FX1.get_data_and_premium cm c = some res ∧ res.alpha = fin a ∧
      ∀ i j, i < c.N → j < c.M → Dbl.le 0 (res.u i j) = true := by
  have hu : grid_nonneg (FX1.forward_difference c
      (FX1.boundary_condition c (FX1.initial_condition cm c (fun _ _ => 0)))) :=
    forward_difference_nonneg c a halpha h0 h1 _
      (boundary_condition_nonneg c _
        (initial_condition_nonneg cm c hexp _ grid_nonneg_zero))
  obtain ⟨res, hres, hra, _, hru⟩ := result_of_in_bounds cm c (in_bounds c hN hNM)
  refine ⟨res, hres, hra.trans halpha, fun i j _ _ => ?_⟩
  obtain ⟨v, hv, hv0⟩ := hu i j
  rw [hru, hv]
  exact le_zero_fin v hv0

/-- C22, amended, at the default object, where `alpha = 0.018` and `k = 10/9`, without and
with the barrier. -/
theorem C22_grid_nonneg_witness :
    (1 ≤ fx1Default.N ∧ fx1Default.N ≤ fx1Default.M) ∧
    FX1.alpha fx1Default = fin (9 / 500) ∧ ((0 : ℚ) ≤ 9 / 500 ∧ (9 / 500 : ℚ) ≤ 1 / 2) ∧
    (∃ res, FX1.get_data_and_premium cmathQ fx1Default = some res ∧
      res.alpha = fin (9 / 500) ∧
      ∀ i j, i < fx1Default.N → j < fx1Default.M → Dbl.le 0 (res.u i j) = true) ∧
    (∃ res, FX1.get_data_and_premium cmathQ { fx1Default with barrier := true } = some res ∧
      res.alpha = fin (9 / 500) ∧
      ∀ i j, i < fx1Default.N → j < fx1Default.M → Dbl.le 0 (res.u i j) = true) :=
  ⟨by decide, fx1_alpha fx1Default rfl rfl rfl, by norm_num,
   C22_grid_nonneg cmathQ fx1Default (9 / 500) (by decide) (by decide)
    (fx1_alpha fx1Default rfl rfl rfl) (by norm_num) (by norm_num)
    (fx1_exp_finite fx1Default rfl rfl rfl rfl),
   C22_grid_nonneg cmathQ { fx1Default with barrier := true } (9 / 500) (by decide)
    (by decide) (fx1_alpha _ rfl rfl rfl) (by norm_num) (by norm_num)
    (fx1_exp_finite _ rfl rfl rfl rfl)⟩

end Claims

end QuantFi
